import Mathlib

/-!
Sixel encoder and median-cut quantizer: a verification development.

Shallow embedding of `sixel.go` (package `sixel`) and `quantize/mediancut.go`
(package `quantize`).

Modelling conventions

* A Go `string` / byte stream is a `List Nat` of byte values (`Bytes`).
* Go `int` is the 64-bit signed integer, as on every 64-bit platform. A value
  of type `int` is an `Int` between `minInt` and `maxInt` (or a `Nat` for
  counters that are never negative), and an `int` addition or subtraction of
  the encoder that can leave that range is wrapped by `wrapInt` (two's
  complement), as Go does. A counter that advances by one below a bound of type
  `int` cannot wrap and is a plain counting loop (`intRange`).
* `uint8` and `uint32` arithmetic is `Nat` arithmetic with an explicit `% 256` /
  `% 2^32` wherever the source converts or may wrap.
* A Go `map` is an association list in insertion order without duplicate keys.
  `range` over a map visits the keys in an unspecified order: every such loop
  takes its order from a `Runtime`, which may return any permutation.
* `slices.SortFunc` (not stable) is likewise a field of `Runtime`: any sorted
  permutation of its input.
* A `panic` is an `Except.error` carrying a `Fault`.
* `Encode` is the sequence of bytes handed to the writer; write errors of the
  `io.Writer` and the exhaustion of memory are not modelled.
* A loop of Go that has no bound of its own is a function with a `fuel`
  argument: the Go code returns `r` when some fuel yields `.ok r`, and it runs
  forever when every fuel yields `Fault.outOfFuel`.
* Standard-library code (`image.Paletted.At`, `image.NewPaletted`,
  `draw.FloydSteinberg.Draw`, `fmt`, UTF-8 encoding of runes) is modelled by its
  documented behaviour; dithering is a field of `Runtime` with its contract.
-/

/-! ## Shared data model (Go packages `image` and `image/color`) -/

/-- An `image.Point`. -/
structure Point where
  X : Int
  Y : Int
  deriving DecidableEq, Repr

/-- An `image.Rectangle`: the pixels with `Min.X ≤ x < Max.X`, `Min.Y ≤ y < Max.Y`. -/
structure Rectangle where
  Min : Point
  Max : Point
  deriving DecidableEq, Repr

/-- The largest value of the Go type `int`: `math.MaxInt64`. -/
def maxInt : Int := 9223372036854775807

/-- The smallest value of the Go type `int`: `math.MinInt64`. -/
def minInt : Int := -9223372036854775808

/-- The `int` that Go computes where the exact result of an addition or a
subtraction is `v`: the result wraps around modulo `2^64`. -/
def wrapInt (v : Int) : Int :=
  (v + 9223372036854775808) % 18446744073709551616 - 9223372036854775808

/-- The integer `v` is a value of the Go type `int`. -/
def isInt (v : Int) : Prop := minInt ≤ v ∧ v ≤ maxInt

instance (v : Int) : Decidable (isInt v) := by
  unfold isInt; exact inferInstance

/-- `Rectangle.Dx`: `r.Max.X - r.Min.X` in `int` arithmetic. -/
def Rectangle.Dx (r : Rectangle) : Int := wrapInt (r.Max.X - r.Min.X)

/-- `Rectangle.Dy`: `r.Max.Y - r.Min.Y` in `int` arithmetic. -/
def Rectangle.Dy (r : Rectangle) : Int := wrapInt (r.Max.Y - r.Min.Y)

/-- A well-formed `image.Rectangle` whose sides can be measured: the four
coordinates are values of type `int`, `Min.X ≤ Max.X` and `Min.Y ≤ Max.Y`, and
the width and the height are at most `maxInt`, so that `Dx()` and `Dy()` are the
width and the height. -/
def Rectangle.WellFormed (r : Rectangle) : Prop :=
  isInt r.Min.X ∧ isInt r.Min.Y ∧ isInt r.Max.X ∧ isInt r.Max.Y ∧
    r.Min.X ≤ r.Max.X ∧ r.Min.Y ≤ r.Max.Y ∧
    r.Max.X - r.Min.X ≤ maxInt ∧ r.Max.Y - r.Min.Y ≤ maxInt

instance (r : Rectangle) : Decidable r.WellFormed := by
  unfold Rectangle.WellFormed; exact inferInstance

/-- `Point{x, y}.In(r)`. -/
def Rectangle.contains (r : Rectangle) (x y : Int) : Prop :=
  r.Min.X ≤ x ∧ x < r.Max.X ∧ r.Min.Y ≤ y ∧ y < r.Max.Y

instance (r : Rectangle) (x y : Int) : Decidable (r.contains x y) := by
  unfold Rectangle.contains; exact inferInstance

/-- The values `lo, lo+1, ..., hi-1` of a counting loop `for v := lo; v < hi; v++`. -/
def intRange (lo hi : Int) : List Int :=
  (List.range (hi - lo).toNat).map (fun (k : Nat) => lo + (k : Int))

/-- Storing a key in a Go map used as a set: a map is modelled as the list of
its keys in insertion order, without duplicates. -/
def setInsert {α : Type} [DecidableEq α] (s : List α) (a : α) : List α :=
  if a ∈ s then s else s ++ [a]

/-- A `[3]uint8` colour of the quantizer (`quantize.rgbColor`). -/
structure rgbColor where
  r : Nat
  g : Nat
  b : Nat
  deriving DecidableEq, Repr

/-- `c[dim]` for `dim` in `rIdx = 0`, `gIdx = 1`, `bIdx = 2`. -/
def rgbColor.get (c : rgbColor) (dim : Nat) : Nat :=
  match dim with
  | 0 => c.r
  | 1 => c.g
  | _ => c.b

/-- `a[dim] = v` on a three-element `uint8` array. -/
def rgbColor.set (c : rgbColor) (dim : Nat) (v : Nat) : rgbColor :=
  match dim with
  | 0 => { c with r := v }
  | 1 => { c with g := v }
  | _ => { c with b := v }

/-- A non-nil `color.Color` interface value. Two values are `==` in Go when they
have the same dynamic type and the same fields. -/
inductive Color
  /-- A `color.RGBA{R, G, B, A}` with 8-bit fields. -/
  | colorRGBA (R G B A : Nat)
  /-- A `quantize.rgbColor`. -/
  | quantized (c : rgbColor)
  /-- A value of any other colour type: an identity and the four `uint32`
  results of its `RGBA()` method. -/
  | other (id r g b a : Nat)
  deriving DecidableEq, Repr

/-- The `RGBA()` method: four `uint32` values. For `color.RGBA` and `rgbColor`
each 8-bit channel `v` becomes `v | v << 8`; `rgbColor` is always opaque. -/
def Color.RGBA : Color → Nat × Nat × Nat × Nat
  | .colorRGBA R G B A =>
    ((R % 256) ||| ((R % 256) <<< 8), (G % 256) ||| ((G % 256) <<< 8),
     (B % 256) ||| ((B % 256) <<< 8), (A % 256) ||| ((A % 256) <<< 8))
  | .quantized c =>
    ((c.r % 256) ||| ((c.r % 256) <<< 8), (c.g % 256) ||| ((c.g % 256) <<< 8),
     (c.b % 256) ||| ((c.b % 256) <<< 8), 65535)
  | .other _ r g b a => (r % 2 ^ 32, g % 2 ^ 32, b % 2 ^ 32, a % 2 ^ 32)

/-- An `image.Image`: its bounds and its `At` method. -/
structure Image where
  Bounds : Rectangle
  At : Int → Int → Color

/-- A Go slice as far as `len` and `cap` see it. -/
structure Slice (α : Type) where
  elems : List α
  cap : Nat

/-- The panics of the two packages. -/
inductive Fault
  /-- "Quantizer does not support pre-defined palettes". -/
  | predefinedPalette
  /-- "No buckets found, cannot split further". -/
  | noBuckets
  /-- "Bucket split resulted in nil bucket, cannot continue". -/
  | nilBucket
  /-- "Empty bucket encountered, cannot generate color". -/
  | emptyBucket
  /-- "Somehow more colors than requested were generated". -/
  | tooManyColors
  /-- "Palette size exceeds the maximum limit of 256 colors". -/
  | paletteTooLarge
  /-- `image.NewPaletted`: "Rectangle has huge or negative dimensions". -/
  | hugeOrNegativeDimensions
  /-- A loop of the model used up its `fuel`. The split loop of `Quantize` never
  does (see the totality lemmas); the band loop of `Encode` does so for every
  `fuel` exactly when the Go loop runs forever. -/
  | outOfFuel
  deriving DecidableEq, Repr

deriving instance DecidableEq for Except

/-! ## Median-cut quantizer (`quantize/mediancut.go`) -/

namespace quantize

/-- `supportedDimensions`. -/
def supportedDimensions : Nat := 3

/-- `colorSet`: a `map[rgbColor]void`, keys in insertion order. -/
abbrev colorSet := List rgbColor

/-- `bucket`: a `[]rgbColor`. -/
abbrev bucket := List rgbColor

/-- What the Go runtime and standard library leave unspecified for the
quantizer: the order in which `range` visits a `colorSet`, and the result of the
unstable `slices.SortFunc` among equal keys. -/
structure Runtime where
  /-- Order of `for c := range cs`. -/
  rangeColorSet : colorSet → List rgbColor
  rangeColorSet_perm : ∀ cs, (rangeColorSet cs).Perm cs
  /-- `slices.SortFunc(b, cmp)` with `cmp a b = int(a[dim]) - int(b[dim])`. -/
  sortFunc : Nat → bucket → bucket
  sortFunc_perm : ∀ dim b, (sortFunc dim b).Perm b
  sortFunc_sorted : ∀ dim b,
    (sortFunc dim b).Pairwise (fun x y => (x.get dim : Int) - (y.get dim : Int) ≤ 0)

/-- `cs[c] = void{}`. -/
def colorSet.insert (cs : colorSet) (c : rgbColor) : colorSet := setInsert cs c

/-- The key that `fillColors` builds from a pixel:
`rgbColor{uint8(r >> 8), uint8(g >> 8), uint8(b >> 8)}` of its `RGBA()`. -/
def toRgbColor (c : Color) : rgbColor :=
  match c.RGBA with
  | (r, g, b, _) => ⟨(r / 256) % 256, (g / 256) % 256, (b / 256) % 256⟩

/-- `cs.fillColors(img)`: rows outermost, columns innermost. -/
def colorSet.fillColors (cs : colorSet) (img : Image) : colorSet :=
  (intRange img.Bounds.Min.Y img.Bounds.Max.Y).foldl (fun cs y =>
    (intRange img.Bounds.Min.X img.Bounds.Max.X).foldl (fun cs x =>
      colorSet.insert cs (toRgbColor (img.At x y))) cs) cs

/-- The RGB triples of all pixels of an image, row by row (with repetitions):
the image as the Color Accumulator of the specification sees it. -/
def imageTriples (img : Image) : List rgbColor :=
  (intRange img.Bounds.Min.Y img.Bounds.Max.Y).flatMap (fun y =>
    (intRange img.Bounds.Min.X img.Bounds.Max.X).map (fun x => toRgbColor (img.At x y)))

/-- `cs.toBucket()`. -/
def colorSet.toBucket (rt : Runtime) (cs : colorSet) : bucket :=
  (rt.rangeColorSet cs).foldl (fun b c => b ++ [c]) []

/-- `cs.toColorSlice()`: every colour as an opaque `color.RGBA`. -/
def colorSet.toColorSlice (rt : Runtime) (cs : colorSet) : List Color :=
  (rt.rangeColorSet cs).foldl (fun slice c => slice ++ [Color.colorRGBA c.r c.g c.b 255]) []

/-- One round of the colour loop of `longestRangeDimension`: updates
`(minVals, maxVals)` with `curCol` in every dimension. -/
def minMaxStep (acc : rgbColor × rgbColor) (curCol : rgbColor) : rgbColor × rgbColor :=
  (List.range supportedDimensions).foldl (fun acc dim =>
    let minVals := if curCol.get dim < acc.1.get dim then acc.1.set dim (curCol.get dim) else acc.1
    let maxVals := if curCol.get dim > acc.2.get dim then acc.2.set dim (curCol.get dim) else acc.2
    (minVals, maxVals)) acc

/-- The search loop of `longestRangeDimension` over `dim = 1, 2`; the ranges are
`uint8` differences. -/
def longestRangeLoop (minVals maxVals : rgbColor) :
    List Nat → Nat → Nat → Nat
  | [], longestRangeDim, _ => longestRangeDim
  | dim :: dims, longestRangeDim, longestRange =>
    let r := (maxVals.get dim + 256 - minVals.get dim) % 256
    if r > longestRange then longestRangeLoop minVals maxVals dims dim r
    else longestRangeLoop minVals maxVals dims longestRangeDim longestRange

/-- `b.longestRangeDimension()`. -/
def bucket.longestRangeDimension (b : bucket) : Nat :=
  let mm := b.foldl minMaxStep (⟨255, 255, 255⟩, ⟨0, 0, 0⟩)
  longestRangeLoop mm.1 mm.2 [1, 2] 0 ((mm.2.get 0 + 256 - mm.1.get 0) % 256)

/-- `b.sortInDimension(dimension)`. -/
def bucket.sortInDimension (rt : Runtime) (b : bucket) (dimension : Nat) : bucket :=
  rt.sortFunc dimension b

/-- `b.split()`: `none` is the nil second half. -/
def bucket.split (rt : Runtime) (b : bucket) : bucket × Option bucket :=
  if b.length < 2 then (b, none)
  else
    let sorted := bucket.sortInDimension rt b (bucket.longestRangeDimension b)
    let mid := sorted.length / 2
    (sorted.take mid, some (sorted.drop mid))

/-- The loop of `findLargestBucket` from index `i` on. -/
def findLargestBucketLoop : List bucket → Nat → Nat → Nat → Nat
  | [], _, largestBucketIndex, _ => largestBucketIndex
  | b :: rest, i, largestBucketIndex, largestBucketSize =>
    if b.length > largestBucketSize then findLargestBucketLoop rest (i + 1) i b.length
    else findLargestBucketLoop rest (i + 1) largestBucketIndex largestBucketSize

/-- `findLargestBucket(buckets)`: `-1` when there is no bucket. -/
def findLargestBucket (buckets : List bucket) : Int :=
  match buckets with
  | [] => -1
  | b :: rest => (findLargestBucketLoop rest 1 0 b.length : Nat)

/-- The splitting loop `for len(buckets) < numberOfColors`. Each round adds one
bucket, so `fuel = numberOfColors` rounds always suffice. -/
def splitLoop (rt : Runtime) (numberOfColors : Nat) :
    Nat → List bucket → Except Fault (List bucket)
  | fuel, buckets =>
    if buckets.length < numberOfColors then
      match fuel with
      | 0 => .error .outOfFuel
      | fuel + 1 =>
        let largestBucketIndex := findLargestBucket buckets
        if largestBucketIndex < 0 then .error .noBuckets
        else
          let currentBucket := buckets.getD largestBucketIndex.toNat []
          match bucket.split rt currentBucket with
          | (_, none) => .error .nilBucket
          | (newBucket1, some newBucket2) =>
            splitLoop rt numberOfColors fuel
              (buckets.set largestBucketIndex.toNat newBucket1 ++ [newBucket2])
    else .ok buckets

/-- The channel sums of a bucket in `uint32` accumulators. -/
def channelSums (bkt : bucket) : Nat × Nat × Nat :=
  bkt.foldl (fun (acc : Nat × Nat × Nat) c =>
    ((acc.1 + c.r % 256) % 2 ^ 32, (acc.2.1 + c.g % 256) % 2 ^ 32,
     (acc.2.2 + c.b % 256) % 2 ^ 32)) (0, 0, 0)

/-- The palette loop of `Quantize`: one averaged colour per bucket, a panic on
an empty bucket. -/
def averageLoop : List bucket → List Color → Except Fault (List Color)
  | [], palette => .ok palette
  | bkt :: rest, palette =>
    if bkt.length = 0 then .error .emptyBucket
    else
      match channelSums bkt with
      | (r, g, b) =>
        let n := bkt.length % 2 ^ 32
        averageLoop rest
          (palette ++ [Color.quantized ⟨(r / n) % 256, (g / n) % 256, (b / n) % 256⟩])

/-- `Quantizer.Quantize(p, img)`. -/
def Quantize (rt : Runtime) (p : Slice Color) (img : Image) : Except Fault (List Color) :=
  if p.elems.length > 0 then .error .predefinedPalette
  else
    let numberOfColors := p.cap
    let cs := colorSet.fillColors [] img
    if cs.length ≤ numberOfColors then .ok (colorSet.toColorSlice rt cs)
    else
      match splitLoop rt numberOfColors numberOfColors [colorSet.toBucket rt cs] with
      | .error e => .error e
      | .ok buckets =>
        match averageLoop buckets [] with
        | .error e => .error e
        | .ok palette =>
          if palette.length > numberOfColors then .error .tooManyColors
          else .ok palette

/-- One round of the splitting loop of `Quantize` (lines 147-158): the body of
`splitLoop`, on its own. -/
def splitRound (rt : Runtime) (buckets : List bucket) : Except Fault (List bucket) :=
  let largestBucketIndex := findLargestBucket buckets
  if largestBucketIndex < 0 then .error .noBuckets
  else
    let currentBucket := buckets.getD largestBucketIndex.toNat []
    match bucket.split rt currentBucket with
    | (_, none) => .error .nilBucket
    | (newBucket1, some newBucket2) =>
      .ok (buckets.set largestBucketIndex.toNat newBucket1 ++ [newBucket2])

/-- The bucket lists that the splitting loop goes through for `numberOfColors`
requested colours: the list after the seeding step, and the list after every
round that the loop runs (its condition holds and the round does not panic). -/
inductive LoopState (rt : Runtime) (numberOfColors : Nat) (seed : bucket) :
    List bucket → Prop
  | seeded : LoopState rt numberOfColors seed [seed]
  | round {buckets next : List bucket} :
    LoopState rt numberOfColors seed buckets → buckets.length < numberOfColors →
    splitRound rt buckets = .ok next → LoopState rt numberOfColors seed next

/-- The exact sum of axis `dim` over a bucket, as a natural number. -/
def channelSum (bkt : bucket) (dim : Nat) : Nat := (bkt.map (fun c => c.get dim)).sum

/-- The truncating integer mean of a bucket, channel by channel (step 5 of the
specification of the quantizer). -/
def meanColor (bkt : bucket) : rgbColor :=
  ⟨channelSum bkt 0 / bkt.length, channelSum bkt 1 / bkt.length, channelSum bkt 2 / bkt.length⟩

/-- The invariant of the bucket list: no bucket is empty and the buckets
together are a permutation of the seed bucket. -/
def BucketsInv (seed : bucket) (buckets : List bucket) : Prop :=
  (∀ b ∈ buckets, b ≠ []) ∧ buckets.flatten.Perm seed

/-- A `color.RGBA` value with 8-bit channels and full alpha. -/
def isOpaqueRGBA (c : Color) : Prop :=
  ∃ R G B, R < 256 ∧ G < 256 ∧ B < 256 ∧ c = Color.colorRGBA R G B 255

/-- The image of the second test of `TestQuantizer_Quantize`: 2x2 pixels in four
distinct opaque colours. -/
def imgWithFewerColors : Image :=
  ⟨⟨⟨0, 0⟩, ⟨2, 2⟩⟩, fun x y =>
    if x = 0 ∧ y = 0 then Color.colorRGBA 255 0 0 255
    else if x = 0 ∧ y = 1 then Color.colorRGBA 0 255 0 255
    else if x = 1 ∧ y = 0 then Color.colorRGBA 0 0 255 255
    else Color.colorRGBA 255 255 0 255⟩

/-- A runtime that ranges over maps in insertion order and sorts stably. -/
def Runtime.insertionOrder : Runtime where
  rangeColorSet := fun cs => cs
  rangeColorSet_perm := fun _ => List.Perm.refl _
  sortFunc := fun dim b => b.insertionSort (fun x y => x.get dim ≤ y.get dim)
  sortFunc_perm := fun dim b => List.perm_insertionSort _ b
  sortFunc_sorted := fun dim b => by
    haveI : IsTotal rgbColor (fun x y => x.get dim ≤ y.get dim) :=
      ⟨fun x y => Nat.le_total _ _⟩
    haveI : IsTrans rgbColor (fun x y => x.get dim ≤ y.get dim) :=
      ⟨fun x y z hxy hyz => Nat.le_trans hxy hyz⟩
    have h := List.sorted_insertionSort (fun (x y : rgbColor) => x.get dim ≤ y.get dim) b
    exact List.Pairwise.imp (fun hxy => by omega) h

end quantize

namespace sixel

/-! ## Byte strings and `fmt` verbs -/

/-- A Go string or output stream: a sequence of byte values. -/
abbrev Bytes := List Nat

/-- The bytes of an ASCII string literal. -/
def bytes (s : String) : Bytes := s.toList.map Char.toNat

/-- Worker of the `%d` verb: prepends the decimal digits of `n` to `acc`. -/
def fmtNatAux : Nat → Nat → Bytes → Bytes
  | 0, _, acc => acc
  | fuel + 1, n, acc =>
    if n / 10 = 0 then (48 + n % 10) :: acc
    else fmtNatAux fuel (n / 10) ((48 + n % 10) :: acc)

/-- The `%d` verb of `fmt` on a non-negative integer: its decimal digits. -/
def fmtNat (n : Nat) : Bytes := fmtNatAux (n + 1) n []

/-- The `%d` verb of `fmt` on an `int`: a minus sign for negative values. -/
def fmtInt (i : Int) : Bytes :=
  if i < 0 then 45 :: fmtNat i.natAbs else fmtNat i.natAbs

/-- UTF-8 encoding of a rune, as done by `string(rune)`, the `%c` verb and
`WriteRune`: invalid runes (surrogates, out of range) become U+FFFD. -/
def utf8EncodeRune (r : Nat) : Bytes :=
  if r < 128 then [r]
  else if r < 2048 then [192 + r / 64, 128 + r % 64]
  else if (55296 ≤ r ∧ r ≤ 57343) ∨ 1114111 < r then [239, 191, 189]
  else if r < 65536 then [224 + r / 4096, 128 + r / 64 % 64, 128 + r % 64]
  else [240 + r / 262144, 128 + r / 4096 % 64, 128 + r / 64 % 64, 128 + r % 64]

/-- `strings.Repeat(s, count)`. -/
def stringsRepeat (s : Bytes) : Nat → Bytes
  | 0 => []
  | n + 1 => s ++ stringsRepeat s n

/-! ## Run-length encoder (`sixel.go`, lines 56-81) -/

/-- `rleGenerateSubString(char, count)`: runs longer than 2 become `!<count><char>`,
shorter ones are written out. -/
def rleGenerateSubString (char : Nat) (count : Nat) : Bytes :=
  if count > 2 then 33 :: (fmtNat count ++ utf8EncodeRune char)
  else stringsRepeat (utf8EncodeRune char) count

/-- The loop of `rleEncode` from index `i` on: `prev` is `input[i-1]`, `rest` is
`input[i:]`, `result` the builder. After the loop the last run is flushed. -/
def rleEncodeLoop : Nat → Nat → Bytes → Bytes → Bytes
  | prev, count, [], result => result ++ rleGenerateSubString prev count
  | prev, count, c :: rest, result =>
    if c = prev then rleEncodeLoop prev (count + 1) rest result
    else rleEncodeLoop c 1 rest (result ++ rleGenerateSubString prev count)

/-- `rleEncode(input)`. -/
def rleEncode (input : Bytes) : Bytes :=
  match input with
  | [] => []
  | c :: rest => rleEncodeLoop c 1 rest []

/-! ### Reference definitions of the specification for the run-length code -/

/-- The decimal digits of `n > 0` as ASCII bytes, most significant first. -/
def decimal (n : Nat) : Bytes := (Nat.digits 10 n).reverse.map (fun d => 48 + d)

/-- The maximal runs of identical consecutive characters of a string, in
order, each as `(character, length)`. -/
def runs : Bytes → List (Nat × Nat)
  | [] => []
  | c :: rest =>
    match runs rest with
    | [] => [(c, 1)]
    | (d, n) :: more => if c = d then (d, n + 1) :: more else (c, 1) :: (d, n) :: more

/-- The rendering of one run by the specification (section 4.4): verbatim up to
length 2, otherwise `!`, the decimal length and the character once. -/
def renderRun (run : Nat × Nat) : Bytes :=
  if run.2 ≤ 2 then List.replicate run.2 run.1 else 33 :: (decimal run.2 ++ [run.1])

/-- The run-length code of the specification: the renderings of the maximal
runs, concatenated in order. -/
def rleReference (input : Bytes) : Bytes := (runs input).flatMap renderRun

/-- State of the reference decoder: copying characters, or inside a run marker
`!<n><c>` with the value of the digits read so far. -/
inductive DecodeState
  | copy
  | count (n : Nat)

/-- The decoder of the round-trip property (section 8) from a given state: `!`
opens a run marker, its decimal digits are the count `n`, and the first
character after them is emitted `n` times; other characters pass through. -/
def rleDecodeFrom : DecodeState → Bytes → Bytes
  | _, [] => []
  | .copy, c :: rest =>
    if c = 33 then rleDecodeFrom (.count 0) rest else c :: rleDecodeFrom .copy rest
  | .count n, c :: rest =>
    if 48 ≤ c ∧ c ≤ 57 then rleDecodeFrom (.count (10 * n + (c - 48))) rest
    else List.replicate n c ++ rleDecodeFrom .copy rest

/-- The decoder of the round-trip property. -/
def rleDecode (encoded : Bytes) : Bytes := rleDecodeFrom .copy encoded

/-- A character that the decoder copies: neither `!` nor a decimal digit. -/
def isPlain (c : Nat) : Prop := c ≠ 33 ∧ ¬ (48 ≤ c ∧ c ≤ 57)

instance (c : Nat) : Decidable (isPlain c) := by
  unfold isPlain; exact inferInstance

/-! ## Palette mapper (`sixel.go`, lines 15-54) -/

/-- `paletteSize`. -/
def paletteSize : Nat := 256

/-- `bandHeight`. -/
def bandHeight : Nat := 6

/-- `sixelOffset`. -/
def sixelOffset : Nat := 63

/-- `header`: ESC `P`. -/
def header : Bytes := [27, 80]

/-- `endOfHeader`: the rune `q`. -/
def endOfHeader : Nat := 113

/-- `terminator`: ESC and a backslash. -/
def terminator : Bytes := [27, 92]

/-- An `*image.Paletted`: `ColorIndexAt x y` is `Pix[PixOffset(x, y)]`. -/
structure Paletted where
  Rect : Rectangle
  Palette : List Color
  ColorIndexAt : Int → Int → Nat

/-- `(*image.Paletted).At`: `none` is the nil colour returned for an empty
palette. Go panics when the stored index is not below `len(Palette)`; the model
also returns `none` there, and `Paletted.WellFormed` rules that case out. -/
def Paletted.At (p : Paletted) (x y : Int) : Option Color :=
  if p.Palette.length = 0 then none
  else if ¬ p.Rect.contains x y then p.Palette[0]?
  else p.Palette[p.ColorIndexAt x y]?

/-- The invariant of a palette-indexed raster: every stored index is a `uint8`
below the palette length. -/
def Paletted.WellFormed (p : Paletted) : Prop :=
  ∀ x y, p.Rect.contains x y → p.ColorIndexAt x y < 256 ∧ p.ColorIndexAt x y < p.Palette.length

/-- A paletted image seen through the `image.Image` interface. Inside the
bounds of a well-formed image `At` is never nil; the default is never used. -/
def Paletted.toImage (p : Paletted) : Image :=
  ⟨p.Rect, fun x y => (p.At x y).getD (Color.other 0 0 0 0 0)⟩

/-- The argument of `Encode`: an `image.Image` that either is an
`*image.Paletted` or has some other dynamic type. -/
inductive InputImage
  | paletted (p : Paletted)
  | other (img : Image)

/-- The `image.Image` view of the argument. -/
def InputImage.toImage : InputImage → Image
  | .paletted p => p.toImage
  | .other img => img

/-- `img.Bounds()`. -/
def InputImage.Bounds (img : InputImage) : Rectangle := img.toImage.Bounds

/-- `paletteMap`: a `map[color.Color]uint8`, entries in insertion order. -/
abbrev paletteMap := List (Color × Nat)

/-- `colorSet`: a `map[color.Color]void`; a key may be the nil colour. -/
abbrev colorSet := List (Option Color)

/-- What the Go runtime and the standard library leave open for the encoder. -/
structure Runtime extends quantize.Runtime where
  /-- Order of `for c, idx := range pm`. -/
  rangePaletteMap : paletteMap → List (Color × Nat)
  rangePaletteMap_perm : ∀ pm, (rangePaletteMap pm).Perm pm
  /-- Order of `for c := range uniqueColors` in the band that starts at row `curY`. -/
  rangeBandColors : Int → colorSet → List (Option Color)
  rangeBandColors_perm : ∀ curY cs, (rangeBandColors curY cs).Perm cs
  /-- The palette index that `draw.FloydSteinberg.Draw` stores for a pixel. -/
  floydSteinberg : List Color → Image → Int → Int → Nat
  /-- Dithering stores indices of the given palette. -/
  floydSteinberg_lt : ∀ palette img x y, palette ≠ [] →
    floydSteinberg palette img x y < palette.length

/-- `pm[c] = idx`. -/
def paletteMap.insert (pm : paletteMap) (c : Color) (idx : Nat) : paletteMap :=
  if pm.any (fun e => e.1 = c) then pm.map (fun e => if e.1 = c then (c, idx) else e)
  else pm ++ [(c, idx)]

/-- `pm[c]`: the zero value for a missing key, such as the nil colour. -/
def paletteMap.lookup (pm : paletteMap) (c : Option Color) : Nat :=
  match c with
  | none => 0
  | some c =>
    match pm.find? (fun e => e.1 = c) with
    | some e => e.2
    | none => 0

/-- The channel scaling of `paletteMap.String` on a `uint32`: `(v * 100) / 255`. -/
def scaleChannel (v : Nat) : Nat := (v * 100 % 2 ^ 32) / 255

/-- `fmt.Fprintf(&result, "#%d;2;%d;%d;%d", idx, rScale, gScale, bScale)`. -/
def paletteEntry (c : Color) (idx : Nat) : Bytes :=
  match c.RGBA with
  | (r, g, b, _) =>
    35 :: (fmtNat idx ++ bytes ";2;" ++ fmtNat (scaleChannel (r / 256)) ++ bytes ";"
      ++ fmtNat (scaleChannel (g / 256)) ++ bytes ";" ++ fmtNat (scaleChannel (b / 256)))

/-- `pm.String()`. -/
def paletteMap.String (rt : Runtime) (pm : paletteMap) : Bytes :=
  (rt.rangePaletteMap pm).foldl (fun result e => result ++ paletteEntry e.1 e.2) []

/-- The loop of `createPaletteMap`: `pm[c] = uint8(idx)`. -/
def createPaletteMapLoop : List Color → Nat → paletteMap → paletteMap
  | [], _, pm => pm
  | c :: rest, idx, pm => createPaletteMapLoop rest (idx + 1) (paletteMap.insert pm c (idx % 256))

/-- `createPaletteMap(palette)`. -/
def createPaletteMap (palette : List Color) : Except Fault paletteMap :=
  if palette.length > paletteSize then .error .paletteTooLarge
  else .ok (createPaletteMapLoop palette 0 [])

/-! ## Band encoder (`sixel.go`, lines 83-151) -/

/-- `uniqueColors[c] = void{}`. -/
def colorSet.insert (cs : colorSet) (c : Option Color) : colorSet := setInsert cs c

/-- `findUniqueColorsInBand(img, bounds, yStart)`: columns outermost. The row
loop `for y := yStart; y < yStart+bandHeight && y < bounds.Max.Y; y++` counts
up to the smaller of its two bounds; the first one is an `int` sum and wraps
around when `yStart` is within `bandHeight` of `maxInt`. -/
def findUniqueColorsInBand (img : Paletted) (bounds : Rectangle) (yStart : Int) : colorSet :=
  (intRange bounds.Min.X bounds.Max.X).foldl (fun uniqueColors x =>
    (intRange yStart (min (wrapInt (yStart + bandHeight)) bounds.Max.Y)).foldl
      (fun uniqueColors y => colorSet.insert uniqueColors (img.At x y)) uniqueColors) []

/-- The loop `for i := range bandHeight` of `Encode` for one column: `rounds`
iterations are left, `i` is the current row offset, `pixel` the mask so far.
The sum `curY + i` does not wrap: the loop leaves at the first `y ≥ bounds.Max.Y`,
which it meets before `y` could pass `maxInt`. -/
def pixelLoop (img : Paletted) (bounds : Rectangle) (c : Option Color) (x curY : Int) :
    Nat → Nat → Nat → Nat
  | 0, _, pixel => pixel
  | rounds + 1, i, pixel =>
    let y := curY + (i : Int)
    if y ≥ bounds.Max.Y then pixel
    else pixelLoop img bounds c x curY rounds (i + 1)
      (if c = img.At x y then pixel ||| (1 <<< i) else pixel)

/-- The value written for column `x`: the six-row mask plus `sixelOffset`. -/
def sixelPixel (img : Paletted) (bounds : Rectangle) (c : Option Color) (x curY : Int) : Nat :=
  pixelLoop img bounds c x curY bandHeight 0 0 + sixelOffset

/-- The `line` builder of `Encode` for colour `c` in the band at `curY`. -/
def maskLine (img : Paletted) (bounds : Rectangle) (c : Option Color) (curY : Int) : Bytes :=
  (intRange bounds.Min.X bounds.Max.X).foldl (fun line x =>
    line ++ utf8EncodeRune (sixelPixel img bounds c x curY)) []

/-- What `Encode` writes for one colour of a band, without the `$`. -/
def colorEntry (pm : paletteMap) (img : Paletted) (bounds : Rectangle) (curY : Int)
    (c : Option Color) : Bytes :=
  35 :: (fmtNat (paletteMap.lookup pm c) ++ rleEncode (maskLine img bounds c curY))

/-- The loop `for c := range uniqueColors` of `Encode`: `total` is
`len(uniqueColors)`, `index` the number of colours written so far. -/
def colorLoop (pm : paletteMap) (img : Paletted) (bounds : Rectangle) (curY : Int)
    (total : Nat) : List (Option Color) → Nat → Bytes
  | [], _ => []
  | c :: rest, index =>
    colorEntry pm img bounds curY c
      ++ (if index + 1 < total then [36] else [])
      ++ colorLoop pm img bounds curY total rest (index + 1)

/-- One round of the band loop of `Encode`: the colours of the band, then `-`
when `curY+bandHeight < bounds.Max.Y`, a comparison of the `int` sum. -/
def encodeBand (rt : Runtime) (pm : paletteMap) (img : Paletted) (bounds : Rectangle)
    (curY : Int) : Bytes :=
  let uniqueColors := findUniqueColorsInBand img bounds curY
  colorLoop pm img bounds curY uniqueColors.length (rt.rangeBandColors curY uniqueColors) 0
    ++ (if wrapInt (curY + bandHeight) < bounds.Max.Y then [45] else [])

/-- The loop `for curY := bounds.Min.Y; curY < bounds.Max.Y; curY += bandHeight`
with `curY += bandHeight` in `int` arithmetic. `fuel` is the number of rounds
that may still start; the Go loop has no such bound. -/
def bandLoop (rt : Runtime) (pm : paletteMap) (img : Paletted) (bounds : Rectangle) :
    Nat → Int → Except Fault Bytes
  | fuel, curY =>
    if curY < bounds.Max.Y then
      match fuel with
      | 0 => .error .outOfFuel
      | fuel + 1 =>
        match bandLoop rt pm img bounds fuel (wrapInt (curY + bandHeight)) with
        | .error e => .error e
        | .ok rest => .ok (encodeBand rt pm img bounds curY ++ rest)
    else .ok []

/-- The rendering of one band by the specification (section 6): one entry per
colour of the band, in the order of the runtime, joined by `$`. -/
def bandSegment (rt : Runtime) (pm : paletteMap) (img : Paletted) (bounds : Rectangle)
    (curY : Int) : Bytes :=
  List.intercalate [36] ((rt.rangeBandColors curY (findUniqueColorsInBand img bounds curY)).map
    (colorEntry pm img bounds curY))

/-- The re-quantization branch of `Encode`: `image.NewPaletted`, `Quantize`
with an empty palette of capacity `paletteSize`, then dithering.
`image.NewPaletted` panics when `Dx()` or `Dy()` is negative or when the length
`Dx() * Dy()` of the pixel buffer is not an `int`; the allocation of the buffer
itself is taken to succeed. -/
def quantizeAndDither (rt : Runtime) (img : Image) : Except Fault Paletted :=
  if img.Bounds.Dx < 0 ∨ img.Bounds.Dy < 0 ∨ maxInt < img.Bounds.Dx * img.Bounds.Dy then
    .error .hugeOrNegativeDimensions
  else
    match quantize.Quantize rt.toRuntime ⟨[], paletteSize⟩ img with
    | .error e => .error e
    | .ok palette => .ok ⟨img.Bounds, palette, rt.floydSteinberg palette img⟩

/-- The paletted image that `Encode` works on (lines 96-101). -/
def toPaletted (rt : Runtime) (img : InputImage) : Except Fault Paletted :=
  match img with
  | .paletted p =>
    if p.Palette.length > paletteSize then quantizeAndDither rt p.toImage else .ok p
  | .other g => quantizeAndDither rt g

/-- `Encode(w, img)`: the bytes written to `w`, with `fuel` for the band loop.
`Encode` returns after writing `r` when some `fuel` yields `.ok r`; it never
returns when every `fuel` yields `Fault.outOfFuel`. -/
def Encode (rt : Runtime) (fuel : Nat) (img : InputImage) : Except Fault Bytes :=
  let bounds := img.Bounds
  match toPaletted rt img with
  | .error e => .error e
  | .ok palettedImage =>
    match createPaletteMap palettedImage.Palette with
    | .error e => .error e
    | .ok pm =>
      match bandLoop rt pm palettedImage bounds fuel bounds.Min.Y with
      | .error e => .error e
      | .ok body =>
        .ok (header ++ [endOfHeader] ++ (bytes "\"1;1;" ++ fmtInt bounds.Dx ++ bytes ";"
          ++ fmtInt bounds.Dy) ++ paletteMap.String rt pm ++ body ++ terminator)

/-- A well-formed argument of `Encode`: the bounds are a well-formed rectangle
of at most `maxInt` pixels (the length of a pixel buffer is an `int`, and
`image.NewPaletted` panics on more), and a paletted image stores valid palette
indices. -/
def InputImage.WellFormed (img : InputImage) : Prop :=
  img.Bounds.WellFormed ∧ img.Bounds.Dx * img.Bounds.Dy ≤ maxInt ∧
    match img with
    | .paletted p => p.WellFormed
    | .other _ => True

/-- The bands of the rectangle fit the type `int`: the top row of the last
band plus `bandHeight`, which is `Min.Y + 6 * ceil(Dy() / 6)`, is at most
`maxInt`. Then no sum `curY+bandHeight` of the band loop wraps around. -/
def bandsFit (r : Rectangle) : Prop :=
  r.Min.Y + 6 * (((r.Dy.toNat + 5) / 6 : Nat) : Int) ≤ maxInt

instance (r : Rectangle) : Decidable (bandsFit r) := by
  unfold bandsFit; exact inferInstance

/-- The bounds on which the band loop never ends: the rectangle has rows, its
`Max.Y` is `maxInt` and its `Min.Y` is even. `curY` then stays even through
every wrap-around of `curY += bandHeight`, and the only `int` that is not below
`Max.Y` is the odd `maxInt`. -/
def bandLoopDiverges (r : Rectangle) : Prop :=
  r.Min.Y < r.Max.Y ∧ r.Max.Y = maxInt ∧ r.Min.Y % 2 = 0

instance (r : Rectangle) : Decidable (bandLoopDiverges r) := by
  unfold bandLoopDiverges; exact inferInstance

/-- A paletted sample image, 4 pixels wide and 7 high (two bands), in three
colours: index 1 on the diagonal, index 2 in the last row, index 0 elsewhere. -/
def samplePaletted : Paletted :=
  ⟨⟨⟨0, 0⟩, ⟨4, 7⟩⟩,
   [Color.colorRGBA 255 0 0 255, Color.colorRGBA 0 255 0 255, Color.colorRGBA 0 0 128 255],
   fun x y => if x = y then 1 else if y = 6 then 2 else 0⟩

/-- A paletted image of one pixel whose palette holds the same colour twice;
the pixel stores index 0. -/
def repeatedColorPaletted : Paletted :=
  ⟨⟨⟨0, 0⟩, ⟨1, 1⟩⟩, [Color.colorRGBA 0 0 0 255, Color.colorRGBA 0 0 0 255], fun _ _ => 0⟩

/-- A paletted image without pixels: width 0, height 7 (two bands), and a
palette of one colour. -/
def zeroWidthPaletted : Paletted :=
  ⟨⟨⟨0, 0⟩, ⟨0, 7⟩⟩, [Color.colorRGBA 0 0 0 255], fun _ _ => 0⟩

/-- A paletted image of one column and three rows, the rows `maxInt - 3`,
`maxInt - 2` and `maxInt - 1`, in one colour. In Go:
`image.NewPaletted(image.Rect(0, math.MaxInt64-3, 1, math.MaxInt64), palette)`. -/
def topRowsPaletted : Paletted :=
  ⟨⟨⟨0, 9223372036854775804⟩, ⟨1, 9223372036854775807⟩⟩, [Color.colorRGBA 0 0 0 255],
   fun _ _ => 0⟩

/-- The image `topRowsPaletted` without its column: width 0, the same three rows. -/
def zeroWidthTopRowsPaletted : Paletted :=
  ⟨⟨⟨0, 9223372036854775804⟩, ⟨0, 9223372036854775807⟩⟩, [Color.colorRGBA 0 0 0 255],
   fun _ _ => 0⟩

/-- A runtime that ranges over maps in insertion order, sorts stably and
dithers every pixel to palette index 0. -/
def Runtime.insertionOrder : Runtime where
  toRuntime := quantize.Runtime.insertionOrder
  rangePaletteMap := fun pm => pm
  rangePaletteMap_perm := fun _ => List.Perm.refl _
  rangeBandColors := fun _ cs => cs
  rangeBandColors_perm := fun _ _ => List.Perm.refl _
  floydSteinberg := fun _ _ _ _ => 0
  floydSteinberg_lt := fun _ _ _ _ h => List.length_pos.mpr h

end sixel

/-! # Theorems -/

/-! ## General lemmas on lists used as insertion-ordered sets -/

theorem foldl_snoc_eq_append {α β : Type} (f : α → β) (l : List α) (acc : List β) :
    l.foldl (fun s c => s ++ [f c]) acc = acc ++ l.map f := by
  induction l generalizing acc with
  | nil => simp
  | cons a l ih => simp [ih]

theorem setInsert_nodup {α : Type} [DecidableEq α] (s : List α) (a : α) (h : s.Nodup) :
    (setInsert s a).Nodup := by
  unfold setInsert
  split
  · exact h
  · rename_i hc
    rw [List.nodup_append]
    refine ⟨h, List.nodup_singleton a, ?_⟩
    intro b hb hb2
    simp at hb2
    subst hb2
    exact hc hb

theorem mem_setInsert {α : Type} [DecidableEq α] (s : List α) (a d : α) :
    d ∈ setInsert s a ↔ d ∈ s ∨ d = a := by
  unfold setInsert
  split
  · rename_i h
    constructor
    · intro hd; exact Or.inl hd
    · rintro (hd | hd)
      · exact hd
      · subst hd; exact h
  · simp

theorem foldl_setInsert_nodup {α : Type} [DecidableEq α] (l : List α) (s : List α)
    (h : s.Nodup) : (l.foldl setInsert s).Nodup := by
  induction l generalizing s with
  | nil => simpa using h
  | cons a l ih => exact ih _ (setInsert_nodup s a h)

theorem mem_foldl_setInsert {α : Type} [DecidableEq α] (l : List α) (s : List α) (d : α) :
    d ∈ l.foldl setInsert s ↔ d ∈ s ∨ d ∈ l := by
  induction l generalizing s with
  | nil => simp
  | cons a l ih =>
    simp only [List.foldl_cons, ih, mem_setInsert, List.mem_cons]
    tauto

/-- Two nested loops that insert `f u v` for `u` in `us` (outer) and `v` in
`vs` (inner) insert the elements of the flattened table one by one. -/
theorem nested_foldl_setInsert {α ι κ : Type} [DecidableEq α] (f : ι → κ → α) (us : List ι)
    (vs : ι → List κ) (s : List α) :
    us.foldl (fun s u => (vs u).foldl (fun s v => setInsert s (f u v)) s) s
      = (us.flatMap (fun u => (vs u).map (fun v => f u v))).foldl setInsert s := by
  induction us generalizing s with
  | nil => simp
  | cons u us ih =>
    simp only [List.foldl_cons, List.flatMap_cons, List.foldl_append, List.foldl_map]
    exact ih _

theorem mem_intRange (lo hi v : Int) : v ∈ intRange lo hi ↔ lo ≤ v ∧ v < hi := by
  unfold intRange
  simp only [List.mem_map, List.mem_range]
  constructor
  · rintro ⟨k, hk, rfl⟩
    omega
  · rintro ⟨h1, h2⟩
    exact ⟨(v - lo).toNat, by omega, by omega⟩

theorem intRange_ne_nil (lo hi : Int) (h : lo < hi) : intRange lo hi ≠ [] := by
  intro h0
  have hl : (intRange lo hi).length = (hi - lo).toNat := by unfold intRange; simp
  rw [h0] at hl
  simp only [List.length_nil] at hl
  omega

namespace quantize

/-! ## Quantizer: supporting lemmas -/

theorem toBucket_eq (rt : Runtime) (cs : colorSet) :
    colorSet.toBucket rt cs = rt.rangeColorSet cs := by
  unfold colorSet.toBucket
  have h := foldl_snoc_eq_append (fun c : rgbColor => c) (rt.rangeColorSet cs) []
  simpa using h

theorem toColorSlice_eq (rt : Runtime) (cs : colorSet) :
    colorSet.toColorSlice rt cs
      = (rt.rangeColorSet cs).map (fun c => Color.colorRGBA c.r c.g c.b 255) := by
  unfold colorSet.toColorSlice
  have h := foldl_snoc_eq_append (fun c : rgbColor => Color.colorRGBA c.r c.g c.b 255)
    (rt.rangeColorSet cs) []
  simpa using h

theorem insert_eq_setInsert : colorSet.insert = setInsert := rfl

/-- The two nested loops of `fillColors` insert the pixel triples one by one. -/
theorem fillColors_eq_foldl (cs : colorSet) (img : Image) :
    colorSet.fillColors cs img = (imageTriples img).foldl setInsert cs := by
  unfold colorSet.fillColors imageTriples
  rw [insert_eq_setInsert]
  exact nested_foldl_setInsert (fun y x => toRgbColor (img.At x y)) _ (fun _ => _) cs

theorem fillColors_nodup (img : Image) : (colorSet.fillColors [] img).Nodup := by
  rw [fillColors_eq_foldl]
  exact foldl_setInsert_nodup _ _ List.nodup_nil

theorem mem_fillColors (img : Image) (d : rgbColor) :
    d ∈ colorSet.fillColors [] img ↔ d ∈ imageTriples img := by
  rw [fillColors_eq_foldl, mem_foldl_setInsert]
  simp

theorem imageTriples_ne_nil (img : Image) (hx : img.Bounds.Min.X < img.Bounds.Max.X)
    (hy : img.Bounds.Min.Y < img.Bounds.Max.Y) : imageTriples img ≠ [] := by
  unfold imageTriples
  have h1 := intRange_ne_nil _ _ hx
  have h2 := intRange_ne_nil _ _ hy
  cases hys : intRange img.Bounds.Min.Y img.Bounds.Max.Y with
  | nil => exact absurd hys h2
  | cons y ys =>
    cases hxs : intRange img.Bounds.Min.X img.Bounds.Max.X with
    | nil => exact absurd hxs h1
    | cons x xs => simp

theorem fillColors_ne_nil (img : Image) (hx : img.Bounds.Min.X < img.Bounds.Max.X)
    (hy : img.Bounds.Min.Y < img.Bounds.Max.Y) : colorSet.fillColors [] img ≠ [] := by
  have h := imageTriples_ne_nil img hx hy
  cases ht : imageTriples img with
  | nil => exact absurd ht h
  | cons t ts =>
    intro h0
    have hm : t ∈ colorSet.fillColors [] img := by
      rw [mem_fillColors, ht]; simp
    rw [h0] at hm
    simp at hm

/-! ### `findLargestBucket` -/

theorem findLargestBucketLoop_spec (rest : List bucket) :
    ∀ (pre : List bucket) (idx size : Nat), idx < pre.length →
      (pre.getD idx []).length = size → (∀ b ∈ pre, b.length ≤ size) →
      findLargestBucketLoop rest pre.length idx size < (pre ++ rest).length ∧
      ∀ b ∈ pre ++ rest, b.length ≤
        ((pre ++ rest).getD (findLargestBucketLoop rest pre.length idx size) []).length := by
  induction rest with
  | nil =>
    intro pre idx size hidx hsize hmax
    simp only [findLargestBucketLoop, List.append_nil]
    exact ⟨hidx, fun b hb => by rw [hsize]; exact hmax b hb⟩
  | cons b rest ih =>
    intro pre idx size hidx hsize hmax
    have hlen : (pre ++ [b]).length = pre.length + 1 := by simp
    have happ : pre ++ b :: rest = (pre ++ [b]) ++ rest := by simp
    simp only [findLargestBucketLoop]
    split
    · rename_i hgt
      have := ih (pre ++ [b]) pre.length b.length (by simp)
        (by simp [List.getD_eq_getElem?_getD])
        (by
          intro c hc
          rcases List.mem_append.mp hc with hc | hc
          · exact Nat.le_of_lt (Nat.lt_of_le_of_lt (hmax c hc) hgt)
          · simp at hc; subst hc; exact Nat.le_refl _)
      rw [hlen] at this
      rw [happ]
      exact this
    · rename_i hle
      have := ih (pre ++ [b]) idx size (by simp; omega)
        (by
          rw [← hsize]
          simp [List.getD_eq_getElem?_getD, List.getElem?_append_left hidx])
        (by
          intro c hc
          rcases List.mem_append.mp hc with hc | hc
          · exact hmax c hc
          · simp at hc; subst hc; omega)
      rw [hlen] at this
      rw [happ]
      exact this

/-- On a non-empty list `findLargestBucket` returns a valid index of a bucket
of maximal length. -/
theorem findLargestBucket_spec (buckets : List bucket) (h : buckets ≠ []) :
    ∃ k : Nat, findLargestBucket buckets = (k : Int) ∧ k < buckets.length ∧
      ∀ b ∈ buckets, b.length ≤ (buckets.getD k []).length := by
  cases buckets with
  | nil => exact absurd rfl h
  | cons b rest =>
    refine ⟨findLargestBucketLoop rest 1 0 b.length, rfl, ?_⟩
    have := findLargestBucketLoop_spec rest [b] 0 b.length (by simp) (by simp) (by simp)
    simpa using this

/-! ### `split` and the splitting loop -/

/-- A bucket of at least two colours splits into two non-empty halves that
together are a permutation of it. -/
theorem split_spec (rt : Runtime) (b : bucket) (h : 2 ≤ b.length) :
    ∃ b1 b2, bucket.split rt b = (b1, some b2) ∧ b1 ≠ [] ∧ b2 ≠ [] ∧ (b1 ++ b2).Perm b ∧
      b1.length = b.length / 2 := by
  have hlen : (rt.sortFunc (bucket.longestRangeDimension b) b).length = b.length :=
    (rt.sortFunc_perm _ b).length_eq
  refine ⟨(rt.sortFunc (bucket.longestRangeDimension b) b).take (b.length / 2),
    (rt.sortFunc (bucket.longestRangeDimension b) b).drop (b.length / 2), ?_, ?_, ?_, ?_, ?_⟩
  · unfold bucket.split bucket.sortInDimension
    have : ¬ b.length < 2 := by omega
    simp only [this, if_false, hlen]
  · intro h0
    have := congrArg List.length h0
    rw [List.length_take, hlen] at this
    simp only [List.length_nil] at this
    omega
  · intro h0
    have := congrArg List.length h0
    rw [List.length_drop, hlen] at this
    simp only [List.length_nil] at this
    omega
  · rw [List.take_append_drop]
    exact rt.sortFunc_perm _ b
  · rw [List.length_take, hlen]
    omega

theorem flatten_set_perm (l : List bucket) (k : Nat) (hk : k < l.length) (b1 b2 : bucket)
    (hp : (b1 ++ b2).Perm (l.getD k [])) : (l.set k b1 ++ [b2]).flatten.Perm l.flatten := by
  induction l generalizing k with
  | nil => simp at hk
  | cons a l ih =>
    cases k with
    | zero =>
      simp only [List.set_cons_zero, List.cons_append, List.flatten_cons, List.flatten_append,
        List.flatten_nil, List.append_nil]
      simp only [List.getD_cons_zero] at hp
      have h1 : (b1 ++ (l.flatten ++ b2)).Perm (b1 ++ (b2 ++ l.flatten)) :=
        List.Perm.append_left b1 List.perm_append_comm
      refine h1.trans ?_
      rw [← List.append_assoc]
      exact List.Perm.append_right _ hp
    | succ k =>
      simp only [List.set_cons_succ, List.cons_append, List.flatten_cons]
      simp only [List.getD_cons_succ] at hp
      exact List.Perm.append_left a (ih k (by simpa using hk) hp)

theorem sum_length_le (buckets : List bucket) (h : ∀ b ∈ buckets, b.length ≤ 1) :
    buckets.flatten.length ≤ buckets.length := by
  induction buckets with
  | nil => simp
  | cons a l ih =>
    simp only [List.flatten_cons, List.length_append, List.length_cons]
    have h1 := h a (by simp)
    have h2 := ih (fun b hb => h b (by simp [hb]))
    omega

/-- One round of the splitting loop keeps the invariant and adds one bucket. -/
theorem split_step (rt : Runtime) (seed : bucket) (buckets : List bucket)
    (hinv : BucketsInv seed buckets) (hne : buckets ≠ [])
    (hlt : buckets.length < seed.length) :
    ∃ (k : Nat) (b1 b2 : bucket), findLargestBucket buckets = (k : Int) ∧ k < buckets.length ∧
      bucket.split rt (buckets.getD k []) = (b1, some b2) ∧
      BucketsInv seed (buckets.set k b1 ++ [b2]) := by
  obtain ⟨k, hk, hklt, hmax⟩ := findLargestBucket_spec buckets hne
  have h2 : 2 ≤ (buckets.getD k []).length := by
    by_contra hcon
    have hall : ∀ b ∈ buckets, b.length ≤ 1 := fun b hb => by
      have := hmax b hb; omega
    have h1 := sum_length_le buckets hall
    have h3 := hinv.2.length_eq
    omega
  obtain ⟨b1, b2, hs, hb1, hb2, hperm, _⟩ := split_spec rt (buckets.getD k []) h2
  refine ⟨k, b1, b2, hk, hklt, hs, ?_, ?_⟩
  · intro b hb
    rcases List.mem_append.mp hb with hb | hb
    · rcases List.mem_or_eq_of_mem_set hb with hb | hb
      · exact hinv.1 b hb
      · rw [hb]; exact hb1
    · simp at hb; rw [hb]; exact hb2
  · exact (flatten_set_perm buckets k hklt b1 b2 hperm).trans hinv.2

/-- The splitting loop never panics and never runs out of fuel when the seed
has more colours than requested: it ends with exactly `numberOfColors` buckets. -/
theorem splitLoop_spec (rt : Runtime) (numberOfColors : Nat) (seed : bucket)
    (hU : numberOfColors < seed.length) :
    ∀ (fuel : Nat) (buckets : List bucket), BucketsInv seed buckets → buckets ≠ [] →
      buckets.length ≤ numberOfColors → numberOfColors ≤ fuel + buckets.length →
      ∃ out, splitLoop rt numberOfColors fuel buckets = .ok out ∧
        out.length = numberOfColors ∧ BucketsInv seed out := by
  intro fuel
  induction fuel with
  | zero =>
    intro buckets hinv hne hle hfuel
    refine ⟨buckets, ?_, by omega, hinv⟩
    unfold splitLoop
    have : ¬ buckets.length < numberOfColors := by omega
    simp [this]
  | succ fuel ih =>
    intro buckets hinv hne hle hfuel
    by_cases hlt : buckets.length < numberOfColors
    · obtain ⟨k, b1, b2, hk, hklt, hs, hinv2⟩ :=
        split_step rt seed buckets hinv hne (by omega)
      have hlen : (buckets.set k b1 ++ [b2]).length = buckets.length + 1 := by simp
      obtain ⟨out, hout, hol, hoinv⟩ := ih (buckets.set k b1 ++ [b2]) hinv2 (by simp)
        (by omega) (by omega)
      refine ⟨out, ?_, hol, hoinv⟩
      rw [splitLoop]
      simp only [hlt, if_true, hk]
      have hnn : ¬ ((k : Int) < 0) := by omega
      simp only [hnn, if_false, Int.toNat_ofNat, hs]
      exact hout
    · refine ⟨buckets, ?_, by omega, hinv⟩
      rw [splitLoop]
      simp [hlt]

/-- The palette loop succeeds on non-empty buckets and emits one colour each. -/
theorem averageLoop_spec (buckets : List bucket) (h : ∀ b ∈ buckets, b ≠ []) :
    ∀ palette : List Color, ∃ out, averageLoop buckets palette = .ok out ∧
      out.length = palette.length + buckets.length := by
  induction buckets with
  | nil => intro palette; exact ⟨palette, rfl, by simp⟩
  | cons b rest ih =>
    intro palette
    have hb : b.length ≠ 0 := by
      have := h b (by simp)
      intro h0
      exact this (List.length_eq_zero.mp h0)
    obtain ⟨out, hout, hlen⟩ := ih (fun c hc => h c (by simp [hc]))
      (palette ++ [Color.quantized
        ⟨((channelSums b).1 / (b.length % 2 ^ 32)) % 256,
         ((channelSums b).2.1 / (b.length % 2 ^ 32)) % 256,
         ((channelSums b).2.2 / (b.length % 2 ^ 32)) % 256⟩])
    refine ⟨out, ?_, ?_⟩
    · rw [averageLoop]
      simp only [hb, if_false]
      exact hout
    · rw [hlen]; simp; omega

/-! ### Which panics each loop can raise -/

theorem splitLoop_error (rt : Runtime) (numberOfColors : Nat) :
    ∀ (fuel : Nat) (buckets : List bucket) (e : Fault),
      splitLoop rt numberOfColors fuel buckets = .error e →
      e = .outOfFuel ∨ e = .noBuckets ∨ e = .nilBucket := by
  intro fuel
  induction fuel with
  | zero =>
    intro buckets e h
    rw [splitLoop] at h
    split at h
    · simp at h; exact Or.inl h.symm
    · simp at h
  | succ fuel ih =>
    intro buckets e h
    rw [splitLoop] at h
    split at h
    · simp only at h
      split at h
      · simp at h; exact Or.inr (Or.inl h.symm)
      · split at h
        · simp at h; exact Or.inr (Or.inr h.symm)
        · exact ih _ e h
    · simp at h

theorem averageLoop_error (buckets : List bucket) :
    ∀ (palette : List Color) (e : Fault), averageLoop buckets palette = .error e →
      e = .emptyBucket := by
  induction buckets with
  | nil => intro palette e h; simp [averageLoop] at h
  | cons b rest ih =>
    intro palette e h
    rw [averageLoop] at h
    split at h
    · simp at h; exact h.symm
    · exact ih _ e h

/-! ### The image's pixels and their triples -/

theorem mem_imageTriples (img : Image) (t : rgbColor) :
    t ∈ imageTriples img ↔
      ∃ x y, img.Bounds.contains x y ∧ toRgbColor (img.At x y) = t := by
  unfold imageTriples Rectangle.contains
  simp only [List.mem_flatMap, List.mem_map, mem_intRange]
  constructor
  · rintro ⟨y, hy, x, hx, rfl⟩
    exact ⟨x, y, ⟨hx.1, hx.2, hy.1, hy.2⟩, rfl⟩
  · rintro ⟨x, y, ⟨h1, h2, h3, h4⟩, rfl⟩
    exact ⟨y, ⟨h3, h4⟩, x, ⟨h1, h2⟩, rfl⟩

/-- The colour accumulator holds every distinct pixel triple exactly once. -/
theorem fillColors_perm_dedup (img : Image) :
    (colorSet.fillColors [] img).Perm (imageTriples img).dedup := by
  rw [List.perm_ext_iff_of_nodup (fillColors_nodup img) (List.nodup_dedup _)]
  intro t
  rw [mem_fillColors, List.mem_dedup]

theorem toRgbColor_colorRGBA (R G B A : Nat) (hR : R < 256) (hG : G < 256) (hB : B < 256) :
    toRgbColor (Color.colorRGBA R G B A) = ⟨R, G, B⟩ := by
  have key : ∀ v, v < 256 → ((v % 256) ||| ((v % 256) <<< 8)) / 256 % 256 = v := by
    intro v hv
    have h1 : v % 256 = v := Nat.mod_eq_of_lt hv
    have h2 : 2 ^ 8 * v + v = 2 ^ 8 * v ||| v := Nat.mul_add_lt_is_or (by simpa using hv) v
    have h3 : (2 ^ 8 * v + v) / 256 = v := by
      rw [show (2 : Nat) ^ 8 = 256 from rfl, Nat.mul_add_div (by norm_num), Nat.div_eq_of_lt hv]
      rfl
    rw [h1, Nat.lor_comm, Nat.shiftLeft_eq, Nat.mul_comm, ← h2, h3, h1]
  simp only [toRgbColor, Color.RGBA, key R hR, key G hG, key B hB]

/-- With an empty seed palette and few enough distinct colours `Quantize`
returns the colour set itself, every triple as an opaque `color.RGBA`. -/
theorem Quantize_small (rt : Runtime) (N : Nat) (img : Image)
    (h : (colorSet.fillColors [] img).length ≤ N) :
    Quantize rt ⟨[], N⟩ img = .ok ((rt.rangeColorSet (colorSet.fillColors [] img)).map
      (fun c => Color.colorRGBA c.r c.g c.b 255)) := by
  unfold Quantize
  simp only [List.length_nil, gt_iff_lt, Nat.lt_irrefl, if_false, h, if_true, toColorSlice_eq]

/-- With an empty seed palette and more distinct colours than requested
`Quantize` returns exactly `N` colours, provided `N > 0`. -/
theorem Quantize_large (rt : Runtime) (N : Nat) (img : Image) (hN : 0 < N)
    (h : N < (colorSet.fillColors [] img).length) :
    ∃ palette, Quantize rt ⟨[], N⟩ img = .ok palette ∧ palette.length = N := by
  have hseed : (colorSet.toBucket rt (colorSet.fillColors [] img)).length
      = (colorSet.fillColors [] img).length := by
    rw [toBucket_eq]; exact (rt.rangeColorSet_perm _).length_eq
  have hne : colorSet.toBucket rt (colorSet.fillColors [] img) ≠ [] := by
    intro h0
    rw [h0] at hseed
    simp only [List.length_nil] at hseed
    omega
  have hinv : BucketsInv (colorSet.toBucket rt (colorSet.fillColors [] img))
      [colorSet.toBucket rt (colorSet.fillColors [] img)] := by
    refine ⟨?_, by simp⟩
    intro b hb
    simp at hb
    rw [hb]; exact hne
  obtain ⟨out, hout, hlen, hoinv⟩ := splitLoop_spec rt N
    (colorSet.toBucket rt (colorSet.fillColors [] img)) (by omega) N
    [colorSet.toBucket rt (colorSet.fillColors [] img)] hinv (by simp) (by simpa using hN)
    (by simp)
  obtain ⟨palette, hpal, hplen⟩ := averageLoop_spec out hoinv.1 []
  refine ⟨palette, ?_, by simpa [hlen] using hplen⟩
  have hnot : ¬ (colorSet.fillColors [] img).length ≤ N := by omega
  have hp : ¬ palette.length > N := by
    rw [hplen, hlen]; simp
  unfold Quantize
  simp only [List.length_nil, gt_iff_lt, Nat.lt_irrefl, if_false, hnot, hout, hpal]
  simp only [gt_iff_lt] at hp
  simp only [hp, if_false]

/-- With an empty seed palette of capacity `N > 0` `Quantize` never panics: it
returns at most `N` colours, and at least one when the image has a pixel. -/
theorem Quantize_ok (rt : Runtime) (N : Nat) (img : Image) (hN : 0 < N) :
    ∃ palette, Quantize rt ⟨[], N⟩ img = .ok palette ∧ palette.length ≤ N ∧
      ((∃ x y, img.Bounds.contains x y) → 1 ≤ palette.length) := by
  by_cases h : (colorSet.fillColors [] img).length ≤ N
  · refine ⟨_, Quantize_small rt N img h, ?_, ?_⟩
    · rw [List.length_map, (rt.rangeColorSet_perm _).length_eq]; exact h
    · rintro ⟨x, y, hx1, hx2, hy1, hy2⟩
      rw [List.length_map, (rt.rangeColorSet_perm _).length_eq]
      have hne := fillColors_ne_nil img (by omega) (by omega)
      exact List.length_pos.mpr hne
  · obtain ⟨palette, hp, hlen⟩ := Quantize_large rt N img hN (by omega)
    exact ⟨palette, hp, by omega, fun _ => by omega⟩

/-- C1. For every image and every requested palette size `N > 0`, passed as
an empty seed palette of capacity `N`, `Quantize` returns a palette (it does not
panic) with at most `N` entries, and with at least one entry when the image has
at least one pixel. -/
theorem Quantize_at_most_requested (rt : Runtime) (N : Nat) (img : Image) (hN : 0 < N) :
    ∃ palette, Quantize rt ⟨[], N⟩ img = .ok palette ∧ palette.length ≤ N ∧
      ((∃ x y, img.Bounds.contains x y) → 1 ≤ palette.length) :=
  Quantize_ok rt N img hN

/-- Witness for C1: the 2x2 test image with `N = 2`. -/
theorem Quantize_at_most_requested_witness :
    0 < 2 ∧ ∃ palette, Quantize Runtime.insertionOrder ⟨[], 2⟩ imgWithFewerColors = .ok palette ∧
      palette.length ≤ 2 ∧
      ((∃ x y, imgWithFewerColors.Bounds.contains x y) → 1 ≤ palette.length) :=
  ⟨by decide, Quantize_at_most_requested Runtime.insertionOrder 2 imgWithFewerColors (by decide)⟩

theorem Quantize_few_colors_general (rt : Runtime) (N : Nat) (img : Image)
    (hU : (imageTriples img).dedup.length ≤ N) :
    ∃ palette, Quantize rt ⟨[], N⟩ img = .ok palette ∧
      palette.length = (imageTriples img).dedup.length ∧ palette.Nodup ∧
      (∀ col, col ∈ palette ↔
        ∃ t ∈ imageTriples img, col = Color.colorRGBA t.r t.g t.b 255) ∧
      (∀ x y, img.Bounds.contains x y → isOpaqueRGBA (img.At x y) → img.At x y ∈ palette) ∧
      ((∀ x y, img.Bounds.contains x y → isOpaqueRGBA (img.At x y)) →
        ∀ col ∈ palette, ∃ x y, img.Bounds.contains x y ∧ img.At x y = col) := by
  have hlen := (fillColors_perm_dedup img).length_eq
  have hmem : ∀ col, col ∈ (rt.rangeColorSet (colorSet.fillColors [] img)).map
      (fun c => Color.colorRGBA c.r c.g c.b 255) ↔
        ∃ t ∈ imageTriples img, col = Color.colorRGBA t.r t.g t.b 255 := by
    intro col
    simp only [List.mem_map, (rt.rangeColorSet_perm _).mem_iff, mem_fillColors]
    constructor
    · rintro ⟨t, ht, rfl⟩; exact ⟨t, ht, rfl⟩
    · rintro ⟨t, ht, rfl⟩; exact ⟨t, ht, rfl⟩
  refine ⟨_, Quantize_small rt N img (by omega), ?_, ?_, hmem, ?_, ?_⟩
  · rw [List.length_map, (rt.rangeColorSet_perm _).length_eq, hlen]
  · refine List.Nodup.map ?_ ((rt.rangeColorSet_perm _).nodup_iff.mpr (fillColors_nodup img))
    intro a b hab
    simp only [Color.colorRGBA.injEq] at hab
    cases a; cases b
    simp only [rgbColor.mk.injEq]
    exact ⟨hab.1, hab.2.1, hab.2.2.1⟩
  · rintro x y hc ⟨R, G, B, hR, hG, hB, hcol⟩
    rw [hmem]
    refine ⟨toRgbColor (img.At x y), (mem_imageTriples img _).mpr ⟨x, y, hc, rfl⟩, ?_⟩
    rw [hcol, toRgbColor_colorRGBA R G B 255 hR hG hB]
  · intro hall col hcol
    obtain ⟨t, ht, rfl⟩ := (hmem col).mp hcol
    obtain ⟨x, y, hc, rfl⟩ := (mem_imageTriples img t).mp ht
    obtain ⟨R, G, B, hR, hG, hB, hcol2⟩ := hall x y hc
    refine ⟨x, y, hc, ?_⟩
    rw [hcol2, toRgbColor_colorRGBA R G B 255 hR hG hB]

theorem imageTriples_imgWithFewerColors :
    imageTriples imgWithFewerColors = [⟨255, 0, 0⟩, ⟨0, 0, 255⟩, ⟨0, 255, 0⟩, ⟨255, 255, 0⟩] := by
  decide

/-- C2. When the image has `U ≤ N` distinct RGB triples (empty seed palette of
capacity `N`), `Quantize` returns exactly `U` entries without averaging: the
palette has no repetition and consists exactly of the distinct triples as opaque
`color.RGBA` values; every opaque `color.RGBA` pixel is returned as it is, and on
an image of opaque pixels every returned colour is the colour of some pixel. The
2x2 test image with four distinct opaque colours and `N = 8` yields exactly those
four colours. -/
theorem Quantize_few_colors (rt : Runtime) (N : Nat) (img : Image)
    (hU : (imageTriples img).dedup.length ≤ N) :
    (∃ palette, Quantize rt ⟨[], N⟩ img = .ok palette ∧
      palette.length = (imageTriples img).dedup.length ∧ palette.Nodup ∧
      (∀ col, col ∈ palette ↔
        ∃ t ∈ imageTriples img, col = Color.colorRGBA t.r t.g t.b 255) ∧
      (∀ x y, img.Bounds.contains x y → isOpaqueRGBA (img.At x y) → img.At x y ∈ palette) ∧
      ((∀ x y, img.Bounds.contains x y → isOpaqueRGBA (img.At x y)) →
        ∀ col ∈ palette, ∃ x y, img.Bounds.contains x y ∧ img.At x y = col)) ∧
    (∃ palette, Quantize rt ⟨[], 8⟩ imgWithFewerColors = .ok palette ∧ palette.length = 4 ∧
      palette.Nodup ∧
      ∀ col, col ∈ palette ↔ col ∈ [Color.colorRGBA 255 0 0 255, Color.colorRGBA 0 255 0 255,
        Color.colorRGBA 0 0 255 255, Color.colorRGBA 255 255 0 255]) := by
  refine ⟨Quantize_few_colors_general rt N img hU, ?_⟩
  obtain ⟨palette, hp, hlen, hnd, hmem, _, _⟩ :=
    Quantize_few_colors_general rt 8 imgWithFewerColors (by decide)
  refine ⟨palette, hp, ?_, hnd, ?_⟩
  · rw [hlen]; decide
  · intro col
    rw [hmem, imageTriples_imgWithFewerColors]
    simp only [List.mem_cons, List.mem_singleton, List.not_mem_nil, or_false]
    constructor
    · rintro ⟨t, ht, rfl⟩
      rcases ht with rfl | rfl | rfl | rfl <;> simp
    · rintro (rfl | rfl | rfl | rfl)
      · exact ⟨⟨255, 0, 0⟩, by simp, rfl⟩
      · exact ⟨⟨0, 255, 0⟩, by simp, rfl⟩
      · exact ⟨⟨0, 0, 255⟩, by simp, rfl⟩
      · exact ⟨⟨255, 255, 0⟩, by simp, rfl⟩

/-- Witness for C2: the 2x2 test image with `N = 8`. -/
theorem Quantize_few_colors_witness :
    (imageTriples imgWithFewerColors).dedup.length ≤ 8 ∧
    ∃ palette, Quantize Runtime.insertionOrder ⟨[], 8⟩ imgWithFewerColors = .ok palette ∧
      palette.length = 4 :=
  ⟨by decide,
   (Quantize_few_colors Runtime.insertionOrder 8 imgWithFewerColors (by decide)).2.imp
     (fun _ h => ⟨h.1, h.2.1⟩)⟩

/-- C3. A seed palette of length at least 1 makes `Quantize` panic with
"Quantizer does not support pre-defined palettes" whatever the image and the
capacity are, and no palette is returned; with an empty seed palette that panic
never occurs. -/
theorem Quantize_predefined_palette (rt : Runtime) (p : Slice Color) (img : Image) :
    (1 ≤ p.elems.length → Quantize rt p img = .error .predefinedPalette) ∧
    (p.elems.length = 0 → Quantize rt p img ≠ .error .predefinedPalette) := by
  constructor
  · intro h
    unfold Quantize
    have : p.elems.length > 0 := h
    simp only [this, if_true]
  · intro h hq
    unfold Quantize at hq
    simp only [h, gt_iff_lt, Nat.lt_irrefl, if_false] at hq
    split at hq
    · simp at hq
    · split at hq
      · rename_i e he
        have := splitLoop_error rt _ _ _ e he
        simp only [Except.error.injEq] at hq
        subst hq
        simp at this
      · split at hq
        · rename_i e he
          have := averageLoop_error _ _ e he
          simp only [Except.error.injEq] at hq
          subst hq
          simp at this
        · split at hq <;> simp at hq

/-- Witness for C3: a one-colour seed palette on a 1x1 image, as in
`TestQuantizer_Quantize_PanicWithPredefinedPalette`, and the empty seed. -/
theorem Quantize_predefined_palette_witness :
    Quantize Runtime.insertionOrder ⟨[Color.other 0 0 0 0 65535], 1⟩
        ⟨⟨⟨0, 0⟩, ⟨1, 1⟩⟩, fun _ _ => Color.colorRGBA 0 0 0 0⟩ = .error .predefinedPalette ∧
    Quantize Runtime.insertionOrder ⟨[], 1⟩
        ⟨⟨⟨0, 0⟩, ⟨1, 1⟩⟩, fun _ _ => Color.colorRGBA 0 0 0 0⟩ ≠ .error .predefinedPalette :=
  ⟨(Quantize_predefined_palette Runtime.insertionOrder ⟨[Color.other 0 0 0 0 65535], 1⟩
      ⟨⟨⟨0, 0⟩, ⟨1, 1⟩⟩, fun _ _ => Color.colorRGBA 0 0 0 0⟩).1 (by decide),
   (Quantize_predefined_palette Runtime.insertionOrder ⟨[], 1⟩
      ⟨⟨⟨0, 0⟩, ⟨1, 1⟩⟩, fun _ _ => Color.colorRGBA 0 0 0 0⟩).2 (by decide)⟩

end quantize

namespace sixel

/-! ## Run-length encoder: supporting lemmas -/

theorem decimal_zero : decimal 0 = [] := by
  simp [decimal]

theorem decimal_step (n : Nat) (h : 0 < n) : decimal n = decimal (n / 10) ++ [48 + n % 10] := by
  unfold decimal
  rw [Nat.digits_def' (by norm_num) h]
  simp

theorem fmtNatAux_eq (fuel : Nat) :
    ∀ (n : Nat) (acc : Bytes), 0 < n → n < fuel → fmtNatAux fuel n acc = decimal n ++ acc := by
  induction fuel with
  | zero => intro n acc _ h; omega
  | succ fuel ih =>
    intro n acc hpos hlt
    rw [fmtNatAux, decimal_step n hpos]
    split
    · rename_i h0
      rw [h0, decimal_zero]
      simp
    · rename_i h0
      rw [ih (n / 10) _ (by omega) (by omega)]
      simp

/-- The `%d` verb prints a positive number as its decimal digits. -/
theorem fmtNat_eq_decimal (n : Nat) (h : 0 < n) : fmtNat n = decimal n := by
  unfold fmtNat
  rw [fmtNatAux_eq (n + 1) n [] h (by omega)]
  simp

theorem fmtNat_zero : fmtNat 0 = [48] := by decide

theorem decimal_digits (n : Nat) : ∀ d ∈ decimal n, 48 ≤ d ∧ d ≤ 57 := by
  intro d hd
  unfold decimal at hd
  simp only [List.mem_map, List.mem_reverse] at hd
  obtain ⟨k, hk, rfl⟩ := hd
  have := Nat.digits_lt_base (by norm_num : 1 < 10) hk
  omega

/-- The value that the decoder has accumulated after reading the digit string
`ds` starting from `m`. -/
theorem rleDecodeFrom_count_digits (ds : Bytes) (h : ∀ d ∈ ds, 48 ≤ d ∧ d ≤ 57) :
    ∀ (m : Nat) (rest : Bytes), rleDecodeFrom (.count m) (ds ++ rest)
      = rleDecodeFrom (.count (ds.foldl (fun a d => 10 * a + (d - 48)) m)) rest := by
  induction ds with
  | nil => intro m rest; rfl
  | cons d ds ih =>
    intro m rest
    have hd := h d (by simp)
    simp only [List.cons_append, rleDecodeFrom, hd, and_self, if_true, List.foldl_cons]
    exact ih (fun e he => h e (by simp [he])) _ rest

theorem foldl_decimal (n : Nat) :
    (decimal n).foldl (fun a d => 10 * a + (d - 48)) 0 = n := by
  induction n using Nat.strong_induction_on with
  | _ n ih =>
    by_cases h : n = 0
    · subst h; rw [decimal_zero]; rfl
    · rw [decimal_step n (by omega), List.foldl_append, ih (n / 10) (by omega)]
      simp only [List.foldl_cons, List.foldl_nil]
      omega

/-- Decoding a run marker for a plain character yields the run. -/
theorem rleDecodeFrom_marker (n c : Nat) (hc : isPlain c) (rest : Bytes) :
    rleDecodeFrom .copy (33 :: (decimal n ++ [c]) ++ rest)
      = List.replicate n c ++ rleDecodeFrom .copy rest := by
  have h1 : (33 :: (decimal n ++ [c]) ++ rest) = 33 :: (decimal n ++ (c :: rest)) := by simp
  rw [h1, rleDecodeFrom]
  simp only [if_true]
  rw [rleDecodeFrom_count_digits _ (decimal_digits n), foldl_decimal, rleDecodeFrom]
  simp only [hc.2, if_false]

theorem rleDecodeFrom_replicate (n c : Nat) (hc : isPlain c) (rest : Bytes) :
    rleDecodeFrom .copy (List.replicate n c ++ rest)
      = List.replicate n c ++ rleDecodeFrom .copy rest := by
  induction n with
  | zero => simp
  | succ n ih =>
    rw [List.replicate_succ, List.cons_append, rleDecodeFrom]
    simp only [hc.1, if_false, List.cons_append]
    rw [ih]

theorem stringsRepeat_singleton (c n : Nat) : stringsRepeat [c] n = List.replicate n c := by
  induction n with
  | zero => rfl
  | succ n ih => simp [stringsRepeat, ih, List.replicate_succ]

/-- On an ASCII character `rleGenerateSubString` is the rendering of the run
by the specification. -/
theorem rleGenerateSubString_ascii (c count : Nat) (hc : c < 128) :
    rleGenerateSubString c count = renderRun (c, count) := by
  unfold rleGenerateSubString renderRun
  have hu : utf8EncodeRune c = [c] := by simp [utf8EncodeRune, hc]
  by_cases h : count > 2
  · have h2 : ¬ count ≤ 2 := by omega
    simp only [h, if_true, h2, if_false, hu, fmtNat_eq_decimal count (by omega)]
  · have h2 : count ≤ 2 := by omega
    simp only [h, if_false, h2, if_true, hu, stringsRepeat_singleton]

theorem rleDecodeFrom_renderRun (c n : Nat) (hc : isPlain c) (rest : Bytes) :
    rleDecodeFrom .copy (renderRun (c, n) ++ rest)
      = List.replicate n c ++ rleDecodeFrom .copy rest := by
  unfold renderRun
  split
  · exact rleDecodeFrom_replicate n c hc rest
  · exact rleDecodeFrom_marker n c hc rest

/-! ### Runs -/

theorem runs_cons_head (c : Nat) (rest : Bytes) :
    ∃ n more, runs (c :: rest) = (c, n + 1) :: more := by
  rw [runs]
  cases h : runs rest with
  | nil => exact ⟨0, [], rfl⟩
  | cons r more =>
    obtain ⟨d, n⟩ := r
    by_cases hcd : c = d
    · subst hcd; exact ⟨n, more, by simp⟩
    · exact ⟨0, (d, n) :: more, by simp [hcd]⟩

theorem runs_replicate (c k : Nat) : runs (List.replicate (k + 1) c) = [(c, k + 1)] := by
  induction k with
  | zero => rfl
  | succ k ih =>
    rw [List.replicate_succ, runs, ih]
    simp

theorem runs_replicate_append (prev c k : Nat) (rest : Bytes) (h : c ≠ prev) :
    runs (List.replicate (k + 1) prev ++ c :: rest) = (prev, k + 1) :: runs (c :: rest) := by
  induction k with
  | zero =>
    obtain ⟨n, more, hr⟩ := runs_cons_head c rest
    simp only [List.replicate_succ, List.replicate_zero, List.cons_append, List.nil_append]
    rw [runs, hr]
    simp [Ne.symm h]
  | succ k ih =>
    rw [List.replicate_succ, List.cons_append, runs, ih]
    simp

/-- The loop of `rleEncode` appends to `result` the rendering of the runs of
the pending run followed by the rest of the input. -/
theorem rleEncodeLoop_eq (rest : Bytes) :
    ∀ (prev count : Nat) (result : Bytes), prev < 128 → (∀ c ∈ rest, c < 128) →
      rleEncodeLoop prev (count + 1) rest result
        = result ++ (runs (List.replicate (count + 1) prev ++ rest)).flatMap renderRun := by
  induction rest with
  | nil =>
    intro prev count result hp _
    rw [rleEncodeLoop, List.append_nil, runs_replicate, rleGenerateSubString_ascii _ _ hp]
    simp
  | cons c rest ih =>
    intro prev count result hp hrest
    have hc : c < 128 := hrest c (by simp)
    have hr : ∀ d ∈ rest, d < 128 := fun d hd => hrest d (by simp [hd])
    rw [rleEncodeLoop]
    split
    · rename_i heq
      subst heq
      rw [ih c (count + 1) result hp hr]
      have : List.replicate (count + 1 + 1) c ++ rest = List.replicate (count + 1) c ++ c :: rest := by
        rw [List.replicate_succ' (count + 1) c]; simp
      rw [this]
    · rename_i hne
      rw [ih c 0 _ hc hr, runs_replicate_append prev c count rest hne,
        rleGenerateSubString_ascii _ _ hp]
      simp

/-- On ASCII input `rleEncode` is the run-length code of the specification. -/
theorem rleEncode_eq_reference (input : Bytes) (h : ∀ c ∈ input, c < 128) :
    rleEncode input = rleReference input := by
  cases input with
  | nil => rfl
  | cons c rest =>
    unfold rleEncode rleReference
    have := rleEncodeLoop_eq rest c 0 [] (h c (by simp)) (fun d hd => h d (by simp [hd]))
    simpa using this

theorem runs_concat (input : Bytes) :
    (runs input).flatMap (fun run => List.replicate run.2 run.1) = input := by
  induction input with
  | nil => rfl
  | cons c rest ih =>
    rw [runs]
    cases h : runs rest with
    | nil =>
      rw [h] at ih
      simp at ih
      simp [← ih]
    | cons r more =>
      obtain ⟨d, n⟩ := r
      rw [h] at ih
      by_cases hcd : c = d
      · subst hcd
        simp only [if_true, List.flatMap_cons, List.replicate_succ, List.cons_append]
        simp only [List.flatMap_cons] at ih
        rw [ih]
      · simp only [hcd, if_false, List.flatMap_cons, List.replicate_succ, List.replicate_zero,
          List.cons_append, List.nil_append]
        simp only [List.flatMap_cons] at ih
        rw [ih]

theorem runs_pos (input : Bytes) : ∀ run ∈ runs input, 0 < run.2 := by
  induction input with
  | nil => intro run h; simp [runs] at h
  | cons c rest ih =>
    intro run hrun
    rw [runs] at hrun
    cases h : runs rest with
    | nil => rw [h] at hrun; simp at hrun; subst hrun; simp
    | cons r more =>
      obtain ⟨d, n⟩ := r
      rw [h] at hrun ih
      by_cases hcd : c = d
      · simp only [hcd, if_true, List.mem_cons] at hrun
        rcases hrun with rfl | hm
        · simp
        · exact ih run (by simp [hm])
      · simp only [hcd, if_false, List.mem_cons] at hrun
        rcases hrun with rfl | rfl | hm
        · simp
        · exact ih _ (by simp)
        · exact ih run (by simp [hm])

theorem runs_maximal (input : Bytes) : (runs input).Chain' (fun a b => a.1 ≠ b.1) := by
  induction input with
  | nil => simp [runs]
  | cons c rest ih =>
    rw [runs]
    cases h : runs rest with
    | nil => simp
    | cons r more =>
      obtain ⟨d, n⟩ := r
      rw [h] at ih
      by_cases hcd : c = d
      · simp only [hcd, if_true]
        cases more with
        | nil => simp
        | cons r2 more2 =>
          simp only [List.chain'_cons] at ih ⊢
          exact ih
      · simp only [hcd, if_false, List.chain'_cons]
        exact ⟨hcd, ih⟩

theorem runs_char_mem (input : Bytes) : ∀ run ∈ runs input, run.1 ∈ input := by
  intro run hrun
  have hpos := runs_pos input run hrun
  have hcat := runs_concat input
  have : run.1 ∈ (runs input).flatMap (fun run => List.replicate run.2 run.1) := by
    rw [List.mem_flatMap]
    refine ⟨run, hrun, ?_⟩
    rw [List.mem_replicate]
    exact ⟨by omega, rfl⟩
  rw [hcat] at this
  exact this

theorem rleDecodeFrom_flatMap_renderRun (rs : List (Nat × Nat)) (h : ∀ run ∈ rs, isPlain run.1)
    (rest : Bytes) :
    rleDecodeFrom .copy (rs.flatMap renderRun ++ rest)
      = rs.flatMap (fun run => List.replicate run.2 run.1) ++ rleDecodeFrom .copy rest := by
  induction rs with
  | nil => simp
  | cons r rs ih =>
    obtain ⟨c, n⟩ := r
    simp only [List.flatMap_cons, List.append_assoc]
    rw [rleDecodeFrom_renderRun c n (h (c, n) (by simp)),
      ih (fun run hrun => h run (by simp [hrun]))]

/-- Decoding inverts `rleEncode` on ASCII strings without `!` and digits. -/
theorem rleDecode_rleEncode_of_plain (input : Bytes)
    (h : ∀ c ∈ input, c < 128 ∧ isPlain c) : rleDecode (rleEncode input) = input := by
  rw [rleEncode_eq_reference input (fun c hc => (h c hc).1)]
  unfold rleDecode rleReference
  have := rleDecodeFrom_flatMap_renderRun (runs input)
    (fun run hrun => (h run.1 (runs_char_mem input run hrun)).2) []
  simp only [List.append_nil] at this
  rw [this, runs_concat]
  simp [rleDecodeFrom]

/-- C4, as stated, fails: the printable string `!3a` is encoded as itself and
decodes to `aaa`. -/
theorem rleEncode_roundtrip_counterexample :
    (∀ c ∈ bytes "!3a", 32 ≤ c ∧ c ≤ 126) ∧
    rleEncode (bytes "!3a") = bytes "!3a" ∧
    rleDecode (rleEncode (bytes "!3a")) = bytes "aaa" ∧
    rleDecode (rleEncode (bytes "!3a")) ≠ bytes "!3a" := by
  decide

/-- C4 (amended). For every input over the printable range 0x20..0x7E that
contains neither `!` nor a decimal digit, decoding `rleEncode input` (each
`!<n><c>` becomes `c` repeated `n` times, other characters pass through)
reconstructs the input exactly. -/
theorem rleEncode_roundtrip (input : Bytes)
    (h : ∀ c ∈ input, 32 ≤ c ∧ c ≤ 126 ∧ c ≠ 33 ∧ ¬ (48 ≤ c ∧ c ≤ 57)) :
    rleDecode (rleEncode input) = input :=
  rleDecode_rleEncode_of_plain input
    (fun c hc => ⟨by have := h c hc; omega, (h c hc).2.2⟩)

/-- Witness for C4 (amended): `aaaab  ~~~` contains a run, a space and a tilde. -/
theorem rleEncode_roundtrip_witness :
    (∀ c ∈ bytes "aaaab  ~~~", 32 ≤ c ∧ c ≤ 126 ∧ c ≠ 33 ∧ ¬ (48 ≤ c ∧ c ≤ 57)) ∧
    rleDecode (rleEncode (bytes "aaaab  ~~~")) = bytes "aaaab  ~~~" :=
  ⟨by decide, rleEncode_roundtrip (bytes "aaaab  ~~~") (by decide)⟩

/-- C5, as stated for every input, fails on a non-ASCII byte: `rleEncode` turns
the byte 0xC3 into the rune U+00C3 and writes its two-byte UTF-8 encoding. -/
theorem rleEncode_reference_counterexample :
    rleEncode [195] = [195, 131] ∧ rleReference [195] = [195] ∧
    rleEncode [195] ≠ rleReference [195] := by
  decide

/-- C5 (amended). On every ASCII input (all bytes below 0x80) `rleEncode`
equals the reference definition: the input is split into its maximal runs
(`runs`: the runs concatenate to the input, have positive length, and
neighbouring runs have different characters) and each run of character `c` and
length `n` is rendered as `c` repeated `n` times when `n ≤ 2` and as `!`, the
decimal digits of `n` and `c` once when `n > 2`. In particular `rle("") = ""`,
`rle("aaa") = "!3a"`, `rle("aa") = "aa"` and `rle("abc") = "abc"`. -/
theorem rleEncode_reference (input : Bytes) (h : ∀ c ∈ input, c < 128) :
    rleEncode input = rleReference input ∧
    (runs input).flatMap (fun run => List.replicate run.2 run.1) = input ∧
    (∀ run ∈ runs input, 0 < run.2) ∧
    (runs input).Chain' (fun a b => a.1 ≠ b.1) ∧
    rleEncode (bytes "") = bytes "" ∧ rleEncode (bytes "aaa") = bytes "!3a" ∧
    rleEncode (bytes "aa") = bytes "aa" ∧ rleEncode (bytes "abc") = bytes "abc" :=
  ⟨rleEncode_eq_reference input h, runs_concat input, runs_pos input, runs_maximal input,
    by decide, by decide, by decide, by decide⟩

/-- Witness for C5 (amended): a string with runs of length 1, 2 and 12. -/
theorem rleEncode_reference_witness :
    (∀ c ∈ bytes "abbcccccccccccc", c < 128) ∧
    rleEncode (bytes "abbcccccccccccc") = rleReference (bytes "abbcccccccccccc") ∧
    rleEncode (bytes "abbcccccccccccc") = bytes "abb!12c" :=
  ⟨by decide, (rleEncode_reference (bytes "abbcccccccccccc") (by decide)).1, by decide⟩

/-! ## Band encoder: the six-row mask -/

theorem pixelLoop_spec (img : Paletted) (bounds : Rectangle) (c : Option Color) (x curY : Int)
    (rounds : Nat) :
    ∀ (i pixel : Nat), pixel < 2 ^ i →
      pixelLoop img bounds c x curY rounds i pixel < 2 ^ (i + rounds) ∧
      ∀ j, (pixelLoop img bounds c x curY rounds i pixel).testBit j = true ↔
        (pixel.testBit j = true ∨
          (i ≤ j ∧ j < i + rounds ∧ curY + (j : Int) < bounds.Max.Y ∧
            c = img.At x (curY + (j : Int)))) := by
  induction rounds with
  | zero =>
    intro i pixel hp
    refine ⟨by simpa [pixelLoop] using hp, fun j => ?_⟩
    simp only [pixelLoop]
    constructor
    · intro h; exact Or.inl h
    · rintro (h | ⟨h1, h2, _⟩)
      · exact h
      · omega
  | succ rounds ih =>
    intro i pixel hp
    have hmono : (2 : Nat) ^ i ≤ 2 ^ (i + (rounds + 1)) :=
      Nat.pow_le_pow_right (by norm_num) (by omega)
    rw [pixelLoop]
    split
    · rename_i hbreak
      refine ⟨by omega, fun j => ?_⟩
      constructor
      · intro h; exact Or.inl h
      · rintro (h | ⟨h1, _, h3, _⟩)
        · exact h
        · omega
    · rename_i hin
      have hbit : (2 : Nat) ^ i < 2 ^ (i + 1) := Nat.pow_lt_pow_right (by norm_num) (by omega)
      have hp1 : pixel < 2 ^ (i + 1) := by omega
      have hnew : (if c = img.At x (curY + (i : Int)) then pixel ||| (1 <<< i) else pixel)
          < 2 ^ (i + 1) := by
        split
        · rw [Nat.one_shiftLeft]
          exact Nat.or_lt_two_pow hp1 hbit
        · exact hp1
      obtain ⟨hlt, hbits⟩ := ih (i + 1) _ hnew
      refine ⟨by rw [show i + (rounds + 1) = i + 1 + rounds by omega]; exact hlt, fun j => ?_⟩
      rw [hbits j]
      have hnewbit : (if c = img.At x (curY + (i : Int)) then pixel ||| (1 <<< i) else pixel).testBit j
          = true ↔ (pixel.testBit j = true ∨ (j = i ∧ c = img.At x (curY + (i : Int)))) := by
        split
        · rename_i hc
          rw [Nat.one_shiftLeft, Nat.testBit_or, Nat.testBit_two_pow]
          simp only [Bool.or_eq_true, decide_eq_true_eq]
          constructor
          · rintro (h | h)
            · exact Or.inl h
            · exact Or.inr ⟨h.symm, hc⟩
          · rintro (h | ⟨h, _⟩)
            · exact Or.inl h
            · exact Or.inr h.symm
        · rename_i hc
          constructor
          · intro h; exact Or.inl h
          · rintro (h | ⟨_, h⟩)
            · exact h
            · exact absurd h hc
      rw [hnewbit]
      constructor
      · rintro ((h | ⟨h1, h2⟩) | ⟨h1, h2, h3, h4⟩)
        · exact Or.inl h
        · subst h1
          exact Or.inr ⟨Nat.le_refl _, by omega, by omega, h2⟩
        · exact Or.inr ⟨by omega, by omega, h3, h4⟩
      · rintro (h | ⟨h1, h2, h3, h4⟩)
        · exact Or.inl (Or.inl h)
        · by_cases hji : j = i
          · subst hji
            exact Or.inl (Or.inr ⟨rfl, h4⟩)
          · exact Or.inr ⟨by omega, by omega, h3, h4⟩

/-- Every character of a mask line is a single byte: the line is the list of
the per-column values. -/
theorem maskLine_eq (img : Paletted) (bounds : Rectangle) (c : Option Color) (curY : Int) :
    maskLine img bounds c curY
      = (intRange bounds.Min.X bounds.Max.X).map (fun x => sixelPixel img bounds c x curY) := by
  unfold maskLine
  have hsingle : ∀ x, utf8EncodeRune (sixelPixel img bounds c x curY)
      = [sixelPixel img bounds c x curY] := by
    intro x
    have h := (pixelLoop_spec img bounds c x curY bandHeight 0 0 (by norm_num)).1
    have : sixelPixel img bounds c x curY < 128 := by
      unfold sixelPixel sixelOffset
      simp only [bandHeight] at h ⊢
      omega
    simp [utf8EncodeRune, this]
  have hf : (fun (line : Bytes) (x : Int) => line ++ utf8EncodeRune (sixelPixel img bounds c x curY))
      = (fun line x => line ++ [sixelPixel img bounds c x curY]) := by
    funext line x
    rw [hsingle]
  rw [hf, foldl_snoc_eq_append]
  simp

/-- C6. For a band with top row `curY` inside the image, a colour `c` and a
column `x` of the image, the value written for that column before run-length
encoding is `63 + m`, where bit `i` (`0 ≤ i ≤ 5`) of `m` is set exactly when
`(x, curY + i)` lies inside the image and the pixel there equals `c`; `m` has no
other bits, so `m ≤ 63` and the value is one of the single bytes `?`..`~`; the
mask line is the list of these values; and when only `h < 6` rows remain no bit
`i ≥ h` is set. -/
theorem sixelPixel_mask (img : Paletted) (bounds : Rectangle) (c : Option Color) (x curY : Int)
    (hx : bounds.Min.X ≤ x ∧ x < bounds.Max.X) (htop : bounds.Min.Y ≤ curY) :
    ∃ m, sixelPixel img bounds c x curY = 63 + m ∧ m ≤ 63 ∧
      (∀ i : Nat, i < 6 → (m.testBit i = true ↔
        (bounds.contains x (curY + (i : Int)) ∧ img.At x (curY + (i : Int)) = c))) ∧
      (∀ i, 6 ≤ i → m.testBit i = false) ∧
      63 ≤ sixelPixel img bounds c x curY ∧ sixelPixel img bounds c x curY ≤ 126 ∧
      utf8EncodeRune (sixelPixel img bounds c x curY) = [sixelPixel img bounds c x curY] ∧
      maskLine img bounds c curY
        = (intRange bounds.Min.X bounds.Max.X).map (fun x => sixelPixel img bounds c x curY) ∧
      (∀ h : Nat, h < 6 → bounds.Max.Y = curY + (h : Int) → ∀ i, h ≤ i → m.testBit i = false) := by
  obtain ⟨hlt, hbits⟩ := pixelLoop_spec img bounds c x curY bandHeight 0 0 (by norm_num)
  simp only [bandHeight, Nat.zero_add] at hlt hbits
  have hm : pixelLoop img bounds c x curY 6 0 0 < 64 := by simpa using hlt
  have hzero : ∀ j, Nat.testBit 0 j = false := fun j => Nat.zero_testBit j
  have hval : sixelPixel img bounds c x curY = 63 + pixelLoop img bounds c x curY 6 0 0 := by
    unfold sixelPixel sixelOffset bandHeight; omega
  have hfalse : ∀ i : Nat, ¬ (i < 6 ∧ curY + (i : Int) < bounds.Max.Y ∧ c = img.At x (curY + (i : Int))) →
      (pixelLoop img bounds c x curY 6 0 0).testBit i = false := by
    intro i hi
    cases hb : (pixelLoop img bounds c x curY 6 0 0).testBit i with
    | false => rfl
    | true =>
      rcases (hbits i).mp hb with h | ⟨_, h2, h3, h4⟩
      · rw [hzero] at h; exact absurd h (by simp)
      · exact absurd ⟨h2, h3, h4⟩ hi
  refine ⟨pixelLoop img bounds c x curY 6 0 0, hval, by omega, ?_, ?_, by omega, by omega, ?_,
    maskLine_eq img bounds c curY, ?_⟩
  · intro i hi
    rw [hbits i]
    unfold Rectangle.contains
    constructor
    · rintro (h | ⟨_, _, h3, h4⟩)
      · rw [hzero] at h; exact absurd h (by simp)
      · exact ⟨⟨hx.1, hx.2, by omega, h3⟩, h4.symm⟩
    · rintro ⟨⟨_, _, _, h3⟩, h4⟩
      exact Or.inr ⟨Nat.zero_le _, hi, h3, h4.symm⟩
  · intro i hi
    exact hfalse i (by omega)
  · have : sixelPixel img bounds c x curY < 128 := by omega
    simp [utf8EncodeRune, this]
  · intro h _ hmax i hi
    exact hfalse i (by omega)

end sixel

/-! ## Go `int` arithmetic -/

theorem wrapInt_of_isInt (v : Int) (h : isInt v) : wrapInt v = v := by
  unfold isInt minInt maxInt at h
  unfold wrapInt
  omega

theorem isInt_wrapInt (v : Int) : isInt (wrapInt v) := by
  unfold isInt minInt maxInt wrapInt
  omega

theorem wrapInt_add_wrapInt (a b : Int) : wrapInt (wrapInt a + b) = wrapInt (a + b) := by
  unfold wrapInt
  omega

theorem wrapInt_even (v : Int) (h : v % 2 = 0) : wrapInt v % 2 = 0 := by
  unfold wrapInt
  omega

/-- On a well-formed rectangle `Dx()` and `Dy()` are the width and the height. -/
theorem Rectangle.Dx_Dy_of_wellFormed (r : Rectangle) (h : r.WellFormed) :
    r.Dx = r.Max.X - r.Min.X ∧ r.Dy = r.Max.Y - r.Min.Y ∧ 0 ≤ r.Dx ∧ 0 ≤ r.Dy := by
  unfold Rectangle.WellFormed isInt minInt maxInt at h
  unfold Rectangle.Dx Rectangle.Dy wrapInt
  omega

/-- A solution of `wrapInt (a + 6 * k) = y` for `y` of the parity of `a`:
`3` is invertible modulo `2^63`. -/
theorem exists_rounds (a y : Int) (hy : isInt y) (hpar : (y - a) % 2 = 0) :
    ∃ k : Nat, wrapInt (a + 6 * (k : Int)) = y := by
  unfold isInt minInt maxInt at hy
  refine ⟨(((y - a) / 2 * 12297829382473034411) % 9223372036854775808).toNat, ?_⟩
  unfold wrapInt
  omega

namespace sixel

/-! ## Encoder: the shape of the output -/

theorem intercalate_singleton (sep a : Bytes) : List.intercalate sep [a] = a := by
  simp [List.intercalate, List.intersperse]

theorem intercalate_cons_cons (sep a b : Bytes) (l : List Bytes) :
    List.intercalate sep (a :: b :: l) = a ++ sep ++ List.intercalate sep (b :: l) := by
  simp [List.intercalate, List.intersperse]

/-- The colour loop writes the entries of the colours joined by `$`. -/
theorem colorLoop_eq (pm : paletteMap) (img : Paletted) (bounds : Rectangle) (curY : Int)
    (total : Nat) (cs : List (Option Color)) :
    ∀ index, index + cs.length = total →
      colorLoop pm img bounds curY total cs index
        = List.intercalate [36] (cs.map (colorEntry pm img bounds curY)) := by
  induction cs with
  | nil => intro index _; rfl
  | cons c rest ih =>
    intro index hlen
    rw [colorLoop]
    cases rest with
    | nil =>
      have : ¬ index + 1 < total := by simp at hlen; omega
      simp only [this, if_false, colorLoop, List.map_cons, List.map_nil, intercalate_singleton,
        List.append_nil]
    | cons d rest =>
      have : index + 1 < total := by simp at hlen; omega
      rw [ih (index + 1) (by simp at hlen ⊢; omega)]
      simp only [this, if_true, List.map_cons, intercalate_cons_cons]

theorem encodeBand_eq (rt : Runtime) (pm : paletteMap) (img : Paletted) (bounds : Rectangle)
    (curY : Int) :
    encodeBand rt pm img bounds curY
      = bandSegment rt pm img bounds curY
        ++ (if wrapInt (curY + 6) < bounds.Max.Y then [45] else []) := by
  unfold encodeBand bandSegment
  simp only
  rw [colorLoop_eq pm img bounds curY _ _ 0
    (by simpa using (rt.rangeBandColors_perm curY _).length_eq)]
  rfl

/-- While no sum `curY+bandHeight` wraps around, the band loop ends within
`ceil((Max.Y - curY) / 6)` rounds and writes the band segments from top to
bottom joined by `-`. -/
theorem bandLoop_eq (rt : Runtime) (pm : paletteMap) (img : Paletted) (bounds : Rectangle)
    (fuel : Nat) :
    ∀ curY : Int, minInt ≤ curY → ((bounds.Max.Y - curY).toNat + 5) / 6 ≤ fuel →
      curY + 6 * ((((bounds.Max.Y - curY).toNat + 5) / 6 : Nat) : Int) ≤ maxInt →
      bandLoop rt pm img bounds fuel curY
        = .ok (List.intercalate [45]
            ((List.range (((bounds.Max.Y - curY).toNat + 5) / 6)).map
              (fun (k : Nat) => bandSegment rt pm img bounds (curY + 6 * (k : Int))))) := by
  induction fuel with
  | zero =>
    intro curY _ h _
    have h0 : ¬ curY < bounds.Max.Y := by omega
    have hn : ((bounds.Max.Y - curY).toNat + 5) / 6 = 0 := by omega
    rw [bandLoop, hn]
    simp [h0, List.intercalate]
  | succ fuel ih =>
    intro curY hmin h hfit
    rw [bandLoop]
    by_cases hlt : curY < bounds.Max.Y
    · simp only [hlt, if_true]
      have hw : wrapInt (curY + 6) = curY + 6 :=
        wrapInt_of_isInt _ ⟨by unfold minInt at hmin ⊢; omega, by omega⟩
      have hcast : curY + ((bandHeight : Nat) : Int) = curY + 6 := by simp [bandHeight]
      rw [hcast, hw, ih (curY + 6) (by omega) (by omega) (by omega)]
      simp only
      have hn : ((bounds.Max.Y - curY).toNat + 5) / 6
          = ((bounds.Max.Y - (curY + 6)).toNat + 5) / 6 + 1 := by omega
      rw [hn, List.range_succ_eq_map, List.map_cons, List.map_map, encodeBand_eq, hw]
      have hf : ((fun (k : Nat) => bandSegment rt pm img bounds (curY + 6 * (k : Int))) ∘ Nat.succ)
          = (fun (k : Nat) => bandSegment rt pm img bounds (curY + 6 + 6 * (k : Int))) := by
        funext k
        simp only [Function.comp, Nat.succ_eq_add_one]
        congr 1
        push_cast
        ring
      rw [hf]
      simp only [Nat.cast_zero, mul_zero, add_zero]
      by_cases hnext : curY + 6 < bounds.Max.Y
      · have hpos : ((bounds.Max.Y - (curY + 6)).toNat + 5) / 6
            = ((bounds.Max.Y - (curY + 6)).toNat + 5) / 6 - 1 + 1 := by omega
        rw [hpos, List.range_succ_eq_map, List.map_cons, intercalate_cons_cons]
        simp [hnext]
      · have hz : ((bounds.Max.Y - (curY + 6)).toNat + 5) / 6 = 0 := by omega
        rw [hz]
        simp [hnext, intercalate_singleton, List.intercalate]
    · have hn : ((bounds.Max.Y - curY).toNat + 5) / 6 = 0 := by omega
      rw [hn]
      simp [hlt, List.intercalate]

/-- More fuel does not change what the band loop writes. -/
theorem bandLoop_mono (rt : Runtime) (pm : paletteMap) (img : Paletted) (bounds : Rectangle)
    (fuel : Nat) :
    ∀ (curY : Int) (body : Bytes), bandLoop rt pm img bounds fuel curY = .ok body →
      ∀ fuel2, fuel ≤ fuel2 → bandLoop rt pm img bounds fuel2 curY = .ok body := by
  induction fuel with
  | zero =>
    intro curY body h fuel2 _
    rw [bandLoop] at h
    by_cases hlt : curY < bounds.Max.Y
    · simp [hlt] at h
    · cases fuel2 <;> (rw [bandLoop]; simpa [hlt] using h)
  | succ fuel ih =>
    intro curY body h fuel2 hle
    obtain ⟨f, rfl⟩ : ∃ f, fuel2 = f + 1 := ⟨fuel2 - 1, by omega⟩
    rw [bandLoop] at h ⊢
    by_cases hlt : curY < bounds.Max.Y
    · simp only [hlt, if_true] at h ⊢
      cases hrec : bandLoop rt pm img bounds fuel (wrapInt (curY + bandHeight)) with
      | error e => rw [hrec] at h; simp at h
      | ok rest =>
        rw [hrec] at h
        rw [ih _ rest hrec f (by omega)]
        exact h
    · simpa [hlt] using h

/-- The band loop ends as soon as some number of rounds takes `curY` to a row
that is not below `Max.Y`, wrap-arounds included. -/
theorem bandLoop_reaches (rt : Runtime) (pm : paletteMap) (img : Paletted) (bounds : Rectangle)
    (k : Nat) :
    ∀ curY : Int, isInt curY → bounds.Max.Y ≤ wrapInt (curY + 6 * (k : Int)) →
      ∃ body, bandLoop rt pm img bounds k curY = .ok body := by
  induction k with
  | zero =>
    intro curY hc h
    rw [Nat.cast_zero, mul_zero, add_zero, wrapInt_of_isInt _ hc] at h
    refine ⟨[], ?_⟩
    rw [bandLoop]
    have : ¬ curY < bounds.Max.Y := by omega
    simp [this]
  | succ k ih =>
    intro curY hc h
    by_cases hlt : curY < bounds.Max.Y
    · have hcast : curY + ((bandHeight : Nat) : Int) = curY + 6 := by simp [bandHeight]
      obtain ⟨rest, hrest⟩ := ih (wrapInt (curY + 6)) (isInt_wrapInt _) (by
        rw [wrapInt_add_wrapInt]
        have : curY + 6 + 6 * (k : Int) = curY + 6 * ((k + 1 : Nat) : Int) := by
          push_cast; ring
        rw [this]
        exact h)
      refine ⟨encodeBand rt pm img bounds curY ++ rest, ?_⟩
      rw [bandLoop]
      simp only [hlt, if_true, hcast, hrest]
    · refine ⟨[], ?_⟩
      rw [bandLoop]
      simp [hlt]

/-- The band loop ends on all bounds but those of `bandLoopDiverges`. -/
theorem bandLoop_terminates (rt : Runtime) (pm : paletteMap) (img : Paletted)
    (bounds : Rectangle) (hwf : bounds.WellFormed) (h : ¬ bandLoopDiverges bounds) :
    ∃ n body, ∀ fuel, n ≤ fuel →
      bandLoop rt pm img bounds fuel bounds.Min.Y = .ok body := by
  have hr := hwf
  unfold Rectangle.WellFormed isInt minInt maxInt at hr
  unfold bandLoopDiverges maxInt at h
  have key : ∃ k : Nat, bounds.Max.Y ≤ wrapInt (bounds.Min.Y + 6 * (k : Int)) := by
    by_cases hrows : bounds.Min.Y < bounds.Max.Y
    · by_cases hpar : (bounds.Max.Y - bounds.Min.Y) % 2 = 0
      · obtain ⟨k, hk⟩ := exists_rounds bounds.Min.Y bounds.Max.Y hwf.2.2.2.1 hpar
        exact ⟨k, by rw [hk]⟩
      · obtain ⟨k, hk⟩ := exists_rounds bounds.Min.Y (bounds.Max.Y + 1)
          (by unfold isInt minInt maxInt; omega) (by omega)
        exact ⟨k, by rw [hk]; omega⟩
    · exact ⟨0, by
        rw [Nat.cast_zero, mul_zero, add_zero, wrapInt_of_isInt _ hwf.2.1]
        omega⟩
  obtain ⟨k, hk⟩ := key
  obtain ⟨body, hbody⟩ := bandLoop_reaches rt pm img bounds k bounds.Min.Y hwf.2.1 hk
  exact ⟨k, body, fun fuel hle => bandLoop_mono rt pm img bounds k _ body hbody fuel hle⟩

/-- On the bounds of `bandLoopDiverges` the band loop never ends: `curY` stays
even and below the odd `Max.Y = maxInt`. -/
theorem bandLoop_diverges (rt : Runtime) (pm : paletteMap) (img : Paletted)
    (bounds : Rectangle) (hmax : bounds.Max.Y = maxInt) (fuel : Nat) :
    ∀ curY : Int, isInt curY → curY % 2 = 0 →
      bandLoop rt pm img bounds fuel curY = .error .outOfFuel := by
  induction fuel with
  | zero =>
    intro curY hc heven
    have hlt : curY < bounds.Max.Y := by
      unfold isInt minInt maxInt at hc
      rw [hmax]
      unfold maxInt
      omega
    rw [bandLoop]
    simp [hlt]
  | succ fuel ih =>
    intro curY hc heven
    have hlt : curY < bounds.Max.Y := by
      unfold isInt minInt maxInt at hc
      rw [hmax]
      unfold maxInt
      omega
    have hcast : curY + ((bandHeight : Nat) : Int) = curY + 6 := by simp [bandHeight]
    rw [bandLoop]
    simp only [hlt, if_true, hcast,
      ih (wrapInt (curY + 6)) (isInt_wrapInt _) (wrapInt_even _ (by omega))]

theorem findUniqueColorsInBand_eq (img : Paletted) (bounds : Rectangle) (yStart : Int) :
    findUniqueColorsInBand img bounds yStart
      = ((intRange bounds.Min.X bounds.Max.X).flatMap (fun x =>
          (intRange yStart (min (wrapInt (yStart + 6)) bounds.Max.Y)).map
            (fun y => img.At x y))).foldl setInsert [] := by
  unfold findUniqueColorsInBand
  have hcast : yStart + ((bandHeight : Nat) : Int) = yStart + 6 := by simp [bandHeight]
  rw [hcast]
  exact nested_foldl_setInsert (fun x y => img.At x y) _ (fun _ => _) []

theorem findUniqueColorsInBand_nodup (img : Paletted) (bounds : Rectangle) (yStart : Int) :
    (findUniqueColorsInBand img bounds yStart).Nodup := by
  rw [findUniqueColorsInBand_eq]
  exact foldl_setInsert_nodup _ _ List.nodup_nil

/-- The colours found in a band are the colours of the pixels that the two
loops of `findUniqueColorsInBand` visit. -/
theorem mem_findUniqueColorsInBand (img : Paletted) (bounds : Rectangle) (yStart : Int)
    (c : Option Color) :
    c ∈ findUniqueColorsInBand img bounds yStart ↔
      ∃ x y, bounds.Min.X ≤ x ∧ x < bounds.Max.X ∧ yStart ≤ y ∧ y < wrapInt (yStart + 6) ∧
        y < bounds.Max.Y ∧ img.At x y = c := by
  rw [findUniqueColorsInBand_eq, mem_foldl_setInsert]
  simp only [List.not_mem_nil, false_or, List.mem_flatMap, List.mem_map, mem_intRange]
  constructor
  · rintro ⟨x, hx, y, hy, rfl⟩
    exact ⟨x, y, hx.1, hx.2, hy.1, by omega, by omega, rfl⟩
  · rintro ⟨x, y, h1, h2, h3, h4, h5, rfl⟩
    exact ⟨x, ⟨h1, h2⟩, y, ⟨h3, by omega⟩, rfl⟩

/-- A row that `findUniqueColorsInBand` visits is one of the six rows from
`yStart` on, whether or not `yStart+bandHeight` wraps around. -/
theorem wrapInt_band_row (yStart y : Int) (hs : isInt yStart)
    (h2 : y < wrapInt (yStart + 6)) : y < yStart + 6 := by
  unfold isInt minInt maxInt at hs
  unfold wrapInt at h2
  omega

/-- When `yStart+bandHeight` does not wrap around, the colours found in a band
are exactly the colours of the pixels of its rows. -/
theorem mem_findUniqueColorsInBand_of_fit (img : Paletted) (bounds : Rectangle)
    (yStart : Int) (hs : isInt yStart) (hfit : yStart + 6 ≤ maxInt) (c : Option Color) :
    c ∈ findUniqueColorsInBand img bounds yStart ↔
      ∃ x y, bounds.Min.X ≤ x ∧ x < bounds.Max.X ∧ yStart ≤ y ∧ y < yStart + 6 ∧
        y < bounds.Max.Y ∧ img.At x y = c := by
  rw [mem_findUniqueColorsInBand,
    wrapInt_of_isInt (yStart + 6) ⟨by unfold isInt minInt at *; omega, hfit⟩]

/-- When `yStart+bandHeight` wraps around, `findUniqueColorsInBand` finds no
colour at all. -/
theorem findUniqueColorsInBand_of_wrap (img : Paletted) (bounds : Rectangle)
    (yStart : Int) (hs : isInt yStart) (hwrap : maxInt < yStart + 6) :
    findUniqueColorsInBand img bounds yStart = [] := by
  apply List.eq_nil_iff_forall_not_mem.mpr
  intro c hc
  obtain ⟨x, y, _, _, h3, h4, _, _⟩ := (mem_findUniqueColorsInBand img bounds yStart c).mp hc
  unfold isInt minInt maxInt at hs
  unfold maxInt at hwrap
  unfold wrapInt at h4
  omega

/-! ### The palette map -/

theorem createPaletteMap_ok (palette : List Color) (h : palette.length ≤ 256) :
    createPaletteMap palette = .ok (createPaletteMapLoop palette 0 []) := by
  unfold createPaletteMap paletteSize
  have : ¬ palette.length > 256 := by omega
  simp only [this, if_false]

theorem find_insert_same (pm : paletteMap) (c : Color) (v : Nat) :
    (paletteMap.insert pm c v).find? (fun e => e.1 = c) = some (c, v) := by
  unfold paletteMap.insert
  split
  · rename_i hany
    induction pm with
    | nil => simp at hany
    | cons e pm ih =>
      by_cases he : e.1 = c
      · simp [List.find?, he]
      · have : pm.any (fun e => decide (e.1 = c)) = true := by
          simpa [he] using hany
        simp only [List.map_cons, he, if_false, List.find?, decide_False]
        exact ih this
  · rename_i hany
    have hnone : pm.find? (fun e => decide (e.1 = c)) = none := by
      rw [List.find?_eq_none]
      intro e he hc
      apply hany
      rw [List.any_eq_true]
      exact ⟨e, he, hc⟩
    rw [List.find?_append, hnone]
    simp

theorem find_map_replace (pm : paletteMap) (c d : Color) (v : Nat) (h : d ≠ c) :
    (pm.map (fun e => if e.1 = c then (c, v) else e)).find? (fun e => decide (e.1 = d))
      = pm.find? (fun e => decide (e.1 = d)) := by
  induction pm with
  | nil => rfl
  | cons e pm ih =>
    rw [List.map_cons, List.find?_cons, List.find?_cons, ih]
    by_cases he : e.1 = c
    · have hed : ¬ e.1 = d := by rw [he]; exact Ne.symm h
      simp [he, hed, Ne.symm h]
    · simp [he]

theorem find_insert_other (pm : paletteMap) (c d : Color) (v : Nat) (h : d ≠ c) :
    (paletteMap.insert pm c v).find? (fun e => e.1 = d) = pm.find? (fun e => e.1 = d) := by
  unfold paletteMap.insert
  split
  · exact find_map_replace pm c d v h
  · rw [List.find?_append]
    have : ([(c, v)] : paletteMap).find? (fun e => decide (e.1 = d)) = none := by
      simp [List.find?, Ne.symm h]
    rw [this]
    simp

theorem lookup_insert (pm : paletteMap) (c d : Color) (v : Nat) :
    paletteMap.lookup (paletteMap.insert pm c v) (some d)
      = if d = c then v else paletteMap.lookup pm (some d) := by
  simp only [paletteMap.lookup]
  by_cases hdc : d = c
  · subst hdc
    rw [find_insert_same]
    simp
  · rw [find_insert_other pm c d v hdc]
    simp [hdc]

/-- After the loop of `createPaletteMap` a colour is mapped to the `uint8` of the
last position that holds it; colours that do not occur keep their entry. -/
theorem lookup_createPaletteMapLoop (rest : List Color) (d : Color) :
    ∀ (idx : Nat) (pm : paletteMap),
      (d ∉ rest → paletteMap.lookup (createPaletteMapLoop rest idx pm) (some d)
        = paletteMap.lookup pm (some d)) ∧
      (∀ j, rest[j]? = some d → (∀ k, j < k → rest[k]? ≠ some d) →
        paletteMap.lookup (createPaletteMapLoop rest idx pm) (some d) = (idx + j) % 256) := by
  induction rest with
  | nil =>
    intro idx pm
    exact ⟨fun _ => rfl, fun j hj => by simp at hj⟩
  | cons c rest ih =>
    intro idx pm
    rw [createPaletteMapLoop]
    obtain ⟨ih1, ih2⟩ := ih (idx + 1) (paletteMap.insert pm c (idx % 256))
    constructor
    · intro hd
      simp only [List.mem_cons, not_or] at hd
      rw [ih1 hd.2, lookup_insert]
      simp [hd.1]
    · intro j hj hlast
      cases j with
      | zero =>
        simp only [List.getElem?_cons_zero, Option.some.injEq] at hj
        subst hj
        have hnot : c ∉ rest := by
          intro hmem
          obtain ⟨k, hk, hkc⟩ := List.mem_iff_getElem.mp hmem
          exact hlast (k + 1) (by omega) (by rw [List.getElem?_cons_succ, List.getElem?_eq_getElem hk, hkc])
        rw [ih1 hnot, lookup_insert]
        simp
      | succ j =>
        simp only [List.getElem?_cons_succ] at hj
        rw [ih2 j hj (fun k hk => by have := hlast (k + 1) (by omega); simpa using this)]
        congr 1
        omega

/-- C9, as stated, fails for a palette that repeats a colour: in the palette
`[black, black]` the colour at position 0 is mapped to index 1. -/
theorem createPaletteMap_lookup_counterexample :
    [Color.colorRGBA 0 0 0 255, Color.colorRGBA 0 0 0 255].length ≤ 256 ∧
    ∃ pm, createPaletteMap [Color.colorRGBA 0 0 0 255, Color.colorRGBA 0 0 0 255] = .ok pm ∧
      paletteMap.lookup pm ([Color.colorRGBA 0 0 0 255, Color.colorRGBA 0 0 0 255][0]?) = 1 ∧
      paletteMap.lookup pm ([Color.colorRGBA 0 0 0 255, Color.colorRGBA 0 0 0 255][0]?) ≠ 0 :=
  ⟨by decide, _, rfl, by decide, by decide⟩

/-- C9 (amended). For every palette of length at most 256 and every position
`i` below its length, `createPaletteMap` succeeds and its lookup maps the colour
`palette[i]` to the last position `j ≥ i` that holds this colour; this is `i`
itself whenever the colour does not occur again after position `i`, in
particular when the colours of the palette are pairwise distinct. -/
theorem createPaletteMap_lookup (palette : List Color) (i : Nat)
    (hlen : palette.length ≤ 256) (hi : i < palette.length) :
    ∃ pm j, createPaletteMap palette = .ok pm ∧ i ≤ j ∧ j < palette.length ∧
      palette[j]? = palette[i]? ∧ (∀ k, j < k → palette[k]? ≠ palette[i]?) ∧
      paletteMap.lookup pm palette[i]? = j ∧
      ((∀ k, i < k → palette[k]? ≠ palette[i]?) → paletteMap.lookup pm palette[i]? = i) ∧
      (palette.Nodup → paletteMap.lookup pm palette[i]? = i) := by
  have hget : palette[i]? = some palette[i] := List.getElem?_eq_getElem hi
  have hP : palette[i]? = palette[i]? := rfl
  have hle : i ≤ palette.length - 1 := by omega
  obtain ⟨j, hjdef⟩ : ∃ j, j = Nat.findGreatest (fun k => palette[k]? = palette[i]?)
      (palette.length - 1) := ⟨_, rfl⟩
  have hspec : palette[j]? = palette[i]? := by
    rw [hjdef]
    exact Nat.findGreatest_spec (P := fun k => palette[k]? = palette[i]?) hle hP
  have hge : i ≤ j := by
    rw [hjdef]
    exact Nat.le_findGreatest (P := fun k => palette[k]? = palette[i]?) hle hP
  have hmax : j ≤ palette.length - 1 := by
    rw [hjdef]
    exact Nat.findGreatest_le (P := fun k => palette[k]? = palette[i]?) (palette.length - 1)
  have hlast : ∀ k, j < k → palette[k]? ≠ palette[i]? := by
    intro k hk
    by_cases hkl : k ≤ palette.length - 1
    · rw [hjdef] at hk
      exact Nat.findGreatest_is_greatest hk hkl
    · rw [hget, List.getElem?_eq_none (by omega)]
      simp
  clear hjdef
  have hval : paletteMap.lookup (createPaletteMapLoop palette 0 []) palette[i]? = j := by
    rw [hget] at hspec hlast ⊢
    rw [(lookup_createPaletteMapLoop palette palette[i] 0 []).2 j hspec hlast]
    omega
  have hfirst : (∀ k, i < k → palette[k]? ≠ palette[i]?) →
      paletteMap.lookup (createPaletteMapLoop palette 0 []) palette[i]? = i := by
    intro hno
    rw [hval]
    by_contra hne
    exact hno _ (by omega) hspec
  refine ⟨createPaletteMapLoop palette 0 [], j, createPaletteMap_ok palette hlen, hge, by omega,
    hspec, hlast, hval, hfirst, ?_⟩
  intro hnd
  apply hfirst
  intro k hk heq
  rw [hget] at heq
  have hkl : k < palette.length := by
    by_contra hkl
    rw [List.getElem?_eq_none (by omega)] at heq
    simp at heq
  rw [List.getElem?_eq_getElem hkl] at heq
  simp only [Option.some.injEq] at heq
  have := (List.Nodup.getElem_inj_iff hnd).mp heq
  omega

/-- Witness for C9 (amended): position 1 of a three-colour palette. -/
theorem createPaletteMap_lookup_witness :
    [Color.colorRGBA 255 0 0 255, Color.colorRGBA 0 255 0 255, Color.colorRGBA 255 0 0 255].length
      ≤ 256 ∧
    ∃ pm j, createPaletteMap
        [Color.colorRGBA 255 0 0 255, Color.colorRGBA 0 255 0 255, Color.colorRGBA 255 0 0 255]
        = .ok pm ∧ 1 ≤ j ∧
      paletteMap.lookup pm (some (Color.colorRGBA 0 255 0 255)) = j :=
  ⟨by decide,
   (createPaletteMap_lookup
      [Color.colorRGBA 255 0 0 255, Color.colorRGBA 0 255 0 255, Color.colorRGBA 255 0 0 255] 1
      (by decide) (by decide)).imp
     (fun _ h => h.imp (fun _ h2 => ⟨h2.1, h2.2.1, h2.2.2.2.2.2.1⟩))⟩

/-- C10. The channel scaling of the palette definitions is
`scaled(c) = (c * 100) / 255` with truncating division on every 8-bit value; it
maps 255 to 100 and 0 to 0, is monotonic non-decreasing on 0..255, and so stays
within 0..100. -/
theorem scaleChannel_monotone (a b : Nat) (hab : a ≤ b) (hb : b ≤ 255) :
    scaleChannel 255 = 100 ∧ scaleChannel 0 = 0 ∧ scaleChannel b = b * 100 / 255 ∧
    scaleChannel a ≤ scaleChannel b ∧ scaleChannel b ≤ 100 := by
  have h1 : a * 100 % 2 ^ 32 = a * 100 := Nat.mod_eq_of_lt (by norm_num; omega)
  have h2 : b * 100 % 2 ^ 32 = b * 100 := Nat.mod_eq_of_lt (by norm_num; omega)
  refine ⟨by decide, by decide, ?_, ?_, ?_⟩
  · unfold scaleChannel; rw [h2]
  · unfold scaleChannel; rw [h1, h2]; omega
  · unfold scaleChannel; rw [h2]; omega

/-- Witness for C10: the channel values 127 and 128. -/
theorem scaleChannel_monotone_witness :
    127 ≤ 128 ∧ 128 ≤ 255 ∧ scaleChannel 127 ≤ scaleChannel 128 ∧ scaleChannel 128 ≤ 100 :=
  ⟨by decide, by decide, (scaleChannel_monotone 127 128 (by decide) (by decide)).2.2.2.1,
    (scaleChannel_monotone 127 128 (by decide) (by decide)).2.2.2.2⟩

/-! ### `Encode` as a whole -/

theorem samplePaletted_wellFormed : InputImage.WellFormed (.paletted samplePaletted) := by
  refine ⟨by decide, by decide, ?_⟩
  intro x y _
  simp only [samplePaletted]
  split
  · exact ⟨by decide, by decide⟩
  · split <;> exact ⟨by decide, by decide⟩

/-- Re-quantization succeeds on bounds that `image.NewPaletted` accepts and
yields a well-formed paletted image over the same bounds with at most 256
colours. -/
theorem quantizeAndDither_ok (rt : Runtime) (g : Image)
    (hdim : 0 ≤ g.Bounds.Dx ∧ 0 ≤ g.Bounds.Dy ∧ g.Bounds.Dx * g.Bounds.Dy ≤ maxInt) :
    ∃ p, quantizeAndDither rt g = .ok p ∧ p.Rect = g.Bounds ∧ p.Palette.length ≤ 256 ∧
      p.WellFormed := by
  obtain ⟨palette, hq, hlen, hne⟩ :=
    quantize.Quantize_ok rt.toRuntime 256 g (by norm_num)
  refine ⟨⟨g.Bounds, palette, rt.floydSteinberg palette g⟩, ?_, rfl, hlen, ?_⟩
  · unfold quantizeAndDither paletteSize
    have : ¬ (g.Bounds.Dx < 0 ∨ g.Bounds.Dy < 0 ∨ maxInt < g.Bounds.Dx * g.Bounds.Dy) := by
      rintro (h | h | h)
      · omega
      · omega
      · exact absurd hdim.2.2 (not_le.mpr h)
    simp only [this, if_false, hq]
  · intro x y hc
    have hpos : 1 ≤ palette.length := hne ⟨x, y, hc⟩
    have hnil : palette ≠ [] := by
      intro h0; rw [h0] at hpos; simp at hpos
    have := rt.floydSteinberg_lt palette g x y hnil
    exact ⟨by simp only; omega, this⟩

theorem toPaletted_ok (rt : Runtime) (img : InputImage) (hwf : img.WellFormed) :
    ∃ p, toPaletted rt img = .ok p ∧ p.Rect = img.Bounds ∧ p.Palette.length ≤ 256 ∧
      p.WellFormed := by
  obtain ⟨hrect, hcount, hp⟩ := hwf
  obtain ⟨_, _, hdx, hdy⟩ := Rectangle.Dx_Dy_of_wellFormed _ hrect
  cases img with
  | paletted q =>
    by_cases hlen : q.Palette.length > paletteSize
    · obtain ⟨p, h1, h2, h3, h4⟩ := quantizeAndDither_ok rt q.toImage ⟨hdx, hdy, hcount⟩
      exact ⟨p, by simp only [toPaletted, hlen, if_true, h1], h2, h3, h4⟩
    · refine ⟨q, by simp only [toPaletted, hlen, if_false], rfl, ?_, hp⟩
      unfold paletteSize at hlen
      omega
  | other g =>
    obtain ⟨p, h1, h2, h3, h4⟩ := quantizeAndDither_ok rt g ⟨hdx, hdy, hcount⟩
    exact ⟨p, by simp only [toPaletted, h1], h2, h3, h4⟩

theorem fmtInt_nonneg (i : Int) (h : 0 ≤ i) : fmtInt i = fmtNat i.toNat := by
  unfold fmtInt
  have : ¬ i < 0 := by omega
  simp only [this, if_false]
  congr 1
  omega

/-- What `Encode` writes around the body of the band loop. -/
theorem Encode_of_bandLoop (rt : Runtime) (img : InputImage) (hwf : img.WellFormed)
    (p : Paletted) (pm : paletteMap) (fuel : Nat) (hp : toPaletted rt img = .ok p)
    (hpm : createPaletteMap p.Palette = .ok pm) :
    (∀ body, bandLoop rt pm p img.Bounds fuel img.Bounds.Min.Y = .ok body →
      Encode rt fuel img = .ok ([27, 80, 113] ++ bytes "\"1;1;" ++ fmtNat img.Bounds.Dx.toNat
        ++ bytes ";" ++ fmtNat img.Bounds.Dy.toNat ++ paletteMap.String rt pm
        ++ body ++ [27, 92])) ∧
    (∀ e, bandLoop rt pm p img.Bounds fuel img.Bounds.Min.Y = .error e →
      Encode rt fuel img = .error e) := by
  obtain ⟨_, _, hdx, hdy⟩ := Rectangle.Dx_Dy_of_wellFormed _ hwf.1
  constructor
  · intro body hband
    unfold Encode
    simp only [hp, hpm, hband, fmtInt_nonneg _ hdx, fmtInt_nonneg _ hdy, header, endOfHeader,
      terminator]
    simp
  · intro e hband
    unfold Encode
    simp only [hp, hpm, hband]

/-- More fuel does not change what `Encode` writes. -/
theorem Encode_mono (rt : Runtime) (fuel fuel2 : Nat) (img : InputImage) (r : Bytes)
    (h : Encode rt fuel img = .ok r) (hle : fuel ≤ fuel2) : Encode rt fuel2 img = .ok r := by
  unfold Encode at h ⊢
  cases hp : toPaletted rt img with
  | error e => rw [hp] at h; simp at h
  | ok p =>
    rw [hp] at h
    simp only at h ⊢
    cases hpm : createPaletteMap p.Palette with
    | error e => rw [hpm] at h; simp at h
    | ok pm =>
      rw [hpm] at h
      simp only at h ⊢
      cases hb : bandLoop rt pm p img.Bounds fuel img.Bounds.Min.Y with
      | error e => rw [hb] at h; simp at h
      | ok body =>
        rw [hb] at h
        rw [bandLoop_mono rt pm p img.Bounds fuel _ body hb fuel2 hle]
        exact h

/-- The bytes that `Encode` writes for a well-formed image whose bands fit the
type `int`: `ceil(H/6)` rounds of the band loop suffice. -/
theorem Encode_eq (rt : Runtime) (img : InputImage) (hwf : img.WellFormed)
    (hfit : bandsFit img.Bounds) :
    ∃ p pm, toPaletted rt img = .ok p ∧ p.Rect = img.Bounds ∧ p.WellFormed ∧
      createPaletteMap p.Palette = .ok pm ∧
      ∀ fuel, (img.Bounds.Dy.toNat + 5) / 6 ≤ fuel →
        Encode rt fuel img = .ok ([27, 80, 113] ++ bytes "\"1;1;" ++ fmtNat img.Bounds.Dx.toNat
          ++ bytes ";" ++ fmtNat img.Bounds.Dy.toNat ++ paletteMap.String rt pm
          ++ List.intercalate [45] ((List.range ((img.Bounds.Dy.toNat + 5) / 6)).map
              (fun (k : Nat) =>
                bandSegment rt pm p img.Bounds (img.Bounds.Min.Y + 6 * (k : Int))))
          ++ [27, 92]) := by
  obtain ⟨p, hp, hrect, hlen, hpwf⟩ := toPaletted_ok rt img hwf
  refine ⟨p, _, hp, hrect, hpwf, createPaletteMap_ok p.Palette hlen, ?_⟩
  intro fuel hfuel
  obtain ⟨_, hdy, _, _⟩ := Rectangle.Dx_Dy_of_wellFormed _ hwf.1
  unfold bandsFit at hfit
  rw [hdy] at hfit hfuel
  have hband := bandLoop_eq rt (createPaletteMapLoop p.Palette 0 []) p img.Bounds
    fuel img.Bounds.Min.Y hwf.1.2.1.1 hfuel hfit
  rw [← hdy] at hband
  exact (Encode_of_bandLoop rt img hwf p _ fuel hp (createPaletteMap_ok p.Palette hlen)).1 _ hband

/-- On the bounds of `bandLoopDiverges` the function `Encode` never returns. -/
theorem Encode_diverges (rt : Runtime) (img : InputImage) (hwf : img.WellFormed)
    (h : bandLoopDiverges img.Bounds) (fuel : Nat) :
    Encode rt fuel img = .error .outOfFuel := by
  obtain ⟨p, hp, _, hlen, _⟩ := toPaletted_ok rt img hwf
  exact (Encode_of_bandLoop rt img hwf p _ fuel hp (createPaletteMap_ok p.Palette hlen)).2 _
    (bandLoop_diverges rt _ p img.Bounds h.2.1 fuel img.Bounds.Min.Y hwf.1.2.1 h.2.2)

theorem paletteMap_String_eq (rt : Runtime) (pm : paletteMap) :
    paletteMap.String rt pm = (rt.rangePaletteMap pm).flatMap (fun e => paletteEntry e.1 e.2) := by
  unfold paletteMap.String
  have : ∀ (l : List (Color × Nat)) (acc : Bytes),
      l.foldl (fun result e => result ++ paletteEntry e.1 e.2) acc
        = acc ++ l.flatMap (fun e => paletteEntry e.1 e.2) := by
    intro l
    induction l with
    | nil => intro acc; simp
    | cons e l ih => intro acc; simp [ih]
  simpa using this (rt.rangePaletteMap pm) []

/-- Witness for C6: column 1 of the first band of the sample image and the
colour of palette index 1 (set in row 1 only, so the mask is 2). -/
theorem sixelPixel_mask_witness :
    (samplePaletted.Rect.Min.X ≤ 1 ∧ (1 : Int) < samplePaletted.Rect.Max.X) ∧
    samplePaletted.Rect.Min.Y ≤ 0 ∧
    ∃ m, sixelPixel samplePaletted samplePaletted.Rect (some (Color.colorRGBA 0 255 0 255)) 1 0
        = 63 + m ∧ m ≤ 63 ∧
      sixelPixel samplePaletted samplePaletted.Rect (some (Color.colorRGBA 0 255 0 255)) 1 0
        = 65 :=
  ⟨by decide, by decide,
   (sixelPixel_mask samplePaletted samplePaletted.Rect (some (Color.colorRGBA 0 255 0 255)) 1 0
      (by decide) (by decide)).imp (fun _ h => ⟨h.1, h.2.1, by decide⟩)⟩

/-- C7 (amended). For every well-formed image of width `W` and height `H`,
except on the bounds of `bandLoopDiverges` (`Max.Y = maxInt` with an even `Min.Y`
below it), `Encode` returns: from some number of rounds on, every `fuel` yields
the same byte stream, which is ESC `P`, then `q`, then the raster attributes
`"1;1;<W>;<H>` with `W` and `H` in decimal, then the palette definitions (one
`#<idx>;2;<r>;<g>;<b>` per entry of the palette map, in the order of the
runtime), then the body written by the band loop, then the two bytes ESC `\`.
On the excepted bounds `Encode` never returns: `curY += bandHeight` wraps around
and `curY` stays below `Max.Y` for ever. -/
theorem Encode_stream (rt : Runtime) (img : InputImage) (hwf : img.WellFormed) :
    (¬ bandLoopDiverges img.Bounds →
      ∃ n p pm body, toPaletted rt img = .ok p ∧ createPaletteMap p.Palette = .ok pm ∧
        ∀ fuel, n ≤ fuel →
          bandLoop rt pm p img.Bounds fuel img.Bounds.Min.Y = .ok body ∧
          Encode rt fuel img = .ok ([27, 80] ++ [113]
            ++ ([34, 49, 59, 49, 59] ++ fmtNat img.Bounds.Dx.toNat ++ [59]
                ++ fmtNat img.Bounds.Dy.toNat)
            ++ (rt.rangePaletteMap pm).flatMap (fun e => paletteEntry e.1 e.2)
            ++ body ++ [27, 92]) ∧
          (rt.rangePaletteMap pm).Perm pm) ∧
    (bandLoopDiverges img.Bounds → ∀ fuel, Encode rt fuel img = .error .outOfFuel) ∧
    img.Bounds.Dx = img.Bounds.Max.X - img.Bounds.Min.X ∧
    img.Bounds.Dy = img.Bounds.Max.Y - img.Bounds.Min.Y ∧
    (0 < img.Bounds.Dx → fmtNat img.Bounds.Dx.toNat = decimal img.Bounds.Dx.toNat) ∧
    (0 < img.Bounds.Dy → fmtNat img.Bounds.Dy.toNat = decimal img.Bounds.Dy.toNat) ∧
    fmtNat 0 = [48] := by
  obtain ⟨hdx, hdy, _, _⟩ := Rectangle.Dx_Dy_of_wellFormed _ hwf.1
  refine ⟨?_, fun h fuel => Encode_diverges rt img hwf h fuel, hdx, hdy,
    fun h => fmtNat_eq_decimal _ (by omega), fun h => fmtNat_eq_decimal _ (by omega), by decide⟩
  intro hends
  obtain ⟨p, hp, _, hlen, _⟩ := toPaletted_ok rt img hwf
  have hpm := createPaletteMap_ok p.Palette hlen
  obtain ⟨n, body, hbody⟩ := bandLoop_terminates rt (createPaletteMapLoop p.Palette 0 []) p
    img.Bounds hwf.1 hends
  refine ⟨n, p, _, body, hp, hpm, fun fuel hle => ⟨hbody fuel hle, ?_, rt.rangePaletteMap_perm _⟩⟩
  rw [(Encode_of_bandLoop rt img hwf p _ fuel hp hpm).1 body (hbody fuel hle),
    paletteMap_String_eq]
  have hb1 : bytes "\"1;1;" = [34, 49, 59, 49, 59] := by decide
  have hb2 : bytes ";" = [59] := by decide
  rw [hb1, hb2]
  simp

set_option maxRecDepth 100000 in
/-- Witness for C7 (amended): the sample image; after two rounds of the band
loop its whole stream is
`ESC P q "1;1;4;7 #0;2;100;0;0 #1;2;0;100;0 #2;2;0;0;50 #1@ACG $ #0}|zv - #2!4@ ESC \`
(blanks added for reading). -/
theorem Encode_stream_witness :
    InputImage.WellFormed (.paletted samplePaletted) ∧
    ¬ bandLoopDiverges (InputImage.paletted samplePaletted).Bounds ∧
    (∃ n p pm body, toPaletted Runtime.insertionOrder (.paletted samplePaletted) = .ok p ∧
      createPaletteMap p.Palette = .ok pm ∧
      ∀ fuel, n ≤ fuel →
        Encode Runtime.insertionOrder fuel (.paletted samplePaletted) = .ok ([27, 80] ++ [113]
          ++ ([34, 49, 59, 49, 59] ++ fmtNat 4 ++ [59] ++ fmtNat 7)
          ++ (Runtime.insertionOrder.rangePaletteMap pm).flatMap (fun e => paletteEntry e.1 e.2)
          ++ body ++ [27, 92])) ∧
    Encode Runtime.insertionOrder 2 (.paletted samplePaletted)
      = .ok ([27] ++ bytes "Pq\"1;1;4;7#0;2;100;0;0#1;2;0;100;0#2;2;0;0;50#1@ACG$#0\x7d|zv-#2!4@"
          ++ [27, 92]) :=
  ⟨samplePaletted_wellFormed, by decide,
   ((Encode_stream Runtime.insertionOrder (.paletted samplePaletted)
      samplePaletted_wellFormed).1 (by decide)).imp
     (fun _ h => h.imp (fun _ h2 => h2.imp (fun _ h3 => h3.imp
       (fun _ h4 => ⟨h4.1, h4.2.1, fun fuel hle => (h4.2.2 fuel hle).2.1⟩)))),
   by decide⟩

theorem topRowsPaletted_wellFormed : InputImage.WellFormed (.paletted topRowsPaletted) := by
  refine ⟨by decide, by decide, ?_⟩
  intro x y _
  simp only [topRowsPaletted]
  exact ⟨by decide, by decide⟩

/-- C7, as stated, fails for an image whose rows end at `maxInt`. The image
`topRowsPaletted` (one column, rows `maxInt - 3` to `maxInt - 1`) is well-formed,
yet `Encode` never returns on it, whatever the runtime: after the first band
`curY += bandHeight` wraps around to `minInt + 2`, and from then on `curY` is an
even number below the odd `Max.Y = maxInt`. No terminator is ever written. -/
theorem Encode_stream_counterexample :
    InputImage.WellFormed (.paletted topRowsPaletted) ∧
    (InputImage.paletted topRowsPaletted).Bounds.Dx = 1 ∧
    (InputImage.paletted topRowsPaletted).Bounds.Dy = 3 ∧
    wrapInt ((InputImage.paletted topRowsPaletted).Bounds.Min.Y + 6) = minInt + 2 ∧
    ∀ (rt : Runtime) (fuel : Nat),
      Encode rt fuel (.paletted topRowsPaletted) = .error .outOfFuel :=
  ⟨topRowsPaletted_wellFormed, by decide, by decide, by decide,
   fun rt fuel => Encode_diverges rt (.paletted topRowsPaletted) topRowsPaletted_wellFormed
     (by decide) fuel⟩

/-- C8 (amended). For every well-formed image with width `> 0` and height
`H > 0` whose bands fit the type `int` (`Min.Y + 6 * ceil(H/6) ≤ maxInt`),
`Encode` returns after `ceil(H/6)` rounds of the band loop, and the body that it
writes between the palette definitions and the terminator consists of
`ceil(H/6)` band segments, for the band tops `Min.Y, Min.Y + 6, ...` from top to
bottom, joined by `-` with none after the final band; each band segment consists
of one entry `#<palette index><run-length-encoded mask line>` per colour of the
band, joined by `$` with none after the last one; and the colours of a band are,
without repetition, exactly the colours of the pixels of its rows (at least
one). -/
theorem Encode_body (rt : Runtime) (img : InputImage) (hwf : img.WellFormed)
    (hfit : bandsFit img.Bounds) (hW : 0 < img.Bounds.Dx) (hH : 0 < img.Bounds.Dy) :
    ∃ p pm, toPaletted rt img = .ok p ∧ createPaletteMap p.Palette = .ok pm ∧
      (∀ fuel, (img.Bounds.Dy.toNat + 5) / 6 ≤ fuel →
        Encode rt fuel img = .ok ([27, 80, 113] ++ bytes "\"1;1;" ++ fmtNat img.Bounds.Dx.toNat
          ++ bytes ";" ++ fmtNat img.Bounds.Dy.toNat ++ paletteMap.String rt pm
          ++ List.intercalate [45] ((List.range ((img.Bounds.Dy.toNat + 5) / 6)).map
              (fun (k : Nat) => List.intercalate [36]
                ((rt.rangeBandColors (img.Bounds.Min.Y + 6 * (k : Int))
                    (findUniqueColorsInBand p img.Bounds (img.Bounds.Min.Y + 6 * (k : Int)))).map
                  (fun c => 35 :: (fmtNat (paletteMap.lookup pm c)
                    ++ rleEncode (maskLine p img.Bounds c (img.Bounds.Min.Y + 6 * (k : Int))))))))
          ++ [27, 92])) ∧
      (img.Bounds.Dy.toNat + 5) / 6 * 6 < img.Bounds.Dy.toNat + 6 ∧
      img.Bounds.Dy.toNat ≤ (img.Bounds.Dy.toNat + 5) / 6 * 6 ∧
      ∀ k : Nat, k < (img.Bounds.Dy.toNat + 5) / 6 →
        (rt.rangeBandColors (img.Bounds.Min.Y + 6 * (k : Int))
          (findUniqueColorsInBand p img.Bounds (img.Bounds.Min.Y + 6 * (k : Int)))).Nodup ∧
        (rt.rangeBandColors (img.Bounds.Min.Y + 6 * (k : Int))
          (findUniqueColorsInBand p img.Bounds (img.Bounds.Min.Y + 6 * (k : Int)))) ≠ [] ∧
        ∀ c, c ∈ rt.rangeBandColors (img.Bounds.Min.Y + 6 * (k : Int))
            (findUniqueColorsInBand p img.Bounds (img.Bounds.Min.Y + 6 * (k : Int))) ↔
          ∃ x y, img.Bounds.contains x y ∧ img.Bounds.Min.Y + 6 * (k : Int) ≤ y ∧
            y < img.Bounds.Min.Y + 6 * (k : Int) + 6 ∧ p.At x y = c := by
  obtain ⟨p, pm, hp, _, _, hpm, henc⟩ := Encode_eq rt img hwf hfit
  obtain ⟨hdx, hdy, _, _⟩ := Rectangle.Dx_Dy_of_wellFormed _ hwf.1
  have hmin : minInt ≤ img.Bounds.Min.Y := hwf.1.2.1.1
  refine ⟨p, pm, hp, hpm, henc, by omega, by omega, ?_⟩
  intro k hk
  have htop : img.Bounds.Min.Y + 6 * (k : Int) + 6 ≤ maxInt := by
    unfold bandsFit at hfit
    omega
  have hmem : ∀ c, c ∈ rt.rangeBandColors (img.Bounds.Min.Y + 6 * (k : Int))
      (findUniqueColorsInBand p img.Bounds (img.Bounds.Min.Y + 6 * (k : Int))) ↔
        ∃ x y, img.Bounds.contains x y ∧ img.Bounds.Min.Y + 6 * (k : Int) ≤ y ∧
          y < img.Bounds.Min.Y + 6 * (k : Int) + 6 ∧ p.At x y = c := by
    intro c
    rw [(rt.rangeBandColors_perm _ _).mem_iff,
      mem_findUniqueColorsInBand_of_fit p img.Bounds _ ⟨by omega, by omega⟩ htop]
    unfold Rectangle.contains
    constructor
    · rintro ⟨x, y, h1, h2, h3, h4, h5, h6⟩
      exact ⟨x, y, ⟨h1, h2, by omega, h5⟩, h3, h4, h6⟩
    · rintro ⟨x, y, ⟨h1, h2, _, h5⟩, h3, h4, h6⟩
      exact ⟨x, y, h1, h2, h3, h4, h5, h6⟩
  refine ⟨(rt.rangeBandColors_perm _ _).nodup_iff.mpr (findUniqueColorsInBand_nodup _ _ _),
    ?_, hmem⟩
  have hcol : img.Bounds.Min.X < img.Bounds.Max.X := by omega
  have hrow : img.Bounds.Min.Y + 6 * (k : Int) < img.Bounds.Max.Y := by omega
  have hin : p.At img.Bounds.Min.X (img.Bounds.Min.Y + 6 * (k : Int)) ∈
      rt.rangeBandColors (img.Bounds.Min.Y + 6 * (k : Int))
        (findUniqueColorsInBand p img.Bounds (img.Bounds.Min.Y + 6 * (k : Int))) := by
    rw [hmem]
    exact ⟨img.Bounds.Min.X, img.Bounds.Min.Y + 6 * (k : Int),
      ⟨Int.le_refl _, hcol, by omega, hrow⟩, Int.le_refl _, by omega, rfl⟩
  intro h0
  rw [h0] at hin
  simp at hin

/-- Witness for C8 (amended): the sample image has two bands, the first with
two colours and the second with one. -/
theorem Encode_body_witness :
    InputImage.WellFormed (.paletted samplePaletted) ∧
    bandsFit (InputImage.paletted samplePaletted).Bounds ∧
    0 < (InputImage.paletted samplePaletted).Bounds.Dx ∧
    0 < (InputImage.paletted samplePaletted).Bounds.Dy ∧
    ∃ p pm, toPaletted Runtime.insertionOrder (.paletted samplePaletted) = .ok p ∧
      createPaletteMap p.Palette = .ok pm ∧
      ((InputImage.paletted samplePaletted).Bounds.Dy.toNat + 5) / 6 = 2 :=
  ⟨samplePaletted_wellFormed, by decide, by decide, by decide,
   (Encode_body Runtime.insertionOrder (.paletted samplePaletted) samplePaletted_wellFormed
      (by decide) (by decide) (by decide)).imp
     (fun _ h => h.imp (fun _ h2 => ⟨h2.1, h2.2.1, by decide⟩))⟩

/-- C8, as stated, fails for an image whose last band reaches beyond `maxInt`.
On `topRowsPaletted` (width 1, height 3, rows `maxInt - 3` to `maxInt - 1`) the
sum `yStart+bandHeight` wraps around, so `findUniqueColorsInBand` finds no colour
in the only band although its three pixels are black; the round of that band
writes no colour entry but the separator `-`, and the band loop never ends. -/
theorem Encode_body_counterexample :
    InputImage.WellFormed (.paletted topRowsPaletted) ∧
    0 < (InputImage.paletted topRowsPaletted).Bounds.Dx ∧
    0 < (InputImage.paletted topRowsPaletted).Bounds.Dy ∧
    ((InputImage.paletted topRowsPaletted).Bounds.Dy.toNat + 5) / 6 = 1 ∧
    ¬ bandsFit (InputImage.paletted topRowsPaletted).Bounds ∧
    topRowsPaletted.At 0 topRowsPaletted.Rect.Min.Y = some (Color.colorRGBA 0 0 0 255) ∧
    findUniqueColorsInBand topRowsPaletted topRowsPaletted.Rect topRowsPaletted.Rect.Min.Y
      = [] ∧
    (∀ (rt : Runtime) (pm : paletteMap),
      encodeBand rt pm topRowsPaletted topRowsPaletted.Rect topRowsPaletted.Rect.Min.Y
        = [45]) ∧
    ∀ (rt : Runtime) (fuel : Nat),
      Encode rt fuel (.paletted topRowsPaletted) = .error .outOfFuel := by
  have hcs : findUniqueColorsInBand topRowsPaletted topRowsPaletted.Rect
      topRowsPaletted.Rect.Min.Y = [] :=
    findUniqueColorsInBand_of_wrap _ _ _ (by decide) (by decide)
  refine ⟨topRowsPaletted_wellFormed, by decide, by decide, by decide, by decide, by decide,
    hcs, ?_, fun rt fuel => Encode_diverges rt (.paletted topRowsPaletted)
      topRowsPaletted_wellFormed (by decide) fuel⟩
  intro rt pm
  rw [encodeBand_eq]
  unfold bandSegment
  rw [hcs, List.Perm.eq_nil (rt.rangeBandColors_perm _ [])]
  have hif : wrapInt (topRowsPaletted.Rect.Min.Y + 6) < topRowsPaletted.Rect.Max.Y := by
    decide
  rw [if_pos hif]
  rfl

/-! ## Reuse of a palette-indexed image -/

/-- On a palette without repeated colour the loop of `createPaletteMap` appends
one entry per position, in order. -/
theorem createPaletteMapLoop_nodup (rest : List Color) :
    ∀ (idx : Nat) (pm : paletteMap), rest.Nodup → (∀ c ∈ rest, ∀ e ∈ pm, e.1 ≠ c) →
      idx + rest.length ≤ 256 →
      createPaletteMapLoop rest idx pm = pm ++ rest.zip (List.range' idx rest.length) := by
  induction rest with
  | nil => intro idx pm _ _ _; simp [createPaletteMapLoop]
  | cons c rest ih =>
    intro idx pm hnd hfresh hlen
    have hc : c ∉ rest := (List.nodup_cons.mp hnd).1
    have hrest : rest.Nodup := (List.nodup_cons.mp hnd).2
    have hany : ¬ (pm.any (fun e => decide (e.1 = c)) = true) := by
      rw [List.any_eq_true]
      rintro ⟨e, he, hec⟩
      exact hfresh c (by simp) e he (by simpa using hec)
    have hmod : idx % 256 = idx := Nat.mod_eq_of_lt (by simp at hlen; omega)
    rw [createPaletteMapLoop]
    have hins : paletteMap.insert pm c (idx % 256) = pm ++ [(c, idx)] := by
      unfold paletteMap.insert
      simp only [hany, hmod]
      rfl
    rw [hins, ih (idx + 1) (pm ++ [(c, idx)]) hrest ?_ (by simp at hlen ⊢; omega)]
    · simp [List.range'_succ]
    · intro d hd e he
      rcases List.mem_append.mp he with he | he
      · exact hfresh d (by simp [hd]) e he
      · simp at he
        subst he
        intro hcd
        exact hc (by rw [show c = d from hcd]; exact hd)

/-- On a palette without repeated colour every colour is mapped to its own
position. -/
theorem lookup_of_nodup (palette : List Color) (hnd : palette.Nodup)
    (hlen : palette.length ≤ 256) (i : Nat) (hi : i < palette.length) :
    paletteMap.lookup (createPaletteMapLoop palette 0 []) palette[i]? = i := by
  have hget : palette[i]? = some palette[i] := List.getElem?_eq_getElem hi
  rw [hget]
  rw [(lookup_createPaletteMapLoop palette palette[i] 0 []).2 i (by rw [hget]) ?_]
  · omega
  · intro k hk heq
    have hkl : k < palette.length := by
      by_contra hkl
      rw [List.getElem?_eq_none (by omega)] at heq
      simp at heq
    rw [List.getElem?_eq_getElem hkl] at heq
    simp only [Option.some.injEq] at heq
    have := (List.Nodup.getElem_inj_iff hnd).mp heq
    omega

/-- In a well-formed paletted image the colour of a pixel inside the bounds is
the palette entry at the stored index. -/
theorem At_of_wellFormed (p : Paletted) (hwf : p.WellFormed) (x y : Int)
    (hc : p.Rect.contains x y) : p.At x y = p.Palette[p.ColorIndexAt x y]? := by
  have h := (hwf x y hc).2
  unfold Paletted.At
  have h0 : ¬ p.Palette.length = 0 := by omega
  simp only [h0, if_false, hc, not_true_eq_false]

/-- The output for a paletted image with at most 256 colours depends on the
runtime only through the two map iteration orders of the encoder. -/
theorem Encode_paletted_congr (rt rt2 : Runtime) (p : Paletted) (fuel : Nat)
    (hlen : p.Palette.length ≤ 256)
    (h1 : rt2.rangePaletteMap = rt.rangePaletteMap)
    (h2 : rt2.rangeBandColors = rt.rangeBandColors) :
    Encode rt2 fuel (.paletted p) = Encode rt fuel (.paletted p) := by
  have hnot : ¬ p.Palette.length > paletteSize := by unfold paletteSize; omega
  have hband : ∀ pm fuel curY,
      bandLoop rt2 pm p p.Rect fuel curY = bandLoop rt pm p p.Rect fuel curY := by
    intro pm fuel
    induction fuel with
    | zero => intro curY; rw [bandLoop, bandLoop]
    | succ fuel ih =>
      intro curY
      rw [bandLoop, bandLoop, ih]
      unfold encodeBand
      rw [h2]
  unfold Encode
  simp only [toPaletted, hnot, if_false, paletteMap.String, h1]
  have hb : (InputImage.paletted p).Bounds = p.Rect := rfl
  rw [hb]
  cases hpm : createPaletteMap p.Palette with
  | error e => rfl
  | ok pm =>
    simp only
    rw [hband pm fuel p.Rect.Min.Y]

theorem repeatedColorPaletted_wellFormed :
    InputImage.WellFormed (.paletted repeatedColorPaletted) := by
  refine ⟨by decide, by decide, ?_⟩
  intro x y _
  simp only [repeatedColorPaletted]
  exact ⟨by decide, by decide⟩

/-- C11, as stated, fails for a palette that repeats a colour. The one-pixel
image `repeatedColorPaletted` has the palette `[black, black]` and stores index
0; whatever the runtime does, `Encode` defines only palette entry 1 and emits
colour index 1 (`ESC P q "1;1;1;1 #1;2;0;0;0 #1@ ESC \`, blanks added for
reading), so neither the palette nor the index of the output is the image's
own. It also fails for an image whose last band reaches beyond `maxInt`: on
`topRowsPaletted`, whose palette has one colour, `Encode` never returns. -/
theorem Encode_paletted_reuse_counterexample :
    repeatedColorPaletted.Palette.length ≤ 256 ∧
    InputImage.WellFormed (.paletted repeatedColorPaletted) ∧
    repeatedColorPaletted.Palette.length = 2 ∧
    repeatedColorPaletted.ColorIndexAt 0 0 = 0 ∧
    createPaletteMap repeatedColorPaletted.Palette = .ok [(Color.colorRGBA 0 0 0 255, 1)] ∧
    paletteMap.lookup [(Color.colorRGBA 0 0 0 255, 1)] (repeatedColorPaletted.At 0 0) = 1 ∧
    (∀ (rt : Runtime) (fuel : Nat), 1 ≤ fuel → Encode rt fuel (.paletted repeatedColorPaletted)
      = .ok ([27] ++ bytes "Pq\"1;1;1;1#1;2;0;0;0#1@" ++ [27, 92])) ∧
    topRowsPaletted.Palette.length ≤ 256 ∧
    InputImage.WellFormed (.paletted topRowsPaletted) ∧
    topRowsPaletted.Palette.Nodup ∧
    ¬ bandsFit topRowsPaletted.Rect ∧
    ∀ (rt : Runtime) (fuel : Nat),
      Encode rt fuel (.paletted topRowsPaletted) = .error .outOfFuel := by
  refine ⟨by decide, repeatedColorPaletted_wellFormed, by decide, by decide, by decide,
    by decide, ?_, by decide, topRowsPaletted_wellFormed, by decide, by decide,
    fun rt fuel => Encode_diverges rt (.paletted topRowsPaletted)
      topRowsPaletted_wellFormed (by decide) fuel⟩
  intro rt fuel hfuel
  obtain ⟨p, pm, hp, _, _, hpm, henc⟩ := Encode_eq rt (.paletted repeatedColorPaletted)
    repeatedColorPaletted_wellFormed (by decide)
  have hp2 : p = repeatedColorPaletted := by
    have : toPaletted rt (.paletted repeatedColorPaletted) = .ok repeatedColorPaletted := rfl
    rw [this] at hp
    simp only [Except.ok.injEq] at hp
    exact hp.symm
  subst hp2
  have hpm2 : pm = [(Color.colorRGBA 0 0 0 255, 1)] := by
    have : createPaletteMap repeatedColorPaletted.Palette
        = .ok [(Color.colorRGBA 0 0 0 255, 1)] := by decide
    rw [this] at hpm
    simp only [Except.ok.injEq] at hpm
    exact hpm.symm
  subst hpm2
  have hs : paletteMap.String rt [(Color.colorRGBA 0 0 0 255, 1)] = bytes "#1;2;0;0;0" := by
    rw [paletteMap_String_eq,
      List.perm_singleton.mp (rt.rangePaletteMap_perm [(Color.colorRGBA 0 0 0 255, 1)])]
    decide
  have hcs : findUniqueColorsInBand repeatedColorPaletted
      (InputImage.paletted repeatedColorPaletted).Bounds 0
      = [some (Color.colorRGBA 0 0 0 255)] := by decide
  have hseg : bandSegment rt [(Color.colorRGBA 0 0 0 255, 1)] repeatedColorPaletted
      (InputImage.paletted repeatedColorPaletted).Bounds 0 = bytes "#1@" := by
    unfold bandSegment
    rw [hcs, List.perm_singleton.mp (rt.rangeBandColors_perm 0 _)]
    decide
  have hn : ((InputImage.paletted repeatedColorPaletted).Bounds.Dy.toNat + 5) / 6 = 1 := by
    decide
  have hmin : (InputImage.paletted repeatedColorPaletted).Bounds.Min.Y = 0 := rfl
  have hr : List.range 1 = [0] := rfl
  rw [henc fuel (by rw [hn]; exact hfuel), hs, hn, hmin, hr]
  simp only [List.map_cons, List.map_nil, Nat.cast_zero, mul_zero, add_zero, hseg,
    intercalate_singleton]
  decide

/-- C11 (amended). A well-formed palette-indexed image with at most 256
palette entries is encoded as it is: `Encode` works on the image itself, and its
output does not depend on the quantizer, the sort or the dithering of the
runtime. When the colours of the palette are pairwise distinct, the palette map
holds exactly the entries `(Palette[i], i)`, so the output defines the image's own
palette, and the index written for a colour of a band is the index stored for a
pixel of that band; when moreover the bands fit the type `int`
(`Min.Y + 6 * ceil(H/6) ≤ maxInt`), `Encode` returns after `ceil(H/6)` rounds of
the band loop with these palette definitions and the segments of the bands of
the image. An image is re-quantized exactly when it is not paletted or its
palette has more than 256 entries. -/
theorem Encode_paletted_reuse (rt : Runtime) (p : Paletted) (hlen : p.Palette.length ≤ 256)
    (hwf : InputImage.WellFormed (.paletted p)) :
    toPaletted rt (.paletted p) = .ok p ∧
    (∀ (rt2 : Runtime) (fuel : Nat), rt2.rangePaletteMap = rt.rangePaletteMap →
      rt2.rangeBandColors = rt.rangeBandColors →
      Encode rt2 fuel (.paletted p) = Encode rt fuel (.paletted p)) ∧
    (p.Palette.Nodup →
      createPaletteMap p.Palette = .ok (p.Palette.zip (List.range p.Palette.length)) ∧
      (bandsFit p.Rect → ∀ fuel, (p.Rect.Dy.toNat + 5) / 6 ≤ fuel →
        Encode rt fuel (.paletted p) = .ok ([27, 80, 113] ++ bytes "\"1;1;"
          ++ fmtNat p.Rect.Dx.toNat ++ bytes ";" ++ fmtNat p.Rect.Dy.toNat
          ++ (rt.rangePaletteMap (p.Palette.zip (List.range p.Palette.length))).flatMap
              (fun e => paletteEntry e.1 e.2)
          ++ List.intercalate [45] ((List.range ((p.Rect.Dy.toNat + 5) / 6)).map
              (fun (k : Nat) => bandSegment rt (p.Palette.zip (List.range p.Palette.length)) p
                p.Rect (p.Rect.Min.Y + 6 * (k : Int))))
          ++ [27, 92])) ∧
      (∀ x y, p.Rect.contains x y →
        p.At x y = p.Palette[p.ColorIndexAt x y]? ∧
        paletteMap.lookup (p.Palette.zip (List.range p.Palette.length)) (p.At x y)
          = p.ColorIndexAt x y) ∧
      (∀ curY c, p.Rect.Min.Y ≤ curY → c ∈ findUniqueColorsInBand p p.Rect curY →
        ∃ x y, p.Rect.contains x y ∧ curY ≤ y ∧ y < curY + 6 ∧ p.At x y = c ∧
          paletteMap.lookup (p.Palette.zip (List.range p.Palette.length)) c
            = p.ColorIndexAt x y)) ∧
    (∀ q : Paletted, 256 < q.Palette.length →
      toPaletted rt (.paletted q) = quantizeAndDither rt q.toImage) ∧
    (∀ g : Image, toPaletted rt (.other g) = quantizeAndDither rt g) := by
  have hnot : ¬ p.Palette.length > paletteSize := by unfold paletteSize; omega
  refine ⟨by simp only [toPaletted, hnot, if_false],
    fun rt2 fuel h1 h2 => Encode_paletted_congr rt rt2 p fuel hlen h1 h2, ?_, ?_, fun g => rfl⟩
  · intro hnd
    have hpm : createPaletteMapLoop p.Palette 0 [] = p.Palette.zip (List.range p.Palette.length) := by
      rw [createPaletteMapLoop_nodup p.Palette 0 [] hnd (by simp) (by omega),
        List.range_eq_range']
      simp
    have hlook : ∀ x y, p.Rect.contains x y →
        p.At x y = p.Palette[p.ColorIndexAt x y]? ∧
        paletteMap.lookup (p.Palette.zip (List.range p.Palette.length)) (p.At x y)
          = p.ColorIndexAt x y := by
      intro x y hc
      have hAt := At_of_wellFormed p hwf.2.2 x y hc
      refine ⟨hAt, ?_⟩
      rw [hAt, ← hpm]
      exact lookup_of_nodup p.Palette hnd hlen _ (hwf.2.2 x y hc).2
    refine ⟨by rw [createPaletteMap_ok p.Palette hlen, hpm], ?_, hlook, ?_⟩
    · intro hfit fuel hfuel
      obtain ⟨p2, pm, hp2, _, _, hcm, henc⟩ := Encode_eq rt (.paletted p) hwf hfit
      have hp2eq : p2 = p := by
        simp only [toPaletted, hnot, if_false, Except.ok.injEq] at hp2
        exact hp2.symm
      subst hp2eq
      have hpmeq : pm = p2.Palette.zip (List.range p2.Palette.length) := by
        rw [createPaletteMap_ok p2.Palette hlen, hpm] at hcm
        simp only [Except.ok.injEq] at hcm
        exact hcm.symm
      subst hpmeq
      rw [henc fuel hfuel, paletteMap_String_eq]
      rfl
    · intro curY c htop hc
      obtain ⟨x, y, h1, h2, h3, h4, h5, h6⟩ := (mem_findUniqueColorsInBand p p.Rect curY c).mp hc
      have hr : Rectangle.WellFormed p.Rect := hwf.1
      have hcur : isInt curY := by
        unfold Rectangle.WellFormed isInt at hr
        unfold isInt
        omega
      have hcont : p.Rect.contains x y := ⟨h1, h2, by omega, h5⟩
      refine ⟨x, y, hcont, h3, wrapInt_band_row curY y hcur h4, h6, ?_⟩
      rw [← h6]
      exact (hlook x y hcont).2
  · intro q hq
    have : q.Palette.length > paletteSize := by unfold paletteSize; omega
    simp only [toPaletted, this, if_true]

/-- Witness for C11 (amended): the sample image, whose three palette colours
are distinct and whose two bands fit. -/
theorem Encode_paletted_reuse_witness :
    samplePaletted.Palette.length ≤ 256 ∧ InputImage.WellFormed (.paletted samplePaletted) ∧
    samplePaletted.Palette.Nodup ∧ bandsFit samplePaletted.Rect ∧
    toPaletted Runtime.insertionOrder (.paletted samplePaletted) = .ok samplePaletted ∧
    createPaletteMap samplePaletted.Palette
      = .ok (samplePaletted.Palette.zip (List.range samplePaletted.Palette.length)) :=
  ⟨by decide, samplePaletted_wellFormed, by decide, by decide,
   (Encode_paletted_reuse Runtime.insertionOrder samplePaletted (by decide)
      samplePaletted_wellFormed).1,
   ((Encode_paletted_reuse Runtime.insertionOrder samplePaletted (by decide)
      samplePaletted_wellFormed).2.2.1 (by decide)).1⟩

end sixel

namespace quantize

/-! ## The splitting loop, round by round -/

/-- `splitLoop` runs `splitRound` while fewer buckets than requested exist. -/
theorem splitLoop_succ (rt : Runtime) (numberOfColors fuel : Nat) (buckets : List bucket) :
    splitLoop rt numberOfColors (fuel + 1) buckets
      = if buckets.length < numberOfColors then
          match splitRound rt buckets with
          | .error e => .error e
          | .ok next => splitLoop rt numberOfColors fuel next
        else .ok buckets := by
  rw [splitLoop]
  unfold splitRound
  split
  · simp only
    split
    · rfl
    · split <;> rename_i hs <;> simp only [hs]
  · rfl

/-- A round that does not panic keeps the bucket invariant and adds a bucket. -/
theorem splitRound_inv (rt : Runtime) (seed : bucket) (buckets next : List bucket)
    (hinv : BucketsInv seed buckets) (h : splitRound rt buckets = .ok next) :
    BucketsInv seed next ∧ next.length = buckets.length + 1 := by
  unfold splitRound at h
  simp only at h
  split at h
  · simp at h
  · rename_i hneg
    have hne : buckets ≠ [] := by
      intro h0
      rw [h0] at hneg
      simp [findLargestBucket] at hneg
    obtain ⟨k, hk, hklt, _⟩ := findLargestBucket_spec buckets hne
    rw [hk] at h
    simp only [Int.toNat_ofNat] at h
    by_cases h2 : 2 ≤ (buckets.getD k []).length
    · obtain ⟨b1, b2, hs, hb1, hb2, hperm, _⟩ := split_spec rt (buckets.getD k []) h2
      rw [hs] at h
      simp only [Except.ok.injEq] at h
      subst h
      refine ⟨⟨?_, (flatten_set_perm buckets k hklt b1 b2 hperm).trans hinv.2⟩, by simp⟩
      intro b hb
      rcases List.mem_append.mp hb with hb | hb
      · rcases List.mem_or_eq_of_mem_set hb with hb | hb
        · exact hinv.1 b hb
        · rw [hb]; exact hb1
      · simp at hb; rw [hb]; exact hb2
    · have hlt : (buckets.getD k []).length < 2 := by omega
      have hs : bucket.split rt (buckets.getD k []) = (buckets.getD k [], none) := by
        unfold bucket.split
        simp only [hlt, if_true]
      rw [hs] at h
      simp at h

/-- While fewer buckets exist than requested, and the image has more distinct
colours than requested, a round finds a bucket and splits it. -/
theorem splitRound_ok (rt : Runtime) (seed : bucket) (buckets : List bucket)
    (hinv : BucketsInv seed buckets) (hne : buckets ≠ [])
    (hlt : buckets.length < seed.length) :
    ∃ (k : Nat) (b1 b2 : bucket), findLargestBucket buckets = (k : Int) ∧ k < buckets.length ∧
      bucket.split rt (buckets.getD k []) = (b1, some b2) ∧
      splitRound rt buckets = .ok (buckets.set k b1 ++ [b2]) := by
  obtain ⟨k, b1, b2, hk, hklt, hs, _⟩ := split_step rt seed buckets hinv hne hlt
  refine ⟨k, b1, b2, hk, hklt, hs, ?_⟩
  unfold splitRound
  have hnn : ¬ ((k : Int) < 0) := by omega
  simp only [hk, hnn, if_false, Int.toNat_ofNat, hs]

/-- Every list of buckets that the loop goes through satisfies the invariant. -/
theorem LoopState_inv (rt : Runtime) (numberOfColors : Nat) (seed : bucket) (hseed : seed ≠ [])
    (buckets : List bucket) (h : LoopState rt numberOfColors seed buckets) :
    BucketsInv seed buckets ∧ 1 ≤ buckets.length := by
  induction h with
  | seeded =>
    refine ⟨⟨?_, by simp⟩, by simp⟩
    intro b hb
    simp at hb
    rw [hb]; exact hseed
  | round _ _ hr ih =>
    obtain ⟨hinv, hlen⟩ := splitRound_inv rt seed _ _ ih.1 hr
    exact ⟨hinv, by omega⟩

/-- What `splitLoop` returns from a list the loop goes through is again such a
list. -/
theorem splitLoop_LoopState (rt : Runtime) (numberOfColors : Nat) (seed : bucket) (fuel : Nat) :
    ∀ (buckets out : List bucket), LoopState rt numberOfColors seed buckets →
      splitLoop rt numberOfColors fuel buckets = .ok out →
      LoopState rt numberOfColors seed out := by
  induction fuel with
  | zero =>
    intro buckets out hst h
    rw [splitLoop] at h
    split at h
    · simp at h
    · simp only [Except.ok.injEq] at h
      rw [← h]; exact hst
  | succ fuel ih =>
    intro buckets out hst h
    rw [splitLoop_succ] at h
    split at h
    · rename_i hlt
      split at h
      · simp at h
      · rename_i next hnext
        exact ih next out (LoopState.round hst hlt hnext) h
    · simp only [Except.ok.injEq] at h
      rw [← h]; exact hst

theorem seed_length (rt : Runtime) (img : Image) :
    (colorSet.toBucket rt (colorSet.fillColors [] img)).length
      = (imageTriples img).dedup.length := by
  rw [toBucket_eq, (rt.rangeColorSet_perm _).length_eq, (fillColors_perm_dedup img).length_eq]

theorem seed_perm (rt : Runtime) (img : Image) :
    (colorSet.toBucket rt (colorSet.fillColors [] img)).Perm (imageTriples img).dedup := by
  rw [toBucket_eq]
  exact (rt.rangeColorSet_perm _).trans (fillColors_perm_dedup img)

/-- C12. For every image with more than `N` distinct colours and every
`N ≥ 1` (empty seed palette of capacity `N`), `Quantize` terminates without
reaching an internal-fault branch: in every round that the splitting loop runs,
`findLargestBucket` finds a bucket and `split` returns a second half; the loop
ends (within its `N` rounds) with exactly `N` buckets, none of them empty, so
the averaging loop succeeds; and `Quantize` returns exactly `N` palette entries,
which is not more than requested. -/
theorem Quantize_no_internal_fault (rt : Runtime) (N : Nat) (img : Image) (hN : 1 ≤ N)
    (hU : N < (imageTriples img).dedup.length) :
    (∀ buckets, LoopState rt N (colorSet.toBucket rt (colorSet.fillColors [] img)) buckets →
      buckets.length < N →
      ∃ (k : Nat) (b1 b2 : bucket), findLargestBucket buckets = (k : Int) ∧
        k < buckets.length ∧ bucket.split rt (buckets.getD k []) = (b1, some b2) ∧
        splitRound rt buckets = .ok (buckets.set k b1 ++ [b2])) ∧
    ∃ buckets palette,
      LoopState rt N (colorSet.toBucket rt (colorSet.fillColors [] img)) buckets ∧
      splitLoop rt N N [colorSet.toBucket rt (colorSet.fillColors [] img)] = .ok buckets ∧
      buckets.length = N ∧ (∀ b ∈ buckets, b ≠ []) ∧
      averageLoop buckets [] = .ok palette ∧ palette.length = N ∧
      Quantize rt ⟨[], N⟩ img = .ok palette ∧
      ∀ e, Quantize rt ⟨[], N⟩ img ≠ .error e := by
  have hlen := seed_length rt img
  have hseed : colorSet.toBucket rt (colorSet.fillColors [] img) ≠ [] := by
    intro h0
    rw [h0] at hlen
    simp only [List.length_nil] at hlen
    omega
  constructor
  · intro buckets hst hlt
    obtain ⟨hinv, hpos⟩ := LoopState_inv rt N _ hseed buckets hst
    have hne : buckets ≠ [] := by
      intro h0; rw [h0] at hpos; simp at hpos
    exact splitRound_ok rt _ buckets hinv hne (by omega)
  · have hinv0 := (LoopState_inv rt N _ hseed _ LoopState.seeded).1
    obtain ⟨out, hout, hol, hoinv⟩ := splitLoop_spec rt N
      (colorSet.toBucket rt (colorSet.fillColors [] img)) (by omega) N
      [colorSet.toBucket rt (colorSet.fillColors [] img)] hinv0 (by simp) (by simpa using hN)
      (by simp)
    obtain ⟨palette, hpal, hplen⟩ := averageLoop_spec out hoinv.1 []
    have hplen2 : palette.length = N := by simpa [hol] using hplen
    have hq : Quantize rt ⟨[], N⟩ img = .ok palette := by
      have hnot : ¬ (colorSet.fillColors [] img).length ≤ N := by
        rw [(fillColors_perm_dedup img).length_eq]; omega
      have hp : ¬ N < palette.length := by omega
      unfold Quantize
      simp only [List.length_nil, gt_iff_lt, Nat.lt_irrefl, if_false, hnot, hout, hpal, hp]
    refine ⟨out, palette, splitLoop_LoopState rt N _ N _ out LoopState.seeded hout, hout, hol,
      hoinv.1, hpal, hplen2, hq, ?_⟩
    intro e he
    rw [hq] at he
    simp at he

/-- Witness for C12: the 2x2 test image has four distinct colours; with
`N = 2` the quantizer returns two averaged colours. -/
theorem Quantize_no_internal_fault_witness :
    1 ≤ 2 ∧ 2 < (imageTriples imgWithFewerColors).dedup.length ∧
    ∃ buckets palette,
      splitLoop Runtime.insertionOrder 2 2
        [colorSet.toBucket Runtime.insertionOrder (colorSet.fillColors [] imgWithFewerColors)]
        = .ok buckets ∧
      buckets.length = 2 ∧ palette.length = 2 ∧
      Quantize Runtime.insertionOrder ⟨[], 2⟩ imgWithFewerColors = .ok palette :=
  ⟨by decide, by decide,
   (Quantize_no_internal_fault Runtime.insertionOrder 2 imgWithFewerColors (by decide)
      (by decide)).2.imp
     (fun _ h => h.imp (fun _ h2 => ⟨h2.2.1, h2.2.2.1, h2.2.2.2.2.2.1, h2.2.2.2.2.2.2.1⟩))⟩

/-- C13. Bucket invariant of the median-cut loop. When the image has more
distinct colours than requested (so that `Quantize` seeds a bucket), every list
of buckets that the loop goes through, after the seeding step and after every
split step, has no empty bucket, its buckets are pairwise disjoint and free of
repetition, and their concatenation is a permutation of the distinct colours of
the image: every colour of the image lies in exactly one bucket and no other
colour lies in any. -/
theorem LoopState_bucket_invariant (rt : Runtime) (N : Nat) (img : Image)
    (hU : N < (imageTriples img).dedup.length) (buckets : List bucket)
    (hst : LoopState rt N (colorSet.toBucket rt (colorSet.fillColors [] img)) buckets) :
    (∀ b ∈ buckets, b ≠ []) ∧ buckets.Pairwise List.Disjoint ∧ (∀ b ∈ buckets, b.Nodup) ∧
    buckets.flatten.Perm (imageTriples img).dedup ∧
    (∀ c, c ∈ imageTriples img ↔ ∃ b ∈ buckets, c ∈ b) := by
  have hlen := seed_length rt img
  have hseed : colorSet.toBucket rt (colorSet.fillColors [] img) ≠ [] := by
    intro h0
    rw [h0] at hlen
    simp only [List.length_nil] at hlen
    omega
  obtain ⟨⟨hne, hperm⟩, _⟩ := LoopState_inv rt N _ hseed buckets hst
  have hperm2 : buckets.flatten.Perm (imageTriples img).dedup := hperm.trans (seed_perm rt img)
  have hnd : buckets.flatten.Nodup := hperm2.nodup_iff.mpr (List.nodup_dedup _)
  obtain ⟨hnd1, hdisj⟩ := List.nodup_flatten.mp hnd
  refine ⟨hne, hdisj, hnd1, hperm2, ?_⟩
  intro c
  rw [← List.mem_dedup, ← hperm2.mem_iff, List.mem_flatten]

/-- Witness for C13: the test image with `N = 3`, after the first split. -/
theorem LoopState_bucket_invariant_witness :
    3 < (imageTriples imgWithFewerColors).dedup.length ∧
    LoopState Runtime.insertionOrder 3
      (colorSet.toBucket Runtime.insertionOrder (colorSet.fillColors [] imgWithFewerColors))
      [[⟨0, 0, 255⟩, ⟨0, 255, 0⟩], [⟨255, 0, 0⟩, ⟨255, 255, 0⟩]] ∧
    List.Pairwise List.Disjoint
      ([[⟨0, 0, 255⟩, ⟨0, 255, 0⟩], [⟨255, 0, 0⟩, ⟨255, 255, 0⟩]] : List bucket) ∧
    ([[⟨0, 0, 255⟩, ⟨0, 255, 0⟩], [⟨255, 0, 0⟩, ⟨255, 255, 0⟩]] : List bucket).flatten.Perm
      (imageTriples imgWithFewerColors).dedup :=
  ⟨by decide, LoopState.round LoopState.seeded (by decide) (by decide),
   (LoopState_bucket_invariant Runtime.insertionOrder 3 imgWithFewerColors (by decide) _
      (LoopState.round LoopState.seeded (by decide) (by decide))).2.1,
   (LoopState_bucket_invariant Runtime.insertionOrder 3 imgWithFewerColors (by decide) _
      (LoopState.round LoopState.seeded (by decide) (by decide))).2.2.2.1⟩

/-- C14. A bucket `b` of at least two colours is split into a lower half of
`len(b) / 2` colours and an upper half of the remaining `len(b) - len(b) / 2`
colours, both non-empty and together a permutation of `b`, such that on the
axis chosen by `longestRangeDimension` every colour of the lower half has a
value less than or equal to that of every colour of the upper half. A bucket of
fewer than two colours is returned unchanged with an absent second half. -/
theorem split_halves (rt : Runtime) (b : bucket) :
    (2 ≤ b.length → ∃ lower upper, bucket.split rt b = (lower, some upper) ∧
      lower.length = b.length / 2 ∧ upper.length = b.length - b.length / 2 ∧
      lower ≠ [] ∧ upper ≠ [] ∧ (lower ++ upper).Perm b ∧
      ∀ x ∈ lower, ∀ y ∈ upper,
        x.get (bucket.longestRangeDimension b) ≤ y.get (bucket.longestRangeDimension b)) ∧
    (b.length < 2 → bucket.split rt b = (b, none)) := by
  constructor
  · intro h
    have hlen : (rt.sortFunc (bucket.longestRangeDimension b) b).length = b.length :=
      (rt.sortFunc_perm _ b).length_eq
    have hsorted := rt.sortFunc_sorted (bucket.longestRangeDimension b) b
    rw [← List.take_append_drop (b.length / 2) (rt.sortFunc (bucket.longestRangeDimension b) b),
      List.pairwise_append] at hsorted
    refine ⟨(rt.sortFunc (bucket.longestRangeDimension b) b).take (b.length / 2),
      (rt.sortFunc (bucket.longestRangeDimension b) b).drop (b.length / 2), ?_, ?_, ?_, ?_, ?_,
      ?_, ?_⟩
    · unfold bucket.split bucket.sortInDimension
      have : ¬ b.length < 2 := by omega
      simp only [this, if_false, hlen]
    · rw [List.length_take, hlen]; omega
    · rw [List.length_drop, hlen]
    · intro h0
      have := congrArg List.length h0
      rw [List.length_take, hlen] at this
      simp only [List.length_nil] at this
      omega
    · intro h0
      have := congrArg List.length h0
      rw [List.length_drop, hlen] at this
      simp only [List.length_nil] at this
      omega
    · rw [List.take_append_drop]
      exact rt.sortFunc_perm _ b
    · intro x hx y hy
      have := hsorted.2.2 x hx y hy
      omega
  · intro h
    unfold bucket.split
    simp only [h, if_true]

/-- Witness for C14: a bucket of three colours whose widest axis is green, and
a bucket of one colour. -/
theorem split_halves_witness :
    2 ≤ ([⟨10, 200, 5⟩, ⟨20, 0, 5⟩, ⟨30, 100, 5⟩] : bucket).length ∧
    bucket.split Runtime.insertionOrder [⟨10, 200, 5⟩, ⟨20, 0, 5⟩, ⟨30, 100, 5⟩]
      = ([⟨20, 0, 5⟩], some [⟨30, 100, 5⟩, ⟨10, 200, 5⟩]) ∧
    (∃ lower upper, bucket.split Runtime.insertionOrder [⟨10, 200, 5⟩, ⟨20, 0, 5⟩, ⟨30, 100, 5⟩]
        = (lower, some upper) ∧ lower.length = 1 ∧ upper.length = 2) ∧
    bucket.split Runtime.insertionOrder [⟨1, 2, 3⟩] = ([⟨1, 2, 3⟩], none) :=
  ⟨by decide, by decide,
   ((split_halves Runtime.insertionOrder [⟨10, 200, 5⟩, ⟨20, 0, 5⟩, ⟨30, 100, 5⟩]).1
      (by decide)).imp (fun _ h => h.imp (fun _ h2 => ⟨h2.1, h2.2.1, h2.2.2.1⟩)),
   (split_halves Runtime.insertionOrder [⟨1, 2, 3⟩]).2 (by decide)⟩

/-! ## `longestRangeDimension` -/

/-- One colour updates the running minimum and maximum of every axis. -/
theorem minMaxStep_get (acc : rgbColor × rgbColor) (c : rgbColor) (d : Nat) (hd : d < 3) :
    (minMaxStep acc c).1.get d = min (acc.1.get d) (c.get d) ∧
    (minMaxStep acc c).2.get d = max (acc.2.get d) (c.get d) := by
  obtain ⟨⟨a1, a2, a3⟩, ⟨b1, b2, b3⟩⟩ := acc
  obtain ⟨c1, c2, c3⟩ := c
  have hr : List.range supportedDimensions = [0, 1, 2] := by decide
  have h3 : d = 0 ∨ d = 1 ∨ d = 2 := by omega
  rcases h3 with rfl | rfl | rfl <;>
    (simp only [minMaxStep, hr, List.foldl_cons, List.foldl_nil, rgbColor.get, rgbColor.set]
     constructor
     · rw [Nat.min_def]; split_ifs <;> dsimp only at * <;> omega
     · rw [Nat.max_def]; split_ifs <;> dsimp only at * <;> omega)

theorem foldl_minMaxStep_get (b : bucket) (d : Nat) (hd : d < 3) :
    ∀ acc : rgbColor × rgbColor,
      (b.foldl minMaxStep acc).1.get d = b.foldl (fun m c => min m (c.get d)) (acc.1.get d) ∧
      (b.foldl minMaxStep acc).2.get d = b.foldl (fun m c => max m (c.get d)) (acc.2.get d) := by
  induction b with
  | nil => intro acc; exact ⟨rfl, rfl⟩
  | cons c b ih =>
    intro acc
    simp only [List.foldl_cons]
    rw [(ih (minMaxStep acc c)).1, (ih (minMaxStep acc c)).2, (minMaxStep_get acc c d hd).1,
      (minMaxStep_get acc c d hd).2]
    exact ⟨rfl, rfl⟩

theorem foldl_min_spec (f : rgbColor → Nat) (b : bucket) :
    ∀ m0 : Nat, b.foldl (fun m c => min m (f c)) m0 ≤ m0 ∧
      (∀ c ∈ b, b.foldl (fun m c => min m (f c)) m0 ≤ f c) ∧
      (b.foldl (fun m c => min m (f c)) m0 = m0 ∨
        ∃ c ∈ b, f c = b.foldl (fun m c => min m (f c)) m0) := by
  induction b with
  | nil => intro m0; simp
  | cons a b ih =>
    intro m0
    obtain ⟨h1, h2, h3⟩ := ih (min m0 (f a))
    simp only [List.foldl_cons, List.mem_cons]
    refine ⟨by omega, ?_, ?_⟩
    · rintro c (rfl | hc)
      · omega
      · exact h2 c hc
    · rcases h3 with h3 | ⟨c, hc, h3⟩
      · by_cases hm : m0 ≤ f a
        · left; omega
        · right; exact ⟨a, Or.inl rfl, by omega⟩
      · right; exact ⟨c, Or.inr hc, h3⟩

theorem foldl_max_spec (f : rgbColor → Nat) (b : bucket) :
    ∀ m0 : Nat, m0 ≤ b.foldl (fun m c => max m (f c)) m0 ∧
      (∀ c ∈ b, f c ≤ b.foldl (fun m c => max m (f c)) m0) ∧
      (b.foldl (fun m c => max m (f c)) m0 = m0 ∨
        ∃ c ∈ b, f c = b.foldl (fun m c => max m (f c)) m0) := by
  induction b with
  | nil => intro m0; simp
  | cons a b ih =>
    intro m0
    obtain ⟨h1, h2, h3⟩ := ih (max m0 (f a))
    simp only [List.foldl_cons, List.mem_cons]
    refine ⟨by omega, ?_, ?_⟩
    · rintro c (rfl | hc)
      · omega
      · exact h2 c hc
    · rcases h3 with h3 | ⟨c, hc, h3⟩
      · by_cases hm : f a ≤ m0
        · left; omega
        · right; exact ⟨a, Or.inl rfl, by omega⟩
      · right; exact ⟨c, Or.inr hc, h3⟩

theorem get_lt_of_uint8 (c : rgbColor) (h : c.r < 256 ∧ c.g < 256 ∧ c.b < 256) (d : Nat) :
    c.get d < 256 := by
  unfold rgbColor.get
  split
  · exact h.1
  · exact h.2.1
  · exact h.2.2

/-- After the colour loop `minVals[d]` and `maxVals[d]` are the least and the
greatest value of axis `d` in a non-empty bucket of `uint8` colours. -/
theorem minMax_spec (b : bucket) (hne : b ≠ [])
    (hu8 : ∀ c ∈ b, c.r < 256 ∧ c.g < 256 ∧ c.b < 256) (d : Nat) (hd : d < 3) :
    (∃ c ∈ b, c.get d = (b.foldl minMaxStep (⟨255, 255, 255⟩, ⟨0, 0, 0⟩)).1.get d) ∧
    (∀ c ∈ b, (b.foldl minMaxStep (⟨255, 255, 255⟩, ⟨0, 0, 0⟩)).1.get d ≤ c.get d) ∧
    (∃ c ∈ b, c.get d = (b.foldl minMaxStep (⟨255, 255, 255⟩, ⟨0, 0, 0⟩)).2.get d) ∧
    (∀ c ∈ b, c.get d ≤ (b.foldl minMaxStep (⟨255, 255, 255⟩, ⟨0, 0, 0⟩)).2.get d) := by
  obtain ⟨hmin, hmax⟩ := foldl_minMaxStep_get b d hd (⟨255, 255, 255⟩, ⟨0, 0, 0⟩)
  have hi1 : (⟨255, 255, 255⟩ : rgbColor).get d = 255 := by
    unfold rgbColor.get; split <;> rfl
  have hi2 : (⟨0, 0, 0⟩ : rgbColor).get d = 0 := by
    unfold rgbColor.get; split <;> rfl
  simp only [hi1, hi2] at hmin hmax
  rw [hmin, hmax]
  obtain ⟨a1, a2, a3⟩ := foldl_min_spec (fun c => c.get d) b 255
  obtain ⟨b1, b2, b3⟩ := foldl_max_spec (fun c => c.get d) b 0
  obtain ⟨c0, hc0⟩ := List.exists_mem_of_ne_nil b hne
  have hc0lt := get_lt_of_uint8 c0 (hu8 c0 hc0) d
  refine ⟨?_, a2, ?_, b2⟩
  · rcases a3 with h | h
    · refine ⟨c0, hc0, ?_⟩
      have := a2 c0 hc0
      simp only at this h ⊢
      omega
    · exact h
  · rcases b3 with h | h
    · refine ⟨c0, hc0, ?_⟩
      have := b2 c0 hc0
      simp only at this h ⊢
      omega
    · exact h

/-- C15. For every non-empty bucket of `uint8` colours, the values
`minVals[d]` and `maxVals[d]` that `longestRangeDimension` has computed after its
colour loop are the least and the greatest value of axis `d` over the bucket, so
the `uint8` subtraction `maxVals[d] - minVals[d]` does not wrap and is the range
of the axis; the function returns an axis `0` (R), `1` (G) or `2` (B) whose range
is the greatest of the three, and every earlier axis has a strictly smaller
range: the first axis wins on equal ranges. -/
theorem longestRangeDimension_spec (b : bucket) (hne : b ≠ [])
    (hu8 : ∀ c ∈ b, c.r < 256 ∧ c.g < 256 ∧ c.b < 256) :
    (∀ d, d < 3 →
      (∃ c ∈ b, c.get d = (b.foldl minMaxStep (⟨255, 255, 255⟩, ⟨0, 0, 0⟩)).1.get d) ∧
      (∀ c ∈ b, (b.foldl minMaxStep (⟨255, 255, 255⟩, ⟨0, 0, 0⟩)).1.get d ≤ c.get d) ∧
      (∃ c ∈ b, c.get d = (b.foldl minMaxStep (⟨255, 255, 255⟩, ⟨0, 0, 0⟩)).2.get d) ∧
      (∀ c ∈ b, c.get d ≤ (b.foldl minMaxStep (⟨255, 255, 255⟩, ⟨0, 0, 0⟩)).2.get d) ∧
      (b.foldl minMaxStep (⟨255, 255, 255⟩, ⟨0, 0, 0⟩)).1.get d
        ≤ (b.foldl minMaxStep (⟨255, 255, 255⟩, ⟨0, 0, 0⟩)).2.get d ∧
      ((b.foldl minMaxStep (⟨255, 255, 255⟩, ⟨0, 0, 0⟩)).2.get d + 256
          - (b.foldl minMaxStep (⟨255, 255, 255⟩, ⟨0, 0, 0⟩)).1.get d) % 256
        = (b.foldl minMaxStep (⟨255, 255, 255⟩, ⟨0, 0, 0⟩)).2.get d
          - (b.foldl minMaxStep (⟨255, 255, 255⟩, ⟨0, 0, 0⟩)).1.get d) ∧
    bucket.longestRangeDimension b < 3 ∧
    (∀ d, d < 3 →
      (b.foldl minMaxStep (⟨255, 255, 255⟩, ⟨0, 0, 0⟩)).2.get d
          - (b.foldl minMaxStep (⟨255, 255, 255⟩, ⟨0, 0, 0⟩)).1.get d
        ≤ (b.foldl minMaxStep (⟨255, 255, 255⟩, ⟨0, 0, 0⟩)).2.get (bucket.longestRangeDimension b)
          - (b.foldl minMaxStep (⟨255, 255, 255⟩, ⟨0, 0, 0⟩)).1.get
              (bucket.longestRangeDimension b)) ∧
    (∀ d, d < bucket.longestRangeDimension b →
      (b.foldl minMaxStep (⟨255, 255, 255⟩, ⟨0, 0, 0⟩)).2.get d
          - (b.foldl minMaxStep (⟨255, 255, 255⟩, ⟨0, 0, 0⟩)).1.get d
        < (b.foldl minMaxStep (⟨255, 255, 255⟩, ⟨0, 0, 0⟩)).2.get (bucket.longestRangeDimension b)
          - (b.foldl minMaxStep (⟨255, 255, 255⟩, ⟨0, 0, 0⟩)).1.get
              (bucket.longestRangeDimension b)) := by
  have hbase : ∀ d, d < 3 →
      (b.foldl minMaxStep (⟨255, 255, 255⟩, ⟨0, 0, 0⟩)).1.get d
        ≤ (b.foldl minMaxStep (⟨255, 255, 255⟩, ⟨0, 0, 0⟩)).2.get d ∧
      (b.foldl minMaxStep (⟨255, 255, 255⟩, ⟨0, 0, 0⟩)).2.get d < 256 := by
    intro d hd
    obtain ⟨⟨c, hc, h1⟩, _, ⟨c2, hc2, h3⟩, h4⟩ := minMax_spec b hne hu8 d hd
    have := h4 c hc
    have := get_lt_of_uint8 c2 (hu8 c2 hc2) d
    omega
  have hwrap : ∀ d, d < 3 →
      ((b.foldl minMaxStep (⟨255, 255, 255⟩, ⟨0, 0, 0⟩)).2.get d + 256
          - (b.foldl minMaxStep (⟨255, 255, 255⟩, ⟨0, 0, 0⟩)).1.get d) % 256
        = (b.foldl minMaxStep (⟨255, 255, 255⟩, ⟨0, 0, 0⟩)).2.get d
          - (b.foldl minMaxStep (⟨255, 255, 255⟩, ⟨0, 0, 0⟩)).1.get d := by
    intro d hd
    obtain ⟨h1, h2⟩ := hbase d hd
    omega
  have hlrd : bucket.longestRangeDimension b
      = longestRangeLoop (b.foldl minMaxStep (⟨255, 255, 255⟩, ⟨0, 0, 0⟩)).1
          (b.foldl minMaxStep (⟨255, 255, 255⟩, ⟨0, 0, 0⟩)).2 [1, 2] 0
          (((b.foldl minMaxStep (⟨255, 255, 255⟩, ⟨0, 0, 0⟩)).2.get 0 + 256
            - (b.foldl minMaxStep (⟨255, 255, 255⟩, ⟨0, 0, 0⟩)).1.get 0) % 256) := rfl
  have h0 := hwrap 0 (by omega)
  have h1 := hwrap 1 (by omega)
  have h2 := hwrap 2 (by omega)
  have key : ∀ k, bucket.longestRangeDimension b = k → k < 3 ∧
      (∀ d, d < 3 →
        (b.foldl minMaxStep (⟨255, 255, 255⟩, ⟨0, 0, 0⟩)).2.get d
            - (b.foldl minMaxStep (⟨255, 255, 255⟩, ⟨0, 0, 0⟩)).1.get d
          ≤ (b.foldl minMaxStep (⟨255, 255, 255⟩, ⟨0, 0, 0⟩)).2.get k
            - (b.foldl minMaxStep (⟨255, 255, 255⟩, ⟨0, 0, 0⟩)).1.get k) ∧
      (∀ d, d < k →
        (b.foldl minMaxStep (⟨255, 255, 255⟩, ⟨0, 0, 0⟩)).2.get d
            - (b.foldl minMaxStep (⟨255, 255, 255⟩, ⟨0, 0, 0⟩)).1.get d
          < (b.foldl minMaxStep (⟨255, 255, 255⟩, ⟨0, 0, 0⟩)).2.get k
            - (b.foldl minMaxStep (⟨255, 255, 255⟩, ⟨0, 0, 0⟩)).1.get k) := by
    intro k hk
    rw [hlrd] at hk
    simp only [longestRangeLoop, h0, h1, h2] at hk
    split_ifs at hk <;> subst hk <;> refine ⟨by omega, ?_, ?_⟩ <;> intro d hd <;>
      (have h3 : d = 0 ∨ d = 1 ∨ d = 2 := by omega) <;>
      rcases h3 with rfl | rfl | rfl <;> omega
  obtain ⟨k1, k2, k3⟩ := key _ rfl
  refine ⟨?_, k1, k2, k3⟩
  intro d hd
  obtain ⟨a1, a2, a3, a4⟩ := minMax_spec b hne hu8 d hd
  exact ⟨a1, a2, a3, a4, (hbase d hd).1, hwrap d hd⟩

/-- Witness for C15: a bucket whose green axis has the greatest range, and the
value returned on it; on a bucket with three equal ranges the result is 0. -/
theorem longestRangeDimension_spec_witness :
    ([⟨10, 200, 5⟩, ⟨20, 0, 5⟩, ⟨30, 100, 5⟩] : bucket) ≠ [] ∧
    (∀ c ∈ ([⟨10, 200, 5⟩, ⟨20, 0, 5⟩, ⟨30, 100, 5⟩] : bucket),
      c.r < 256 ∧ c.g < 256 ∧ c.b < 256) ∧
    bucket.longestRangeDimension [⟨10, 200, 5⟩, ⟨20, 0, 5⟩, ⟨30, 100, 5⟩] < 3 ∧
    bucket.longestRangeDimension [⟨10, 200, 5⟩, ⟨20, 0, 5⟩, ⟨30, 100, 5⟩] = 1 ∧
    bucket.longestRangeDimension [⟨0, 0, 0⟩, ⟨5, 5, 5⟩] = 0 :=
  ⟨by decide, by decide,
   (longestRangeDimension_spec [⟨10, 200, 5⟩, ⟨20, 0, 5⟩, ⟨30, 100, 5⟩] (by decide)
      (by decide)).2.1,
   by decide, by decide⟩

/-! ## The averaging loop -/

/-- A bucket of pairwise distinct `uint8` colours has at most `2^24` colours. -/
theorem length_le_of_nodup (bkt : bucket) (hnd : bkt.Nodup)
    (hu8 : ∀ c ∈ bkt, c.r < 256 ∧ c.g < 256 ∧ c.b < 256) : bkt.length ≤ 2 ^ 24 := by
  have hinj : ∀ x ∈ bkt, ∀ y ∈ bkt,
      x.r * 65536 + x.g * 256 + x.b = y.r * 65536 + y.g * 256 + y.b → x = y := by
    intro x hx y hy h
    obtain ⟨x1, x2, x3⟩ := x
    obtain ⟨y1, y2, y3⟩ := y
    have hx' := hu8 _ hx
    have hy' := hu8 _ hy
    simp only at h hx' hy'
    simp only [rgbColor.mk.injEq]
    omega
  have hnd2 : (bkt.map (fun c => c.r * 65536 + c.g * 256 + c.b)).Nodup :=
    List.Nodup.map_on hinj hnd
  have hsub : (bkt.map (fun c => c.r * 65536 + c.g * 256 + c.b)).toFinset
      ⊆ Finset.range (2 ^ 24) := by
    intro v hv
    simp only [List.mem_toFinset, List.mem_map] at hv
    obtain ⟨c, hc, rfl⟩ := hv
    have := hu8 c hc
    simp only [Finset.mem_range]
    omega
  have hcard := Finset.card_le_card hsub
  rw [List.toFinset_card_of_nodup hnd2, List.length_map, Finset.card_range] at hcard
  exact hcard

theorem channelSum_le (bkt : bucket) (d hi : Nat) (h : ∀ c ∈ bkt, c.get d ≤ hi) :
    channelSum bkt d ≤ bkt.length * hi := by
  unfold channelSum
  induction bkt with
  | nil => simp
  | cons a l ih =>
    have h1 := h a (by simp)
    have h2 := ih (fun c hc => h c (by simp [hc]))
    simp only [List.map_cons, List.sum_cons, List.length_cons]
    rw [Nat.add_mul]
    omega

theorem channelSum_ge (bkt : bucket) (d lo : Nat) (h : ∀ c ∈ bkt, lo ≤ c.get d) :
    bkt.length * lo ≤ channelSum bkt d := by
  unfold channelSum
  induction bkt with
  | nil => simp
  | cons a l ih =>
    have h1 := h a (by simp)
    have h2 := ih (fun c hc => h c (by simp [hc]))
    simp only [List.map_cons, List.sum_cons, List.length_cons]
    rw [Nat.add_mul]
    omega

/-- The `uint32` accumulators hold the exact sums as long as these stay below
`2^32`. -/
theorem channelSums_fold (bkt : bucket) (hu8 : ∀ c ∈ bkt, c.r < 256 ∧ c.g < 256 ∧ c.b < 256) :
    ∀ acc : Nat × Nat × Nat,
      acc.1 + channelSum bkt 0 < 2 ^ 32 → acc.2.1 + channelSum bkt 1 < 2 ^ 32 →
      acc.2.2 + channelSum bkt 2 < 2 ^ 32 →
      bkt.foldl (fun (acc : Nat × Nat × Nat) c =>
        ((acc.1 + c.r % 256) % 2 ^ 32, (acc.2.1 + c.g % 256) % 2 ^ 32,
         (acc.2.2 + c.b % 256) % 2 ^ 32)) acc
        = (acc.1 + channelSum bkt 0, acc.2.1 + channelSum bkt 1, acc.2.2 + channelSum bkt 2) := by
  induction bkt with
  | nil => intro acc _ _ _; simp [channelSum]
  | cons a l ih =>
    intro acc h0 h1 h2
    have ha := hu8 a (by simp)
    have hs0 : channelSum (a :: l) 0 = a.r + channelSum l 0 := rfl
    have hs1 : channelSum (a :: l) 1 = a.g + channelSum l 1 := rfl
    have hs2 : channelSum (a :: l) 2 = a.b + channelSum l 2 := rfl
    rw [hs0] at h0 ⊢
    rw [hs1] at h1 ⊢
    rw [hs2] at h2 ⊢
    have e0 : (acc.1 + a.r % 256) % 2 ^ 32 = acc.1 + a.r := by
      rw [Nat.mod_eq_of_lt ha.1, Nat.mod_eq_of_lt (by omega)]
    have e1 : (acc.2.1 + a.g % 256) % 2 ^ 32 = acc.2.1 + a.g := by
      rw [Nat.mod_eq_of_lt ha.2.1, Nat.mod_eq_of_lt (by omega)]
    have e2 : (acc.2.2 + a.b % 256) % 2 ^ 32 = acc.2.2 + a.b := by
      rw [Nat.mod_eq_of_lt ha.2.2, Nat.mod_eq_of_lt (by omega)]
    simp only [List.foldl_cons, e0, e1, e2]
    rw [ih (fun c hc => hu8 c (by simp [hc])) _ (by simp only; omega) (by simp only; omega)
      (by simp only; omega)]
    simp only [Prod.mk.injEq]
    omega

theorem get_lt_three (c : rgbColor) (d : Nat) (h : c.r < 256 ∧ c.g < 256 ∧ c.b < 256) :
    c.get d ≤ 255 := by
  have := get_lt_of_uint8 c h d
  omega

/-- The facts about one bucket behind C16. -/
theorem average_facts (bkt : bucket) (hne : bkt ≠ []) (hnd : bkt.Nodup)
    (hu8 : ∀ c ∈ bkt, c.r < 256 ∧ c.g < 256 ∧ c.b < 256) :
    bkt.length < 2 ^ 32 ∧ 0 < bkt.length ∧
    (∀ d, channelSum bkt d < 2 ^ 32) ∧
    channelSums bkt = (channelSum bkt 0, channelSum bkt 1, channelSum bkt 2) ∧
    (∀ d lo hi, (∀ c ∈ bkt, lo ≤ c.get d ∧ c.get d ≤ hi) →
      lo ≤ channelSum bkt d / bkt.length ∧ channelSum bkt d / bkt.length ≤ hi) ∧
    (∀ d, channelSum bkt d / bkt.length < 256) := by
  have hlen := length_le_of_nodup bkt hnd hu8
  have hpos : 0 < bkt.length := List.length_pos.mpr hne
  have hsum : ∀ d, channelSum bkt d < 2 ^ 32 := by
    intro d
    have := channelSum_le bkt d 255 (fun c hc => get_lt_three c d (hu8 c hc))
    have h2 : bkt.length * 255 ≤ 2 ^ 24 * 255 := Nat.mul_le_mul_right 255 hlen
    have h3 : (2 : Nat) ^ 24 * 255 < 2 ^ 32 := by norm_num
    omega
  have hbounds : ∀ d lo hi, (∀ c ∈ bkt, lo ≤ c.get d ∧ c.get d ≤ hi) →
      lo ≤ channelSum bkt d / bkt.length ∧ channelSum bkt d / bkt.length ≤ hi := by
    intro d lo hi h
    have h1 := channelSum_ge bkt d lo (fun c hc => (h c hc).1)
    have h2 := channelSum_le bkt d hi (fun c hc => (h c hc).2)
    constructor
    · rw [Nat.le_div_iff_mul_le hpos, Nat.mul_comm]
      exact h1
    · exact Nat.div_le_of_le_mul h2
  refine ⟨by have : (2 : Nat) ^ 24 < 2 ^ 32 := by norm_num
             omega, hpos, hsum, ?_, hbounds, ?_⟩
  · unfold channelSums
    rw [channelSums_fold bkt hu8 (0, 0, 0) (by simpa using hsum 0) (by simpa using hsum 1)
      (by simpa using hsum 2)]
    simp
  · intro d
    have := (hbounds d 0 255 (fun c hc => ⟨Nat.zero_le _, get_lt_three c d (hu8 c hc)⟩)).2
    omega

/-- For a non-empty bucket of pairwise distinct `uint8` colours the averaging
loop appends the truncating mean of the bucket. -/
theorem averageLoop_cons (bkt : bucket) (rest : List bucket) (palette : List Color)
    (hne : bkt ≠ []) (hnd : bkt.Nodup)
    (hu8 : ∀ c ∈ bkt, c.r < 256 ∧ c.g < 256 ∧ c.b < 256) :
    averageLoop (bkt :: rest) palette
      = averageLoop rest (palette ++ [Color.quantized (meanColor bkt)]) := by
  obtain ⟨hlen, hpos, _, hsums, _, hlt⟩ := average_facts bkt hne hnd hu8
  rw [averageLoop]
  have h0 : ¬ bkt.length = 0 := by omega
  simp only [h0, if_false, hsums, Nat.mod_eq_of_lt hlen, Nat.mod_eq_of_lt (hlt 0),
    Nat.mod_eq_of_lt (hlt 1), Nat.mod_eq_of_lt (hlt 2)]
  rfl

theorem averageLoop_eq_map (buckets : List bucket)
    (h : ∀ b ∈ buckets, b ≠ [] ∧ b.Nodup ∧ ∀ c ∈ b, c.r < 256 ∧ c.g < 256 ∧ c.b < 256) :
    ∀ palette : List Color, averageLoop buckets palette
      = .ok (palette ++ buckets.map (fun b => Color.quantized (meanColor b))) := by
  induction buckets with
  | nil => intro palette; simp [averageLoop]
  | cons b rest ih =>
    intro palette
    obtain ⟨h1, h2, h3⟩ := h b (by simp)
    rw [averageLoop_cons b rest palette h1 h2 h3, ih (fun c hc => h c (by simp [hc]))]
    simp

theorem imageTriples_uint8 (img : Image) :
    ∀ c ∈ imageTriples img, c.r < 256 ∧ c.g < 256 ∧ c.b < 256 := by
  intro c hc
  obtain ⟨x, y, _, rfl⟩ := (mem_imageTriples img c).mp hc
  unfold toRgbColor
  exact ⟨Nat.mod_lt _ (by norm_num), Nat.mod_lt _ (by norm_num), Nat.mod_lt _ (by norm_num)⟩

/-- When the image has more distinct colours than requested, the palette of
`Quantize` is the list of the means of the final buckets, each of which is
non-empty and holds pairwise distinct `uint8` colours. -/
theorem Quantize_eq_means (rt : Runtime) (N : Nat) (img : Image) (hN : 1 ≤ N)
    (hU : N < (imageTriples img).dedup.length) :
    ∃ buckets, splitLoop rt N N [colorSet.toBucket rt (colorSet.fillColors [] img)] = .ok buckets ∧
      (∀ b ∈ buckets, b ≠ [] ∧ b.Nodup ∧ ∀ c ∈ b, c.r < 256 ∧ c.g < 256 ∧ c.b < 256) ∧
      Quantize rt ⟨[], N⟩ img = .ok (buckets.map (fun b => Color.quantized (meanColor b))) := by
  have hlen := seed_length rt img
  have hseed : colorSet.toBucket rt (colorSet.fillColors [] img) ≠ [] := by
    intro h0
    rw [h0] at hlen
    simp only [List.length_nil] at hlen
    omega
  have hinv0 := (LoopState_inv rt N _ hseed _ LoopState.seeded).1
  obtain ⟨out, hout, hol, hoinv⟩ := splitLoop_spec rt N
    (colorSet.toBucket rt (colorSet.fillColors [] img)) (by omega) N
    [colorSet.toBucket rt (colorSet.fillColors [] img)] hinv0 (by simp) (by simpa using hN)
    (by simp)
  have hperm : out.flatten.Perm (imageTriples img).dedup := hoinv.2.trans (seed_perm rt img)
  have hnd : out.flatten.Nodup := hperm.nodup_iff.mpr (List.nodup_dedup _)
  have hall : ∀ b ∈ out, b ≠ [] ∧ b.Nodup ∧ ∀ c ∈ b, c.r < 256 ∧ c.g < 256 ∧ c.b < 256 := by
    intro b hb
    refine ⟨hoinv.1 b hb, (List.nodup_flatten.mp hnd).1 b hb, ?_⟩
    intro c hc
    apply imageTriples_uint8 img
    rw [← List.mem_dedup, ← hperm.mem_iff, List.mem_flatten]
    exact ⟨b, hb, hc⟩
  refine ⟨out, hout, hall, ?_⟩
  have hnot : ¬ (colorSet.fillColors [] img).length ≤ N := by
    rw [(fillColors_perm_dedup img).length_eq]; omega
  have hp : ¬ N < (out.map (fun b => Color.quantized (meanColor b))).length := by
    rw [List.length_map]; omega
  unfold Quantize
  simp only [List.length_nil, gt_iff_lt, Nat.lt_irrefl, if_false, hnot, hout,
    averageLoop_eq_map out hall [], List.nil_append, hp]

/-- C16. For every non-empty bucket of pairwise distinct (`uint8`) colours the
averaging loop of `Quantize` emits the colour whose channels are the truncating
integer means `floor(sum / count)` of the bucket; the `uint32` accumulators hold
the exact sums, which stay below `2^32`, and so does the count; each mean lies
between the least and the greatest value of its channel in the bucket and is
below 256, so the conversion to `uint8` does not truncate. The final buckets of
`Quantize` are such buckets, and its palette is the list of their means. -/
theorem averageLoop_mean (bkt : bucket) (rest : List bucket) (palette : List Color)
    (hne : bkt ≠ []) (hnd : bkt.Nodup)
    (hu8 : ∀ c ∈ bkt, c.r < 256 ∧ c.g < 256 ∧ c.b < 256) :
    averageLoop (bkt :: rest) palette
      = averageLoop rest (palette ++ [Color.quantized
          ⟨channelSum bkt 0 / bkt.length, channelSum bkt 1 / bkt.length,
           channelSum bkt 2 / bkt.length⟩]) ∧
    channelSums bkt = (channelSum bkt 0, channelSum bkt 1, channelSum bkt 2) ∧
    (∀ d, channelSum bkt d < 2 ^ 32) ∧ bkt.length < 2 ^ 32 ∧
    (∀ d, d < 3 → ∃ cmin ∈ bkt, ∃ cmax ∈ bkt,
      (∀ c ∈ bkt, cmin.get d ≤ c.get d ∧ c.get d ≤ cmax.get d) ∧
      cmin.get d ≤ channelSum bkt d / bkt.length ∧
      channelSum bkt d / bkt.length ≤ cmax.get d ∧
      (channelSum bkt d / bkt.length) % 256 = channelSum bkt d / bkt.length) ∧
    (∀ (rt : Runtime) (N : Nat) (img : Image), 1 ≤ N → N < (imageTriples img).dedup.length →
      ∃ buckets,
        splitLoop rt N N [colorSet.toBucket rt (colorSet.fillColors [] img)] = .ok buckets ∧
        (∀ b ∈ buckets, b ≠ [] ∧ b.Nodup ∧ ∀ c ∈ b, c.r < 256 ∧ c.g < 256 ∧ c.b < 256) ∧
        Quantize rt ⟨[], N⟩ img
          = .ok (buckets.map (fun b => Color.quantized (meanColor b)))) := by
  obtain ⟨hlen, _, hsum, hsums, hbounds, hlt⟩ := average_facts bkt hne hnd hu8
  refine ⟨averageLoop_cons bkt rest palette hne hnd hu8, hsums, hsum, hlen, ?_,
    fun rt N img hN hU => Quantize_eq_means rt N img hN hU⟩
  intro d hd
  obtain ⟨⟨cmin, hcmin, hmin⟩, hminle, ⟨cmax, hcmax, hmax⟩, hmaxle⟩ := minMax_spec bkt hne hu8 d hd
  have hb := hbounds d (cmin.get d) (cmax.get d)
    (fun c hc => ⟨by rw [hmin]; exact hminle c hc, by rw [hmax]; exact hmaxle c hc⟩)
  exact ⟨cmin, hcmin, cmax, hcmax,
    fun c hc => ⟨by rw [hmin]; exact hminle c hc, by rw [hmax]; exact hmaxle c hc⟩,
    hb.1, hb.2, Nat.mod_eq_of_lt (hlt d)⟩

/-- Witness for C16: a bucket of three colours; the means are 20, 100 and 5. -/
theorem averageLoop_mean_witness :
    ([⟨10, 200, 5⟩, ⟨20, 0, 5⟩, ⟨30, 100, 5⟩] : bucket) ≠ [] ∧
    ([⟨10, 200, 5⟩, ⟨20, 0, 5⟩, ⟨30, 100, 5⟩] : bucket).Nodup ∧
    (∀ c ∈ ([⟨10, 200, 5⟩, ⟨20, 0, 5⟩, ⟨30, 100, 5⟩] : bucket),
      c.r < 256 ∧ c.g < 256 ∧ c.b < 256) ∧
    channelSums [⟨10, 200, 5⟩, ⟨20, 0, 5⟩, ⟨30, 100, 5⟩]
      = (channelSum [⟨10, 200, 5⟩, ⟨20, 0, 5⟩, ⟨30, 100, 5⟩] 0,
         channelSum [⟨10, 200, 5⟩, ⟨20, 0, 5⟩, ⟨30, 100, 5⟩] 1,
         channelSum [⟨10, 200, 5⟩, ⟨20, 0, 5⟩, ⟨30, 100, 5⟩] 2) ∧
    averageLoop [[⟨10, 200, 5⟩, ⟨20, 0, 5⟩, ⟨30, 100, 5⟩]] []
      = .ok [Color.quantized ⟨20, 100, 5⟩] :=
  ⟨by decide, by decide, by decide,
   (averageLoop_mean [⟨10, 200, 5⟩, ⟨20, 0, 5⟩, ⟨30, 100, 5⟩] [] [] (by decide) (by decide)
      (by decide)).2.1,
   by decide⟩

end quantize

namespace sixel

/-! ## Images without pixels -/

theorem intercalate_replicate_nil (sep : Bytes) (n : Nat) :
    List.intercalate sep (List.replicate n ([] : Bytes)) = (List.replicate (n - 1) sep).flatten := by
  induction n with
  | zero => simp [List.intercalate]
  | succ n ih =>
    cases n with
    | zero => simp [List.intercalate]
    | succ m =>
      rw [List.replicate_succ, List.replicate_succ, intercalate_cons_cons,
        ← List.replicate_succ, ih]
      simp [List.replicate_succ]

theorem flatten_replicate_singleton (c n : Nat) :
    (List.replicate n [c]).flatten = List.replicate n c := by
  induction n with
  | zero => rfl
  | succ n ih => simp [List.replicate_succ, ih]

/-- A band of a rectangle without columns has no colour, so its segment is
empty. -/
theorem bandSegment_zero_width (rt : Runtime) (pm : paletteMap) (img : Paletted)
    (bounds : Rectangle) (curY : Int) (h : bounds.Max.X ≤ bounds.Min.X) :
    bandSegment rt pm img bounds curY = [] := by
  have hx : intRange bounds.Min.X bounds.Max.X = [] := by
    unfold intRange
    have : (bounds.Max.X - bounds.Min.X).toNat = 0 := by omega
    rw [this]
    rfl
  have hcs : findUniqueColorsInBand img bounds curY = [] := by
    rw [findUniqueColorsInBand_eq, hx]
    rfl
  unfold bandSegment
  rw [hcs, List.Perm.eq_nil (rt.rangeBandColors_perm curY [])]
  rfl

/-- The body of an image of width 0 or height 0 whose bands fit the type
`int`: one `-` between any two of its bands and nothing else. -/
theorem Encode_no_pixels (rt : Runtime) (img : InputImage) (hwf : img.WellFormed)
    (hfit : bandsFit img.Bounds) (hzero : img.Bounds.Dx = 0 ∨ img.Bounds.Dy = 0) :
    ∃ p pm, toPaletted rt img = .ok p ∧ createPaletteMap p.Palette = .ok pm ∧
      ∀ fuel, (img.Bounds.Dy.toNat + 5) / 6 ≤ fuel →
        Encode rt fuel img = .ok ([27, 80, 113] ++ bytes "\"1;1;" ++ fmtNat img.Bounds.Dx.toNat
          ++ bytes ";" ++ fmtNat img.Bounds.Dy.toNat ++ paletteMap.String rt pm
          ++ List.replicate ((img.Bounds.Dy.toNat + 5) / 6 - 1) 45 ++ [27, 92]) := by
  obtain ⟨p, pm, hp, _, _, hpm, henc⟩ := Encode_eq rt img hwf hfit
  obtain ⟨hdx, _, _, _⟩ := Rectangle.Dx_Dy_of_wellFormed _ hwf.1
  refine ⟨p, pm, hp, hpm, ?_⟩
  intro fuel hfuel
  rw [henc fuel hfuel]
  have hbody : List.intercalate [45] ((List.range ((img.Bounds.Dy.toNat + 5) / 6)).map
      (fun (k : Nat) => bandSegment rt pm p img.Bounds (img.Bounds.Min.Y + 6 * (k : Int))))
      = List.replicate ((img.Bounds.Dy.toNat + 5) / 6 - 1) 45 := by
    rcases hzero with h | h
    · have hmap : (List.range ((img.Bounds.Dy.toNat + 5) / 6)).map
          (fun (k : Nat) => bandSegment rt pm p img.Bounds (img.Bounds.Min.Y + 6 * (k : Int)))
          = List.replicate ((img.Bounds.Dy.toNat + 5) / 6) ([] : Bytes) := by
        rw [List.eq_replicate_iff]
        refine ⟨by simp, ?_⟩
        intro b hb
        simp only [List.mem_map] at hb
        obtain ⟨k, _, rfl⟩ := hb
        exact bandSegment_zero_width rt pm p img.Bounds _ (by omega)
      rw [hmap, intercalate_replicate_nil, flatten_replicate_singleton]
    · have hn : (img.Bounds.Dy.toNat + 5) / 6 = 0 := by omega
      rw [hn]
      rfl
  rw [hbody]

theorem zeroWidthPaletted_wellFormed : InputImage.WellFormed (.paletted zeroWidthPaletted) := by
  refine ⟨by decide, by decide, ?_⟩
  intro x y hc
  obtain ⟨h1, h2, _, _⟩ := hc
  simp only [zeroWidthPaletted] at h1 h2
  omega

theorem zeroWidthTopRowsPaletted_wellFormed :
    InputImage.WellFormed (.paletted zeroWidthTopRowsPaletted) := by
  refine ⟨by decide, by decide, ?_⟩
  intro x y hc
  obtain ⟨h1, h2, _, _⟩ := hc
  simp only [zeroWidthTopRowsPaletted] at h1 h2
  omega

/-- C17, as stated, fails for an image of width 0 and height above 6: the
band loop still runs once per band and writes the separator `-` after every band
but the last. For `zeroWidthPaletted` (width 0, height 7) every runtime yields
`ESC P q "1;1;0;7 #0;2;0;0;0 - ESC \` (blanks added for reading) after two
rounds. It also fails for an image of width 0 whose last band reaches beyond
`maxInt`: on `zeroWidthTopRowsPaletted` (width 0, height 3) `Encode` does not
succeed, it never returns. -/
theorem Encode_zero_size_counterexample :
    InputImage.WellFormed (.paletted zeroWidthPaletted) ∧
    (InputImage.paletted zeroWidthPaletted).Bounds.Dx = 0 ∧
    (∀ (rt : Runtime) (fuel : Nat), 2 ≤ fuel → Encode rt fuel (.paletted zeroWidthPaletted)
      = .ok ([27] ++ bytes "Pq\"1;1;0;7#0;2;0;0;0" ++ [45] ++ [27, 92])) ∧
    (∀ (rt : Runtime) (fuel : Nat), Encode rt fuel (.paletted zeroWidthPaletted)
      ≠ .ok ([27] ++ bytes "Pq\"1;1;0;7#0;2;0;0;0" ++ [27, 92])) ∧
    InputImage.WellFormed (.paletted zeroWidthTopRowsPaletted) ∧
    (InputImage.paletted zeroWidthTopRowsPaletted).Bounds.Dx = 0 ∧
    (InputImage.paletted zeroWidthTopRowsPaletted).Bounds.Dy = 3 ∧
    ¬ bandsFit (InputImage.paletted zeroWidthTopRowsPaletted).Bounds ∧
    ∀ (rt : Runtime) (fuel : Nat),
      Encode rt fuel (.paletted zeroWidthTopRowsPaletted) = .error .outOfFuel := by
  have hall : ∀ (rt : Runtime) (fuel : Nat), 2 ≤ fuel →
      Encode rt fuel (.paletted zeroWidthPaletted)
        = .ok ([27] ++ bytes "Pq\"1;1;0;7#0;2;0;0;0" ++ [45] ++ [27, 92]) := by
    intro rt fuel hfuel
    obtain ⟨p, pm, hp, hpm, henc⟩ := Encode_no_pixels rt (.paletted zeroWidthPaletted)
      zeroWidthPaletted_wellFormed (by decide) (Or.inl (by decide))
    have hp2 : p = zeroWidthPaletted := by
      have : toPaletted rt (.paletted zeroWidthPaletted) = .ok zeroWidthPaletted := rfl
      rw [this] at hp
      simp only [Except.ok.injEq] at hp
      exact hp.symm
    subst hp2
    have hpm2 : pm = [(Color.colorRGBA 0 0 0 255, 0)] := by
      have : createPaletteMap zeroWidthPaletted.Palette
          = .ok [(Color.colorRGBA 0 0 0 255, 0)] := by decide
      rw [this] at hpm
      simp only [Except.ok.injEq] at hpm
      exact hpm.symm
    subst hpm2
    have hs : paletteMap.String rt [(Color.colorRGBA 0 0 0 255, 0)] = bytes "#0;2;0;0;0" := by
      rw [paletteMap_String_eq,
        List.perm_singleton.mp (rt.rangePaletteMap_perm [(Color.colorRGBA 0 0 0 255, 0)])]
      decide
    have hn : ((InputImage.paletted zeroWidthPaletted).Bounds.Dy.toNat + 5) / 6 = 2 := by
      decide
    rw [henc fuel (by rw [hn]; exact hfuel), hs]
    decide
  refine ⟨zeroWidthPaletted_wellFormed, by decide, hall, ?_,
    zeroWidthTopRowsPaletted_wellFormed, by decide, by decide, by decide,
    fun rt fuel => Encode_diverges rt (.paletted zeroWidthTopRowsPaletted)
      zeroWidthTopRowsPaletted_wellFormed (by decide) fuel⟩
  intro rt fuel h
  have h2 := Encode_mono rt fuel (fuel + 2) (.paletted zeroWidthPaletted) _ h (by omega)
  rw [hall rt (fuel + 2) (by omega)] at h2
  revert h2
  decide

/-- C17 (amended). For every well-formed image whose height is 0, or whose
width is 0 while its bands fit the type `int` (`Min.Y + 6 * ceil(H/6) ≤ maxInt`),
`Encode` succeeds, after `ceil(H/6)` rounds of the band loop, and writes no
colour entry and no `$`: between the palette definitions and the terminator
stand only the `ceil(H/6) - 1` band separators `-`. When the height is at most 6
(in particular when it is 0) that is nothing at all, and the output is exactly
the introducer, the raster attributes, the palette definitions and the
terminator. -/
theorem Encode_zero_size (rt : Runtime) (img : InputImage) (hwf : img.WellFormed)
    (hzero : (img.Bounds.Dx = 0 ∧ bandsFit img.Bounds) ∨ img.Bounds.Dy = 0) :
    ∃ p pm, toPaletted rt img = .ok p ∧ createPaletteMap p.Palette = .ok pm ∧
      (∀ fuel, (img.Bounds.Dy.toNat + 5) / 6 ≤ fuel →
        Encode rt fuel img = .ok ([27, 80, 113] ++ bytes "\"1;1;" ++ fmtNat img.Bounds.Dx.toNat
          ++ bytes ";" ++ fmtNat img.Bounds.Dy.toNat ++ paletteMap.String rt pm
          ++ List.replicate ((img.Bounds.Dy.toNat + 5) / 6 - 1) 45 ++ [27, 92])) ∧
      (img.Bounds.Dy ≤ 6 → ∀ fuel, (img.Bounds.Dy.toNat + 5) / 6 ≤ fuel →
        Encode rt fuel img = .ok ([27, 80, 113] ++ bytes "\"1;1;" ++ fmtNat img.Bounds.Dx.toNat
          ++ bytes ";" ++ fmtNat img.Bounds.Dy.toNat ++ paletteMap.String rt pm
          ++ [27, 92])) := by
  have hfit : bandsFit img.Bounds := by
    rcases hzero with h | h
    · exact h.2
    · have hmin : img.Bounds.Min.Y ≤ maxInt := hwf.1.2.1.2
      unfold bandsFit
      rw [h]
      simpa using hmin
  obtain ⟨p, pm, hp, hpm, henc⟩ := Encode_no_pixels rt img hwf hfit
    (hzero.imp (fun h => h.1) (fun h => h))
  refine ⟨p, pm, hp, hpm, henc, ?_⟩
  intro h6 fuel hfuel
  have hn : (img.Bounds.Dy.toNat + 5) / 6 - 1 = 0 := by omega
  rw [henc fuel hfuel, hn]
  simp

/-- Witness for C17 (amended): a generic image of width 5 and height 0. -/
theorem Encode_zero_size_witness :
    InputImage.WellFormed
      (.other ⟨⟨⟨0, 0⟩, ⟨5, 0⟩⟩, fun _ _ => Color.colorRGBA 1 2 3 255⟩) ∧
    (InputImage.other ⟨⟨⟨0, 0⟩, ⟨5, 0⟩⟩, fun _ _ => Color.colorRGBA 1 2 3 255⟩).Bounds.Dy = 0 ∧
    (∃ p pm, toPaletted Runtime.insertionOrder
        (.other ⟨⟨⟨0, 0⟩, ⟨5, 0⟩⟩, fun _ _ => Color.colorRGBA 1 2 3 255⟩) = .ok p ∧
      createPaletteMap p.Palette = .ok pm) ∧
    Encode Runtime.insertionOrder 0
        (.other ⟨⟨⟨0, 0⟩, ⟨5, 0⟩⟩, fun _ _ => Color.colorRGBA 1 2 3 255⟩)
      = .ok ([27] ++ bytes "Pq\"1;1;5;0" ++ [27, 92]) :=
  ⟨⟨by decide, by decide, trivial⟩, by decide,
   (Encode_zero_size Runtime.insertionOrder
      (.other ⟨⟨⟨0, 0⟩, ⟨5, 0⟩⟩, fun _ _ => Color.colorRGBA 1 2 3 255⟩)
      ⟨by decide, by decide, trivial⟩ (Or.inr (by decide))).imp
     (fun _ h => h.imp (fun _ h2 => ⟨h2.1, h2.2.1⟩)),
   by decide⟩

/-! ## The masks of a band cover it exactly once -/

/-- The bits of the unbiased mask that `Encode` builds for colour `c`. -/
theorem mask_testBit (img : Paletted) (bounds : Rectangle) (c : Option Color) (x curY : Int)
    (i : Nat) :
    (pixelLoop img bounds c x curY bandHeight 0 0).testBit i = true ↔
      (i < 6 ∧ curY + (i : Int) < bounds.Max.Y ∧ c = img.At x (curY + (i : Int))) := by
  have h := (pixelLoop_spec img bounds c x curY bandHeight 0 0 (by norm_num)).2 i
  rw [h]
  simp only [bandHeight, Nat.zero_add, Nat.zero_testBit, Bool.false_eq_true, false_or,
    Nat.zero_le, true_and]

theorem foldl_lor_testBit (l : List Nat) (i : Nat) :
    ∀ a : Nat, (l.foldl (fun u v => u ||| v) a).testBit i = true ↔
      (a.testBit i = true ∨ ∃ m ∈ l, m.testBit i = true) := by
  induction l with
  | nil => intro a; simp
  | cons m l ih =>
    intro a
    simp only [List.foldl_cons, ih, Nat.testBit_or, Bool.or_eq_true, List.mem_cons]
    constructor
    · rintro ((h | h) | ⟨m2, hm2, h⟩)
      · exact Or.inl h
      · exact Or.inr ⟨m, Or.inl rfl, h⟩
      · exact Or.inr ⟨m2, Or.inr hm2, h⟩
    · rintro (h | ⟨m2, rfl | hm2, h⟩)
      · exact Or.inl (Or.inl h)
      · exact Or.inl (Or.inr h)
      · exact Or.inr ⟨m2, hm2, h⟩

/-- C18 (amended). For a band whose top row `curY` is a value of type `int`
above the bottom of the image with `curY + 6 ≤ maxInt`, and a column `x` of the
image, the unbiased six-bit masks that `Encode` builds for the distinct colours
of the band (`sixelPixel` is the mask plus 63) are pairwise bit-disjoint, and
their bitwise OR, taken in any order of the colours, is `2^h - 1` with
`h = min(6, rows remaining from curY)`: for every row `i < h` of the band the
pixel `(x, curY + i)` has a colour of the band, and bit `i` is set in the mask of
that colour and of no other. -/
theorem band_masks_partition (img : Paletted) (bounds : Rectangle) (x curY : Int)
    (hx : bounds.Min.X ≤ x ∧ x < bounds.Max.X) (htop : curY < bounds.Max.Y)
    (hcur : isInt curY) (hfit : curY + 6 ≤ maxInt) :
    (findUniqueColorsInBand img bounds curY).Nodup ∧
    (∀ c, sixelPixel img bounds c x curY = pixelLoop img bounds c x curY bandHeight 0 0 + 63) ∧
    (∀ c1 ∈ findUniqueColorsInBand img bounds curY,
      ∀ c2 ∈ findUniqueColorsInBand img bounds curY, c1 ≠ c2 →
        pixelLoop img bounds c1 x curY bandHeight 0 0
          &&& pixelLoop img bounds c2 x curY bandHeight 0 0 = 0) ∧
    (∀ l : List (Option Color), l.Perm (findUniqueColorsInBand img bounds curY) →
      (l.map (fun c => pixelLoop img bounds c x curY bandHeight 0 0)).foldl
          (fun u v => u ||| v) 0
        = 2 ^ (min 6 (bounds.Max.Y - curY).toNat) - 1) ∧
    (∀ i : Nat, i < min 6 (bounds.Max.Y - curY).toNat →
      img.At x (curY + (i : Int)) ∈ findUniqueColorsInBand img bounds curY ∧
      ∀ c, (pixelLoop img bounds c x curY bandHeight 0 0).testBit i = true ↔
        c = img.At x (curY + (i : Int))) := by
  have hrow : ∀ i : Nat, i < min 6 (bounds.Max.Y - curY).toNat ↔
      (i < 6 ∧ curY + (i : Int) < bounds.Max.Y) := by
    intro i
    omega
  have hmem : ∀ i : Nat, i < min 6 (bounds.Max.Y - curY).toNat →
      img.At x (curY + (i : Int)) ∈ findUniqueColorsInBand img bounds curY := by
    intro i hi
    rw [mem_findUniqueColorsInBand_of_fit img bounds curY hcur hfit]
    have := (hrow i).mp hi
    exact ⟨x, curY + (i : Int), hx.1, hx.2, by omega, by omega, this.2, rfl⟩
  refine ⟨findUniqueColorsInBand_nodup img bounds curY, fun c => rfl, ?_, ?_, ?_⟩
  · intro c1 _ c2 _ hne
    apply Nat.eq_of_testBit_eq
    intro i
    rw [Nat.testBit_and, Nat.zero_testBit]
    cases h1 : (pixelLoop img bounds c1 x curY bandHeight 0 0).testBit i with
    | false => rfl
    | true =>
      cases h2 : (pixelLoop img bounds c2 x curY bandHeight 0 0).testBit i with
      | false => rfl
      | true =>
        exfalso
        have e1 := ((mask_testBit img bounds c1 x curY i).mp h1).2.2
        have e2 := ((mask_testBit img bounds c2 x curY i).mp h2).2.2
        exact hne (e1.trans e2.symm)
  · intro l hl
    apply Nat.eq_of_testBit_eq
    intro i
    rw [Nat.testBit_two_pow_sub_one]
    rw [Bool.eq_iff_iff, foldl_lor_testBit, decide_eq_true_iff, hrow i]
    simp only [Nat.zero_testBit, Bool.false_eq_true, false_or, List.mem_map]
    constructor
    · rintro ⟨m, ⟨c, _, rfl⟩, hm⟩
      have := (mask_testBit img bounds c x curY i).mp hm
      exact ⟨this.1, this.2.1⟩
    · intro hi
      refine ⟨_, ⟨img.At x (curY + (i : Int)), ?_, rfl⟩, ?_⟩
      · rw [hl.mem_iff]
        exact hmem i ((hrow i).mpr hi)
      · exact (mask_testBit img bounds _ x curY i).mpr ⟨hi.1, hi.2, rfl⟩
  · intro i hi
    refine ⟨hmem i hi, fun c => ?_⟩
    rw [mask_testBit]
    have := (hrow i).mp hi
    constructor
    · intro h; exact h.2.2
    · intro h; exact ⟨this.1, this.2, h⟩

/-- Witness for C18 (amended): column 1 of the first band of the sample image;
the masks of its two colours are 2 and 61. -/
theorem band_masks_partition_witness :
    (samplePaletted.Rect.Min.X ≤ 1 ∧ (1 : Int) < samplePaletted.Rect.Max.X) ∧
    (0 : Int) < samplePaletted.Rect.Max.Y ∧ isInt 0 ∧ (0 : Int) + 6 ≤ maxInt ∧
    (findUniqueColorsInBand samplePaletted samplePaletted.Rect 0).Nodup ∧
    findUniqueColorsInBand samplePaletted samplePaletted.Rect 0
      = [some (Color.colorRGBA 0 255 0 255), some (Color.colorRGBA 255 0 0 255)] ∧
    pixelLoop samplePaletted samplePaletted.Rect (some (Color.colorRGBA 0 255 0 255)) 1 0
      bandHeight 0 0 = 2 ∧
    pixelLoop samplePaletted samplePaletted.Rect (some (Color.colorRGBA 255 0 0 255)) 1 0
      bandHeight 0 0 = 61 :=
  ⟨by decide, by decide, by decide, by decide,
   (band_masks_partition samplePaletted samplePaletted.Rect 1 0 (by decide) (by decide)
      (by decide) (by decide)).1,
   by decide, by decide, by decide⟩

/-- C18, as stated, fails for a band whose top row is within 6 of `maxInt`. In
the only band of `topRowsPaletted` (top row `maxInt - 3`, three rows) the sum
`yStart+bandHeight` wraps around and `findUniqueColorsInBand` finds no colour, so
`Encode` builds no mask for the band: the OR of its masks is 0 and not
`2^3 - 1 = 7`, and the three black pixels of column 0, whose mask would be 7,
are painted by no colour line. -/
theorem band_masks_partition_counterexample :
    (topRowsPaletted.Rect.Min.X ≤ 0 ∧ (0 : Int) < topRowsPaletted.Rect.Max.X) ∧
    topRowsPaletted.Rect.Min.Y < topRowsPaletted.Rect.Max.Y ∧
    isInt topRowsPaletted.Rect.Min.Y ∧
    maxInt < topRowsPaletted.Rect.Min.Y + 6 ∧
    findUniqueColorsInBand topRowsPaletted topRowsPaletted.Rect topRowsPaletted.Rect.Min.Y
      = [] ∧
    ((findUniqueColorsInBand topRowsPaletted topRowsPaletted.Rect
        topRowsPaletted.Rect.Min.Y).map
      (fun c => pixelLoop topRowsPaletted topRowsPaletted.Rect c 0 topRowsPaletted.Rect.Min.Y
        bandHeight 0 0)).foldl (fun u v => u ||| v) 0 = 0 ∧
    2 ^ (min 6 (topRowsPaletted.Rect.Max.Y - topRowsPaletted.Rect.Min.Y).toNat) - 1 = 7 ∧
    topRowsPaletted.At 0 topRowsPaletted.Rect.Min.Y = some (Color.colorRGBA 0 0 0 255) ∧
    pixelLoop topRowsPaletted topRowsPaletted.Rect (some (Color.colorRGBA 0 0 0 255)) 0
      topRowsPaletted.Rect.Min.Y bandHeight 0 0 = 7 := by
  have hcs : findUniqueColorsInBand topRowsPaletted topRowsPaletted.Rect
      topRowsPaletted.Rect.Min.Y = [] :=
    findUniqueColorsInBand_of_wrap _ _ _ (by decide) (by decide)
  refine ⟨by decide, by decide, by decide, by decide, hcs, ?_, by decide, by decide,
    by decide⟩
  rw [hcs]
  rfl

/-! ## Run-length code on the Sixel data alphabet -/

/-- Every character of a mask line lies in `?`..`~`. -/
theorem maskLine_alphabet (img : Paletted) (bounds : Rectangle) (c : Option Color) (curY : Int) :
    ∀ v ∈ maskLine img bounds c curY, 63 ≤ v ∧ v ≤ 126 := by
  intro v hv
  rw [maskLine_eq, List.mem_map] at hv
  obtain ⟨x, _, rfl⟩ := hv
  have h := (pixelLoop_spec img bounds c x curY bandHeight 0 0 (by norm_num)).1
  unfold sixelPixel sixelOffset
  simp only [bandHeight] at h ⊢
  omega

/-- C19. For every string over the Sixel data alphabet (codes 63..126, `?` to
`~`), which is what `Encode` passes (every mask line is such a string), decoding
`rleEncode s` by expanding each `!<decimal n><c>` to `c` repeated `n` times and
copying every other character yields `s` exactly. The output is the
concatenation of one piece per maximal run of `s`: a run of at most 2 characters
is written out and so holds neither `!` nor a digit; a longer run is `!`, the
decimal digits of its length and its character, which is neither `!` nor a
digit. So `!` and digits occur in `rleEncode s` only in run markers. -/
theorem rleEncode_sixel_alphabet (s : Bytes) (h : ∀ c ∈ s, 63 ≤ c ∧ c ≤ 126) :
    rleDecode (rleEncode s) = s ∧
    rleEncode s = (runs s).flatMap renderRun ∧
    (∀ run ∈ runs s, (63 ≤ run.1 ∧ run.1 ≤ 126) ∧ isPlain run.1 ∧
      (run.2 ≤ 2 → renderRun run = List.replicate run.2 run.1 ∧
        ∀ v ∈ renderRun run, isPlain v) ∧
      (2 < run.2 → renderRun run = 33 :: (decimal run.2 ++ [run.1]) ∧
        ∀ d ∈ decimal run.2, 48 ≤ d ∧ d ≤ 57)) ∧
    (∀ (img : Paletted) (bounds : Rectangle) (c : Option Color) (curY : Int),
      ∀ v ∈ maskLine img bounds c curY, 63 ≤ v ∧ v ≤ 126) := by
  have hplain : ∀ c ∈ s, c < 128 ∧ isPlain c := by
    intro c hc
    have := h c hc
    unfold isPlain
    omega
  refine ⟨rleDecode_rleEncode_of_plain s hplain,
    rleEncode_eq_reference s (fun c hc => (hplain c hc).1), ?_,
    fun img bounds c curY => maskLine_alphabet img bounds c curY⟩
  intro run hrun
  have hmem := runs_char_mem s run hrun
  have hp := (hplain run.1 hmem).2
  refine ⟨h run.1 hmem, hp, ?_, ?_⟩
  · intro h2
    have hr : renderRun run = List.replicate run.2 run.1 := by
      unfold renderRun
      simp only [h2, if_true]
    refine ⟨hr, ?_⟩
    intro v hv
    rw [hr, List.mem_replicate] at hv
    rw [hv.2]
    exact hp
  · intro h2
    have hn : ¬ run.2 ≤ 2 := by omega
    refine ⟨?_, decimal_digits run.2⟩
    unfold renderRun
    simp only [hn, if_false]

/-- Witness for C19: a mask line with a run of five `?` and two `~`. -/
theorem rleEncode_sixel_alphabet_witness :
    (∀ c ∈ bytes "?????@~~", 63 ≤ c ∧ c ≤ 126) ∧
    rleEncode (bytes "?????@~~") = bytes "!5?@~~" ∧
    rleDecode (rleEncode (bytes "?????@~~")) = bytes "?????@~~" :=
  ⟨by decide, by decide, (rleEncode_sixel_alphabet (bytes "?????@~~") (by decide)).1⟩

/-! ## Length of the run-length code -/

theorem decimal_length_le (n : Nat) : 1 ≤ n → (decimal n).length ≤ n / 10 + 1 := by
  induction n using Nat.strong_induction_on with
  | _ n ih =>
    intro hn
    rw [decimal_step n (by omega), List.length_append, List.length_singleton]
    by_cases h : n < 10
    · have h0 : n / 10 = 0 := by omega
      rw [h0, decimal_zero]
      simp
    · have := ih (n / 10) (by omega) (by omega)
      omega

theorem decimal_length_pos (n : Nat) (hn : 1 ≤ n) : 1 ≤ (decimal n).length := by
  rw [decimal_step n (by omega), List.length_append, List.length_singleton]
  omega

/-- The rendering of a run is never longer than the run, and as long as the
run exactly when the run has at most 3 characters. -/
theorem renderRun_length (c n : Nat) :
    (renderRun (c, n)).length ≤ n ∧ ((renderRun (c, n)).length = n ↔ n ≤ 3) := by
  by_cases h : n ≤ 2
  · have hlen : (renderRun (c, n)).length = n := by
      unfold renderRun
      simp only [h, if_true, List.length_replicate]
    rw [hlen]
    exact ⟨Nat.le_refl _, by omega⟩
  · have h1 := decimal_length_le n (by omega)
    have h2 := decimal_length_pos n (by omega)
    have hlen : (renderRun (c, n)).length = (decimal n).length + 2 := by
      unfold renderRun
      simp only [h, if_false, List.length_cons, List.length_append, List.length_nil]
    rw [hlen]
    constructor
    · omega
    · constructor
      · intro heq; omega
      · intro h3
        have h4 : n = 3 := by omega
        subst h4
        have : 3 / 10 = 0 := by norm_num
        omega

theorem flatMap_renderRun_length (rs : List (Nat × Nat)) :
    (rs.flatMap renderRun).length ≤ (rs.flatMap (fun run => List.replicate run.2 run.1)).length ∧
    ((rs.flatMap renderRun).length = (rs.flatMap (fun run => List.replicate run.2 run.1)).length
      ↔ ∀ run ∈ rs, run.2 ≤ 3) := by
  induction rs with
  | nil => simp
  | cons r rs ih =>
    obtain ⟨c, n⟩ := r
    obtain ⟨h1, h2⟩ := renderRun_length c n
    obtain ⟨ih1, ih2⟩ := ih
    simp only [List.flatMap_cons, List.length_append, List.length_replicate, List.mem_cons,
      forall_eq_or_imp]
    constructor
    · omega
    · constructor
      · intro heq
        exact ⟨h2.mp (by omega), ih2.mp (by omega)⟩
      · rintro ⟨ha, hb⟩
        have := h2.mpr ha
        have := ih2.mpr hb
        omega

/-- C20. Run-length encoding never expands an ASCII string: the length of
`rleEncode s` is at most the length of `s`, and it is equal exactly when `s` has
no run of identical consecutive characters longer than 3. -/
theorem rleEncode_length (s : Bytes) (h : ∀ c ∈ s, c < 128) :
    (rleEncode s).length ≤ s.length ∧
    ((∀ run ∈ runs s, run.2 ≤ 3) → (rleEncode s).length = s.length) ∧
    ((rleEncode s).length = s.length → ∀ run ∈ runs s, run.2 ≤ 3) := by
  obtain ⟨h1, h2⟩ := flatMap_renderRun_length (runs s)
  rw [runs_concat] at h1 h2
  rw [rleEncode_eq_reference s h]
  unfold rleReference
  exact ⟨h1, h2.mpr, h2.mp⟩

/-- Witness for C20: runs of length 3 keep the length, a run of 4 shortens. -/
theorem rleEncode_length_witness :
    (∀ c ∈ bytes "aaabbc", c < 128) ∧
    (rleEncode (bytes "aaabbc")).length ≤ (bytes "aaabbc").length ∧
    rleEncode (bytes "aaabbc") = bytes "!3abbc" ∧
    rleEncode (bytes "aaaab") = bytes "!4ab" :=
  ⟨by decide, (rleEncode_length (bytes "aaabbc") (by decide)).1, by decide, by decide⟩

end sixel
